import Mathlib

/-!
# Deformable im2col / col2im (nnabla-ext-cuda)

A shallow embedding of `include/nbla/cuda/utils/deformable_im2col.hpp`:
the bilinear sampling primitive, its two gradient-weight primitives, the
forward resampler kernel, the image-gradient kernel, the offset/mask-gradient
kernel and the three host launchers.

Conventions of the embedding.

* The element type `T` is modelled by the rationals: exact arithmetic, no
  rounding.  C `int` values inside the kernels are modelled by `ℤ`; C integer
  division and remainder are `Int.tdiv` and `Int.tmod` (rounding toward zero).
  The launch size `num_kernels` each launcher computes as a product of `int`s
  is reduced to 32 bits (`int32`).
* A device pointer `const T *` / `T *` is a total map from element index to
  value (`Buf`); pointer arithmetic `ptr + k` is `ptrAdd ptr k`; a pointer into
  an output buffer that is advanced by the code is an integer position into
  that buffer.
* A kernel launch is the sequential composition of its per-index bodies over
  the flat index space `0, 1, ..., n - 1`.
-/

namespace DeformableIm2col

/-- A device buffer: element index to value. -/
abbrev Buf := ℤ → ℚ

/-- Pointer arithmetic: the buffer seen from `ptr + k`. -/
def ptrAdd (ptr : Buf) (k : ℤ) : Buf := fun m => ptr (k + m)

/-- The values `0, 1, ..., n - 1` taken by `for (int i = 0; i < n; ++i)`. -/
def loopRange (n : ℤ) : List ℤ := (List.range n.toNat).map (fun k : ℕ => (k : ℤ))

/-- The C conversion `(int)x` of a floating value: rounding toward zero. -/
def castInt (x : ℚ) : ℤ := if 0 ≤ x then ⌊x⌋ else ⌈x⌉

/-- Modelled from the spec: `atomic_add` of `nbla/cuda/utils/atomic_add.cuh`
(not part of the sources at hand), the atomic accumulate `*ptr += v` on one
cell of a buffer. -/
def atomic_add (buf : Buf) (pos : ℤ) (v : ℚ) : Buf :=
  Function.update buf pos (buf pos + v)

/-- Modelled from the spec: `NBLA_CUDA_KERNEL_LOOP(idx, n)` of
`nbla/cuda/common.hpp` (not part of the sources at hand): the body is run once
for every flat index `idx` in `[0, n)`; here in increasing order. -/
def kernelLoop {σ : Type} (n : ℤ) (body : σ → ℤ → σ) (init : σ) : σ :=
  (loopRange n).foldl body init

/-- The integer arguments shared by the three kernels. -/
structure Footprint where
  height : ℤ
  width : ℤ
  kernel_h : ℤ
  kernel_w : ℤ
  pad_h : ℤ
  pad_w : ℤ
  stride_h : ℤ
  stride_w : ℤ
  dilation_h : ℤ
  dilation_w : ℤ
  channel_per_deformable_group : ℤ
  channels : ℤ
  deformable_group : ℤ
  height_col : ℤ
  width_col : ℤ
  deriving DecidableEq, Repr

/-- Embedding of `im2col_bilinear_cuda`. -/
def im2col_bilinear_cuda (bottom_data : Buf) (data_width height width : ℤ)
    (h w : ℚ) : ℚ :=
  let h_low : ℤ := ⌊h⌋
  let w_low : ℤ := ⌊w⌋
  let h_high : ℤ := h_low + 1
  let w_high : ℤ := w_low + 1
  let lh : ℚ := h - h_low
  let lw : ℚ := w - w_low
  let hh : ℚ := 1 - lh
  let hw : ℚ := 1 - lw
  let v1 : ℚ := if h_low ≥ 0 ∧ w_low ≥ 0 then bottom_data (h_low * data_width + w_low) else 0
  let v2 : ℚ :=
    if h_low ≥ 0 ∧ w_high ≤ width - 1 then bottom_data (h_low * data_width + w_high) else 0
  let v3 : ℚ :=
    if h_high ≤ height - 1 ∧ w_low ≥ 0 then bottom_data (h_high * data_width + w_low) else 0
  let v4 : ℚ :=
    if h_high ≤ height - 1 ∧ w_high ≤ width - 1 then
      bottom_data (h_high * data_width + w_high) else 0
  let w1 : ℚ := hh * hw
  let w2 : ℚ := hh * lw
  let w3 : ℚ := lh * hw
  let w4 : ℚ := lh * lw
  w1 * v1 + w2 * v2 + w3 * v3 + w4 * v4

/-- Embedding of `get_gradient_weight_cuda`.  The four `if`s of the source are
sequential assignments to `weight`, the last matching one wins. -/
def get_gradient_weight_cuda (argmax_h argmax_w : ℚ) (h w height width : ℤ) : ℚ :=
  if argmax_h ≤ -1 ∨ argmax_h ≥ height ∨ argmax_w ≤ -1 ∨ argmax_w ≥ width then 0
  else
    let argmax_h_low : ℤ := ⌊argmax_h⌋
    let argmax_w_low : ℤ := ⌊argmax_w⌋
    let argmax_h_high : ℤ := argmax_h_low + 1
    let argmax_w_high : ℤ := argmax_w_low + 1
    let weight0 : ℚ := 0
    let weight1 : ℚ :=
      if h = argmax_h_low ∧ w = argmax_w_low then (h + 1 - argmax_h) * (w + 1 - argmax_w)
      else weight0
    let weight2 : ℚ :=
      if h = argmax_h_low ∧ w = argmax_w_high then (h + 1 - argmax_h) * (argmax_w + 1 - w)
      else weight1
    let weight3 : ℚ :=
      if h = argmax_h_high ∧ w = argmax_w_low then (argmax_h + 1 - h) * (w + 1 - argmax_w)
      else weight2
    let weight4 : ℚ :=
      if h = argmax_h_high ∧ w = argmax_w_high then (argmax_h + 1 - h) * (argmax_w + 1 - w)
      else weight3
    weight4

/-- Embedding of `get_coordinate_weight_cuda`.  Each guarded `weight += ...` of
the source is one summand. -/
def get_coordinate_weight_cuda (argmax_h argmax_w : ℚ) (height width : ℤ)
    (im_data : Buf) (data_width bp_dir : ℤ) : ℚ :=
  if argmax_h ≤ -1 ∨ argmax_h ≥ height ∨ argmax_w ≤ -1 ∨ argmax_w ≥ width then 0
  else
    let argmax_h_low : ℤ := ⌊argmax_h⌋
    let argmax_w_low : ℤ := ⌊argmax_w⌋
    let argmax_h_high : ℤ := argmax_h_low + 1
    let argmax_w_high : ℤ := argmax_w_low + 1
    if bp_dir = 0 then
      (if argmax_h_low ≥ 0 ∧ argmax_w_low ≥ 0 then
          -1 * (argmax_w_low + 1 - argmax_w) *
            im_data (argmax_h_low * data_width + argmax_w_low) else 0)
      + (if argmax_h_low ≥ 0 ∧ argmax_w_high ≤ width - 1 then
          -1 * (argmax_w - argmax_w_low) *
            im_data (argmax_h_low * data_width + argmax_w_high) else 0)
      + (if argmax_h_high ≤ height - 1 ∧ argmax_w_low ≥ 0 then
          (argmax_w_low + 1 - argmax_w) *
            im_data (argmax_h_high * data_width + argmax_w_low) else 0)
      + (if argmax_h_high ≤ height - 1 ∧ argmax_w_high ≤ width - 1 then
          (argmax_w - argmax_w_low) *
            im_data (argmax_h_high * data_width + argmax_w_high) else 0)
    else if bp_dir = 1 then
      (if argmax_h_low ≥ 0 ∧ argmax_w_low ≥ 0 then
          -1 * (argmax_h_low + 1 - argmax_h) *
            im_data (argmax_h_low * data_width + argmax_w_low) else 0)
      + (if argmax_h_low ≥ 0 ∧ argmax_w_high ≤ width - 1 then
          (argmax_h_low + 1 - argmax_h) *
            im_data (argmax_h_low * data_width + argmax_w_high) else 0)
      + (if argmax_h_high ≤ height - 1 ∧ argmax_w_low ≥ 0 then
          -1 * (argmax_h - argmax_h_low) *
            im_data (argmax_h_high * data_width + argmax_w_low) else 0)
      + (if argmax_h_high ≤ height - 1 ∧ argmax_w_high ≤ width - 1 then
          (argmax_h - argmax_h_low) *
            im_data (argmax_h_high * data_width + argmax_w_high) else 0)
    else 0

/-! ## Forward resampler -/

/-- The value stored for tap `(i, j)` by the forward kernel: the part of the
body of the inner `for j` loop that precedes the store. -/
def im2col_tap_value (MODULATED : Bool) (data_im_ptr data_offset_ptr data_mask_ptr : Buf)
    (p : Footprint) (h_in w_in i j : ℤ) : ℚ :=
  let data_offset_h_ptr : ℤ := ((2 * (i * p.kernel_w + j)) * p.height + h_in) * p.width + w_in
  let data_offset_w_ptr : ℤ :=
    ((2 * (i * p.kernel_w + j) + 1) * p.height + h_in) * p.width + w_in
  let offset_h : ℚ := data_offset_ptr data_offset_h_ptr
  let offset_w : ℚ := data_offset_ptr data_offset_w_ptr
  let h_im : ℚ := h_in + i * p.dilation_h + offset_h - p.pad_h
  let w_im : ℚ := w_in + j * p.dilation_w + offset_w - p.pad_w
  let val : ℚ :=
    if h_im > -1 ∧ w_im > -1 ∧ h_im < p.height ∧ w_im < p.width then
      im2col_bilinear_cuda data_im_ptr p.width p.height p.width h_im w_im
    else 0
  if MODULATED then
    let data_mask_hw_ptr : ℤ := ((i * p.kernel_w + j) * p.height + h_in) * p.width + w_in
    let mask : ℚ := data_mask_ptr data_mask_hw_ptr
    val * mask
  else val

/-- One tap `(i, j)` of the forward kernel: the body of the inner `for j` loop.
The state is the column buffer and the position of `data_col_ptr` in it; the
value is stored through the pointer, which then moves forward by
`height_col * width_col`. -/
def im2col_tap (MODULATED : Bool) (data_im_ptr data_offset_ptr data_mask_ptr : Buf)
    (p : Footprint) (h_in w_in i j : ℤ) (st : Buf × ℤ) : Buf × ℤ :=
  (Function.update st.1 st.2
      (im2col_tap_value MODULATED data_im_ptr data_offset_ptr data_mask_ptr p h_in w_in i j),
    st.2 + p.height_col * p.width_col)

/-- The body of `NBLA_CUDA_KERNEL_LOOP` in `modulated_deformable_im2col_gpu_kernel`
for one flat index `idx`. -/
def im2col_thread (MODULATED : Bool) (data_im data_offset data_mask : Buf)
    (p : Footprint) (data_col : Buf) (idx : ℤ) : Buf :=
  let w_col : ℤ := idx.tmod p.width_col
  let h_col : ℤ := (idx.tdiv p.width_col).tmod p.height_col
  let c_im : ℤ := (idx.tdiv p.width_col).tdiv p.height_col
  let c_col : ℤ := c_im * p.kernel_h * p.kernel_w
  let data_col_ptr : ℤ := (c_col * p.height_col + h_col) * p.width_col + w_col
  let deformable_group_index : ℤ := c_im.tdiv p.channel_per_deformable_group
  let h_in : ℤ := h_col * p.stride_h
  let w_in : ℤ := w_col * p.stride_w
  let data_im_ptr : Buf := ptrAdd data_im ((c_im * p.height) * p.width)
  let data_offset_ptr : Buf :=
    ptrAdd data_offset (deformable_group_index * 2 * p.kernel_h * p.kernel_w * p.height * p.width)
  let data_mask_ptr : Buf :=
    if MODULATED then
      ptrAdd data_mask (deformable_group_index * p.kernel_h * p.kernel_w * p.height * p.width)
    else data_mask
  ((loopRange p.kernel_h).foldl
    (fun st i => (loopRange p.kernel_w).foldl
      (fun st j =>
        im2col_tap MODULATED data_im_ptr data_offset_ptr data_mask_ptr p h_in w_in i j st) st)
    (data_col, data_col_ptr)).1

/-- Embedding of `modulated_deformable_im2col_gpu_kernel`: the column buffer
after the launch over `n` flat indices. -/
def modulated_deformable_im2col_gpu_kernel (MODULATED : Bool) (n : ℤ)
    (data_im data_offset data_mask : Buf) (p : Footprint) (data_col : Buf) : Buf :=
  kernelLoop n (im2col_thread MODULATED data_im data_offset data_mask p) data_col

/-! ## Image-gradient backward -/

/-- The values `-2, -1, 0, 1, 2` taken by `for (int dy = -2; dy <= 2; dy++)`. -/
def scanRange : List ℤ := [-2, -1, 0, 1, 2]

/-- The body of the `dy`/`dx` scan of `modulated_deformable_col2im_gpu_kernel`
for one neighbour `(dy, dx)`. -/
def col2im_neighbor (p : Footprint) (c : ℤ) (cur_inv_h_data cur_inv_w_data : ℚ)
    (cur_h cur_w : ℤ) (cur_top_grad : ℚ) (dy dx : ℤ) (grad_im : Buf) : Buf :=
  if cur_h + dy ≥ 0 ∧ cur_h + dy < p.height ∧ cur_w + dx ≥ 0 ∧ cur_w + dx < p.width ∧
      |cur_inv_h_data - ((cur_h + dy : ℤ) : ℚ)| < 1 ∧
      |cur_inv_w_data - ((cur_w + dx : ℤ) : ℚ)| < 1 then
    let cur_bottom_grad_pos : ℤ := (c * p.height + cur_h + dy) * p.width + cur_w + dx
    let weight : ℚ :=
      get_gradient_weight_cuda cur_inv_h_data cur_inv_w_data (cur_h + dy) (cur_w + dx)
        p.height p.width
    atomic_add grad_im cur_bottom_grad_pos (weight * cur_top_grad)
  else grad_im

/-- The body of `NBLA_CUDA_KERNEL_LOOP` in `modulated_deformable_col2im_gpu_kernel`
for one flat index `idx`. -/
def col2im_thread (MODULATED : Bool) (data_col data_offset data_mask : Buf)
    (p : Footprint) (grad_im : Buf) (idx : ℤ) : Buf :=
  let w_out : ℤ := idx.tmod p.width_col
  let h_out : ℤ := (idx.tdiv p.width_col).tmod p.height_col
  let w_in : ℤ := w_out * p.stride_w
  let h_in : ℤ := h_out * p.stride_h
  let j : ℤ := ((idx.tdiv p.width_col).tdiv p.height_col).tmod p.kernel_w
  let i : ℤ := (((idx.tdiv p.width_col).tdiv p.height_col).tdiv p.kernel_w).tmod p.kernel_h
  let c : ℤ := (((idx.tdiv p.width_col).tdiv p.height_col).tdiv p.kernel_w).tdiv p.kernel_h
  let deformable_group_index : ℤ := c.tdiv p.channel_per_deformable_group
  let data_offset_ptr : Buf :=
    ptrAdd data_offset (deformable_group_index * 2 * p.kernel_h * p.kernel_w * p.height * p.width)
  let data_offset_h_ptr : ℤ := ((2 * (i * p.kernel_w + j)) * p.height + h_in) * p.width + w_in
  let data_offset_w_ptr : ℤ :=
    ((2 * (i * p.kernel_w + j) + 1) * p.height + h_in) * p.width + w_in
  let offset_h : ℚ := data_offset_ptr data_offset_h_ptr
  let offset_w : ℚ := data_offset_ptr data_offset_w_ptr
  let cur_inv_h_data : ℚ := h_in + i * p.dilation_h + offset_h - p.pad_h
  let cur_inv_w_data : ℚ := w_in + j * p.dilation_w + offset_w - p.pad_w
  let cur_top_grad : ℚ :=
    if MODULATED then
      let data_mask_ptr : Buf :=
        ptrAdd data_mask (deformable_group_index * p.kernel_h * p.kernel_w * p.height * p.width)
      let data_mask_hw_ptr : ℤ := ((i * p.kernel_w + j) * p.height + h_in) * p.width + w_in
      let mask : ℚ := data_mask_ptr data_mask_hw_ptr
      data_col idx * mask
    else data_col idx
  let cur_h : ℤ := castInt cur_inv_h_data
  let cur_w : ℤ := castInt cur_inv_w_data
  scanRange.foldl
    (fun g dy => scanRange.foldl
      (fun g dx =>
        col2im_neighbor p c cur_inv_h_data cur_inv_w_data cur_h cur_w cur_top_grad dy dx g) g)
    grad_im

/-- Embedding of `modulated_deformable_col2im_gpu_kernel`: the image-gradient
buffer after the launch over `n` flat indices. -/
def modulated_deformable_col2im_gpu_kernel (MODULATED : Bool) (n : ℤ)
    (data_col data_offset data_mask : Buf) (p : Footprint) (grad_im : Buf) : Buf :=
  kernelLoop n (col2im_thread MODULATED data_col data_offset data_mask p) grad_im

/-! ## Offset/mask-gradient backward -/

/-- One iteration of the `for col_c` loop of
`modulated_deformable_col2im_coord_gpu_kernel`.  The state is the pair
(offset-gradient buffer, mask-gradient buffer); `grad_offset_ptr` and
`grad_mask_ptr` are positions into these buffers. -/
def col2im_coord_body (MODULATED : Bool)
    (data_col_ptr data_im_ptr data_offset_ptr data_mask_ptr : Buf) (p : Footprint)
    (grad_offset_ptr grad_mask_ptr : ℤ) (h w offset_c : ℤ) (col_c cnt : ℤ)
    (st : Buf × Buf) : Buf × Buf :=
  let col_pos : ℤ := ((col_c * p.height_col) + h) * p.width_col + w
  let bp_dir : ℤ := offset_c.tmod 2
  let j : ℤ := ((col_pos.tdiv p.width_col).tdiv p.height_col).tmod p.kernel_w
  let i : ℤ := (((col_pos.tdiv p.width_col).tdiv p.height_col).tdiv p.kernel_w).tmod p.kernel_h
  let w_out : ℤ := col_pos.tmod p.width_col
  let h_out : ℤ := (col_pos.tdiv p.width_col).tmod p.height_col
  let w_in : ℤ := w_out * p.stride_w
  let h_in : ℤ := h_out * p.stride_h
  let data_offset_h_ptr : ℤ := ((2 * (i * p.kernel_w + j)) * p.height + h_in) * p.width + w_in
  let data_offset_w_ptr : ℤ :=
    ((2 * (i * p.kernel_w + j) + 1) * p.height + h_in) * p.width + w_in
  let offset_h : ℚ := data_offset_ptr data_offset_h_ptr
  let offset_w : ℚ := data_offset_ptr data_offset_w_ptr
  let inv_h0 : ℚ := h_in + i * p.dilation_h + offset_h - p.pad_h
  let inv_w0 : ℚ := w_in + j * p.dilation_w + offset_w - p.pad_w
  let oob : Prop := inv_h0 ≤ -1 ∨ inv_w0 ≤ -1 ∨ inv_h0 ≥ p.height ∨ inv_w0 ≥ p.width
  let inv_h : ℚ := if oob then -2 else inv_h0
  let inv_w : ℚ := if oob then -2 else inv_w0
  let weight : ℚ :=
    get_coordinate_weight_cuda inv_h inv_w p.height p.width
      (ptrAdd data_im_ptr (cnt * p.height * p.width)) p.width bp_dir
  let grad_offset_idx : ℤ := if bp_dir = 0 then data_offset_h_ptr else data_offset_w_ptr
  if MODULATED then
    let data_mask_hw_ptr : ℤ := ((i * p.kernel_w + j) * p.height + h_in) * p.width + w_in
    let mask : ℚ := data_mask_ptr data_mask_hw_ptr
    let grad_mask : Buf :=
      if offset_c.tmod 2 = 0 then
        if inv_h > -1 ∧ inv_w > -1 ∧ inv_h < p.height ∧ inv_w < p.width then
          Function.update st.2 (grad_mask_ptr + data_mask_hw_ptr)
            (st.2 (grad_mask_ptr + data_mask_hw_ptr) +
              data_col_ptr col_pos *
                im2col_bilinear_cuda (ptrAdd data_im_ptr (cnt * p.height * p.width)) p.width
                  p.height p.width inv_h inv_w)
        else st.2
      else st.2
    (Function.update st.1 (grad_offset_ptr + grad_offset_idx)
        (st.1 (grad_offset_ptr + grad_offset_idx) + weight * mask * data_col_ptr col_pos),
      grad_mask)
  else
    (Function.update st.1 (grad_offset_ptr + grad_offset_idx)
        (st.1 (grad_offset_ptr + grad_offset_idx) + weight * data_col_ptr col_pos),
      st.2)

/-- The loop `for (col_c = start; col_c < channel_per_deformable_group;
col_c += col_step) { body; cnt += 1; }`, with an iteration budget `fuel`. -/
def col2im_coord_loop (body : ℤ → ℤ → Buf × Buf → Buf × Buf) (bound col_step : ℤ) :
    ℕ → ℤ → ℤ → Buf × Buf → Buf × Buf
  | 0, _, _, st => st
  | fuel + 1, col_c, cnt, st =>
    if col_c < bound then
      col2im_coord_loop body bound col_step fuel (col_c + col_step) (cnt + 1) (body col_c cnt st)
    else st

/-- The body of `NBLA_CUDA_KERNEL_LOOP` in
`modulated_deformable_col2im_coord_gpu_kernel` for one flat index `idx`.  The
budget of the inner loop is the distance from its start to its bound, which
a positive `col_step` never exhausts. -/
def col2im_coord_thread (MODULATED : Bool) (data_col data_im data_offset data_mask : Buf)
    (p : Footprint) (st : Buf × Buf) (idx : ℤ) : Buf × Buf :=
  let w : ℤ := idx.tmod p.width_col
  let h : ℤ := (idx.tdiv p.width_col).tmod p.height_col
  let c : ℤ := (idx.tdiv p.width_col).tdiv p.height_col
  let deformable_group_index : ℤ := c.tdiv (2 * p.kernel_h * p.kernel_w)
  let col_step : ℤ := p.kernel_h * p.kernel_w
  let data_col_ptr : Buf :=
    ptrAdd data_col
      (deformable_group_index * p.channel_per_deformable_group * p.width_col * p.height_col)
  let data_im_ptr : Buf :=
    ptrAdd data_im
      ((((deformable_group_index * p.channel_per_deformable_group).tdiv p.kernel_h).tdiv
        p.kernel_w) * p.height * p.width)
  let data_offset_ptr : Buf :=
    ptrAdd data_offset (deformable_group_index * 2 * p.kernel_h * p.kernel_w * p.height * p.width)
  let grad_offset_ptr : ℤ :=
    deformable_group_index * 2 * p.kernel_h * p.kernel_w * p.width * p.height
  let data_mask_ptr : Buf :=
    if MODULATED then
      ptrAdd data_mask (deformable_group_index * p.kernel_h * p.kernel_w * p.height * p.width)
    else data_mask
  let grad_mask_ptr : ℤ :=
    if MODULATED then deformable_group_index * p.kernel_h * p.kernel_w * p.width * p.height
    else 0
  let offset_c : ℤ := c - deformable_group_index * 2 * p.kernel_h * p.kernel_w
  col2im_coord_loop
    (col2im_coord_body MODULATED data_col_ptr data_im_ptr data_offset_ptr data_mask_ptr p
      grad_offset_ptr grad_mask_ptr h w offset_c)
    p.channel_per_deformable_group col_step
    (p.channel_per_deformable_group - offset_c.tdiv 2).toNat (offset_c.tdiv 2) 0 st

/-- Embedding of `modulated_deformable_col2im_coord_gpu_kernel`: the pair
(offset-gradient buffer, mask-gradient buffer) after the launch over `n` flat
indices. -/
def modulated_deformable_col2im_coord_gpu_kernel (MODULATED : Bool) (n : ℤ)
    (data_col data_im data_offset data_mask : Buf) (p : Footprint)
    (grad_offset grad_mask : Buf) : Buf × Buf :=
  kernelLoop n (col2im_coord_thread MODULATED data_col data_im data_offset data_mask p)
    (grad_offset, grad_mask)

/-- The sampling coordinate `(h_im, w_im)` as each of the three kernels computes it from
the offset slice of the group, the strided output location `(h_in, w_in)` and the tap
`(i, j)`: the offsets are read at `data_offset_h_ptr`, `data_offset_w_ptr` and added to
the base position plus dilated tap minus padding. -/
def kernel_sampling_coord (p : Footprint) (data_offset_ptr : Buf) (h_in w_in i j : ℤ) :
    ℚ × ℚ :=
  let data_offset_h_ptr : ℤ := ((2 * (i * p.kernel_w + j)) * p.height + h_in) * p.width + w_in
  let data_offset_w_ptr : ℤ :=
    ((2 * (i * p.kernel_w + j) + 1) * p.height + h_in) * p.width + w_in
  let offset_h : ℚ := data_offset_ptr data_offset_h_ptr
  let offset_w : ℚ := data_offset_ptr data_offset_w_ptr
  (h_in + i * p.dilation_h + offset_h - p.pad_h, w_in + j * p.dilation_w + offset_w - p.pad_w)

/-- The decomposition `(c, i, j, h_out, w_out)` of the flat index by
`modulated_deformable_col2im_gpu_kernel`. -/
def col2im_decode (p : Footprint) (idx : ℤ) : ℤ × ℤ × ℤ × ℤ × ℤ :=
  let w_out : ℤ := idx.tmod p.width_col
  let h_out : ℤ := (idx.tdiv p.width_col).tmod p.height_col
  let j : ℤ := ((idx.tdiv p.width_col).tdiv p.height_col).tmod p.kernel_w
  let i : ℤ := (((idx.tdiv p.width_col).tdiv p.height_col).tdiv p.kernel_w).tmod p.kernel_h
  let c : ℤ := (((idx.tdiv p.width_col).tdiv p.height_col).tdiv p.kernel_w).tdiv p.kernel_h
  (c, i, j, h_out, w_out)

/-- The decomposition `(i, j, h_out, w_out)` of the column position `col_pos` by
`modulated_deformable_col2im_coord_gpu_kernel`. -/
def col2im_coord_decode (p : Footprint) (col_pos : ℤ) : ℤ × ℤ × ℤ × ℤ :=
  let j : ℤ := ((col_pos.tdiv p.width_col).tdiv p.height_col).tmod p.kernel_w
  let i : ℤ := (((col_pos.tdiv p.width_col).tdiv p.height_col).tdiv p.kernel_w).tmod p.kernel_h
  let w_out : ℤ := col_pos.tmod p.width_col
  let h_out : ℤ := (col_pos.tdiv p.width_col).tmod p.height_col
  (i, j, h_out, w_out)

/-- The positions of `bottom_data` that `im2col_bilinear_cuda` reads: for each of the
four corners, the position `row * data_width + col` when the guard of that corner
holds. -/
def im2col_bilinear_reads (data_width height width : ℤ) (h w : ℚ) : List ℤ :=
  let h_low : ℤ := ⌊h⌋
  let w_low : ℤ := ⌊w⌋
  let h_high : ℤ := h_low + 1
  let w_high : ℤ := w_low + 1
  (if h_low ≥ 0 ∧ w_low ≥ 0 then [h_low * data_width + w_low] else [])
    ++ (if h_low ≥ 0 ∧ w_high ≤ width - 1 then [h_low * data_width + w_high] else [])
    ++ (if h_high ≤ height - 1 ∧ w_low ≥ 0 then [h_high * data_width + w_low] else [])
    ++ (if h_high ≤ height - 1 ∧ w_high ≤ width - 1 then [h_high * data_width + w_high]
        else [])

/-- The positions of `im_data` that `get_coordinate_weight_cuda` reads: none when the
coordinate fails the range test or `bp_dir` is neither 0 nor 1, else one per corner
whose guard holds. -/
def get_coordinate_weight_reads (argmax_h argmax_w : ℚ) (height width data_width bp_dir : ℤ) :
    List ℤ :=
  if argmax_h ≤ -1 ∨ argmax_h ≥ height ∨ argmax_w ≤ -1 ∨ argmax_w ≥ width then []
  else
    let argmax_h_low : ℤ := ⌊argmax_h⌋
    let argmax_w_low : ℤ := ⌊argmax_w⌋
    let argmax_h_high : ℤ := argmax_h_low + 1
    let argmax_w_high : ℤ := argmax_w_low + 1
    if bp_dir = 0 then
      (if argmax_h_low ≥ 0 ∧ argmax_w_low ≥ 0 then
          [argmax_h_low * data_width + argmax_w_low] else [])
        ++ (if argmax_h_low ≥ 0 ∧ argmax_w_high ≤ width - 1 then
          [argmax_h_low * data_width + argmax_w_high] else [])
        ++ (if argmax_h_high ≤ height - 1 ∧ argmax_w_low ≥ 0 then
          [argmax_h_high * data_width + argmax_w_low] else [])
        ++ (if argmax_h_high ≤ height - 1 ∧ argmax_w_high ≤ width - 1 then
          [argmax_h_high * data_width + argmax_w_high] else [])
    else if bp_dir = 1 then
      (if argmax_h_low ≥ 0 ∧ argmax_w_low ≥ 0 then
          [argmax_h_low * data_width + argmax_w_low] else [])
        ++ (if argmax_h_low ≥ 0 ∧ argmax_w_high ≤ width - 1 then
          [argmax_h_low * data_width + argmax_w_high] else [])
        ++ (if argmax_h_high ≤ height - 1 ∧ argmax_w_low ≥ 0 then
          [argmax_h_high * data_width + argmax_w_low] else [])
        ++ (if argmax_h_high ≤ height - 1 ∧ argmax_w_high ≤ width - 1 then
          [argmax_h_high * data_width + argmax_w_high] else [])
    else []

/-! ## Host launchers -/

/-- The output extent `(in + 2 * pad - (dilation * (kernel - 1) + 1)) / stride + 1`
computed by each launcher (`h_o`, `w_o`). -/
def outSize (shape k pd s d : ℤ) : ℤ :=
  (shape + 2 * pd - (d * (k - 1) + 1)).tdiv s + 1

/-- The value a 32-bit two's-complement `int` holds for the exact value `x`: `x` reduced
modulo `2^32` into `[-2^31, 2^31)`.  Products of `int`s wrap factor by factor, which
gives the same value as reducing the exact product once. -/
def int32 (x : ℤ) : ℤ := (x + 2147483648) % 4294967296 - 2147483648

/-- Embedding of `modulated_deformable_im2col_cuda`: the kernel arguments it
derives, and the launch it performs. -/
def im2col_launch_args (c_i shape0 shape1 k0 k1 p0 p1 s0 s1 d0 d1 deformable_group : ℤ) :
    ℤ × Footprint :=
  let channel_per_deformable_group : ℤ := c_i.tdiv deformable_group
  let h_o : ℤ := outSize shape0 k0 p0 s0 d0
  let w_o : ℤ := outSize shape1 k1 p1 s1 d1
  let num_kernels : ℤ := int32 (c_i * h_o * w_o)
  (num_kernels,
    { height := shape0, width := shape1, kernel_h := k0, kernel_w := k1, pad_h := p0,
      pad_w := p1, stride_h := s0, stride_w := s1, dilation_h := d0, dilation_w := d1,
      channel_per_deformable_group := channel_per_deformable_group, channels := c_i,
      deformable_group := deformable_group, height_col := h_o, width_col := w_o })

/-- Kernel arguments derived by `modulated_deformable_col2im_cuda`. -/
def col2im_launch_args (c_i shape0 shape1 k0 k1 p0 p1 s0 s1 d0 d1 deformable_group : ℤ) :
    ℤ × Footprint :=
  let channel_per_deformable_group : ℤ := c_i.tdiv deformable_group
  let h_o : ℤ := outSize shape0 k0 p0 s0 d0
  let w_o : ℤ := outSize shape1 k1 p1 s1 d1
  let num_kernels : ℤ := int32 (c_i * k0 * k1 * h_o * w_o)
  (num_kernels,
    { height := shape0, width := shape1, kernel_h := k0, kernel_w := k1, pad_h := p0,
      pad_w := p1, stride_h := s0, stride_w := s1, dilation_h := d0, dilation_w := d1,
      channel_per_deformable_group := channel_per_deformable_group, channels := c_i,
      deformable_group := deformable_group, height_col := h_o, width_col := w_o })

/-- Embedding of `modulated_deformable_col2im_cuda`. -/
def modulated_deformable_col2im_cuda (MODULATED : Bool) (data_col data_offset data_mask : Buf)
    (c_i shape0 shape1 k0 k1 p0 p1 s0 s1 d0 d1 deformable_group : ℤ) (grad_im : Buf) : Buf :=
  let a := col2im_launch_args c_i shape0 shape1 k0 k1 p0 p1 s0 s1 d0 d1 deformable_group
  modulated_deformable_col2im_gpu_kernel MODULATED a.1 data_col data_offset data_mask a.2 grad_im

/-- Kernel arguments derived by `modulated_deformable_col2im_coord_cuda`; note
that `channel_per_deformable_group` counts column channels here. -/
def col2im_coord_launch_args
    (c_i shape0 shape1 k0 k1 p0 p1 s0 s1 d0 d1 deformable_group : ℤ) : ℤ × Footprint :=
  let h_o : ℤ := outSize shape0 k0 p0 s0 d0
  let w_o : ℤ := outSize shape1 k1 p1 s1 d1
  let num_kernels : ℤ := int32 (h_o * w_o * 2 * k0 * k1 * deformable_group)
  let channel_per_deformable_group : ℤ := (c_i * k0 * k1).tdiv deformable_group
  (num_kernels,
    { height := shape0, width := shape1, kernel_h := k0, kernel_w := k1, pad_h := p0,
      pad_w := p1, stride_h := s0, stride_w := s1, dilation_h := d0, dilation_w := d1,
      channel_per_deformable_group := channel_per_deformable_group, channels := c_i,
      deformable_group := deformable_group, height_col := h_o, width_col := w_o })

/-- Flat position of column cell (channel `c`, tap `(i, j)`, output location
`(h_col, w_col)`) in the column buffer of shape
`(channels * kernel_h * kernel_w, height_col, width_col)`. -/
def colIndex (p : Footprint) (c i j h_col w_col : ℤ) : ℤ :=
  ((c * p.kernel_h * p.kernel_w + i * p.kernel_w + j) * p.height_col + h_col) * p.width_col
    + w_col

/-- Flat position of pixel `(y, x)` of channel `c` in an image of shape
`(channels, height, width)`. -/
def imIndex (p : Footprint) (c y x : ℤ) : ℤ := (c * p.height + y) * p.width + x

/-- Channel `c` of the image, as a `height × width` field. -/
def imChannel (p : Footprint) (data_im : Buf) (c : ℤ) : Buf :=
  fun k => data_im (c * p.height * p.width + k)

/-- Deformable group of image channel `c`. -/
def groupOf (p : Footprint) (c : ℤ) : ℤ := c.tdiv p.channel_per_deformable_group

/-- Flat position of entry (group `g`, channel `ch` of the group, `row`, `col`)
in the offset tensor of shape `(deformable_group * 2 * kernel_h * kernel_w, height, width)`. -/
def offsetIndex (p : Footprint) (g ch row col : ℤ) : ℤ :=
  ((g * (2 * p.kernel_h * p.kernel_w) + ch) * p.height + row) * p.width + col

/-- Flat position of entry (group `g`, channel `ch` of the group, `row`, `col`)
in the mask tensor of shape `(deformable_group * kernel_h * kernel_w, height, width)`. -/
def maskIndex (p : Footprint) (g ch row col : ℤ) : ℤ :=
  ((g * (p.kernel_h * p.kernel_w) + ch) * p.height + row) * p.width + col

/-- Vertical sampling coordinate `h_im` of (channel `c`, tap `(i, j)`, output
location `(h_col, w_col)`): base position plus dilated tap minus padding plus
the learned offset. -/
def sampleH (p : Footprint) (data_offset : Buf) (c i j h_col w_col : ℤ) : ℚ :=
  (h_col * p.stride_h + i * p.dilation_h - p.pad_h : ℤ)
    + data_offset (offsetIndex p (groupOf p c) (2 * (i * p.kernel_w + j))
        (h_col * p.stride_h) (w_col * p.stride_w))

/-- Horizontal sampling coordinate `w_im`. -/
def sampleW (p : Footprint) (data_offset : Buf) (c i j h_col w_col : ℤ) : ℚ :=
  (w_col * p.stride_w + j * p.dilation_w - p.pad_w : ℤ)
    + data_offset (offsetIndex p (groupOf p c) (2 * (i * p.kernel_w + j) + 1)
        (h_col * p.stride_h) (w_col * p.stride_w))

/-- The open valid range of a sampling coordinate: `-1 < h < height` and
`-1 < w < width`. -/
def inRange (p : Footprint) (h w : ℚ) : Prop :=
  -1 < h ∧ h < p.height ∧ -1 < w ∧ w < p.width

instance (p : Footprint) (h w : ℚ) : Decidable (inRange p h w) := by
  unfold inRange; infer_instance

/-- Mask value of (channel `c`, tap `(i, j)`, output location `(h_col, w_col)`). -/
def maskAt (p : Footprint) (data_mask : Buf) (c i j h_col w_col : ℤ) : ℚ :=
  data_mask (maskIndex p (groupOf p c) (i * p.kernel_w + j)
    (h_col * p.stride_h) (w_col * p.stride_w))

/-- The guarded bilinear sample of (channel `c`, tap `(i, j)`, output location
`(h_col, w_col)`): the sample when the coordinate is in the open valid range,
else zero. -/
def sampleValue (p : Footprint) (data_im data_offset : Buf) (c i j h_col w_col : ℤ) : ℚ :=
  if inRange p (sampleH p data_offset c i j h_col w_col)
      (sampleW p data_offset c i j h_col w_col) then
    im2col_bilinear_cuda (imChannel p data_im c) p.width p.height p.width
      (sampleH p data_offset c i j h_col w_col) (sampleW p data_offset c i j h_col w_col)
  else 0

/-- The column value the specification prescribes for (channel `c`, tap
`(i, j)`, output location `(h_col, w_col)`). -/
def forwardValue (MODULATED : Bool) (p : Footprint) (data_im data_offset data_mask : Buf)
    (c i j h_col w_col : ℤ) : ℚ :=
  if MODULATED then
    sampleValue p data_im data_offset c i j h_col w_col * maskAt p data_mask c i j h_col w_col
  else sampleValue p data_im data_offset c i j h_col w_col

/-- Value of a `height × width` field at lattice point `(y, x)`: zero outside
the rectangle `[0, height) × [0, width)`. -/
def fieldValue (field : Buf) (height width : ℤ) (y x : ℤ) : ℚ :=
  if 0 ≤ y ∧ y < height ∧ 0 ≤ x ∧ x < width then field (y * width + x) else 0

/-- The bilinear formula of the specification, section 4.1. -/
def bilinearSpec (field : Buf) (height width : ℤ) (h w : ℚ) : ℚ :=
  let h_low : ℤ := ⌊h⌋
  let w_low : ℤ := ⌊w⌋
  let h_high : ℤ := h_low + 1
  let w_high : ℤ := w_low + 1
  let lh : ℚ := h - h_low
  let lw : ℚ := w - w_low
  let hh : ℚ := 1 - lh
  let hw : ℚ := 1 - lw
  hh * hw * fieldValue field height width h_low w_low
    + hh * lw * fieldValue field height width h_low w_high
    + lh * hw * fieldValue field height width h_high w_low
    + lh * lw * fieldValue field height width h_high w_high

/-- The upstream gradient of a column cell as the image-gradient kernel uses it:
the column-buffer gradient, times the mask value when modulation is enabled. -/
def upstreamGrad (MODULATED : Bool) (p : Footprint) (data_col data_mask : Buf)
    (c i j h_out w_out : ℤ) : ℚ :=
  if MODULATED then
    data_col (colIndex p c i j h_out w_out) * maskAt p data_mask c i j h_out w_out
  else data_col (colIndex p c i j h_out w_out)

/-- Bilinear weight of lattice index `z` along one axis for the coordinate `a`:
`hh = 1 - lh` at `⌊a⌋`, `lh = a - ⌊a⌋` at `⌊a⌋ + 1`, zero elsewhere (section 4.1). -/
def axisWeight (a : ℚ) (z : ℤ) : ℚ :=
  if z = ⌊a⌋ then 1 - (a - ⌊a⌋) else if z = ⌊a⌋ + 1 then a - ⌊a⌋ else 0

/-- The output extent as the specification words it:
`(in + 2 * pad - dilation * (kernel - 1) - 1) / stride + 1`, with `/` the integer division
(rounding down). -/
def outSizeSpec (inp k pd s d : ℤ) : ℤ := (inp + 2 * pd - d * (k - 1) - 1) / s + 1

/-- The offsets `0, 1` of the 2 x 2 bilinear footprint from its corner
`(floor h, floor w)`. -/
def cornerRange : List ℤ := [0, 1]

/-- The body of the image-gradient kernel with the scan restricted to the true 2 x 2
corner set, as the specification proposes: the body of `col2im_thread` for the flat
index `idx`, except that the neighbours visited are `(floor h + dy, floor w + dx)` for
`dy, dx` in `{0, 1}` instead of the 5 x 5 window around the truncated coordinate. -/
def col2im_thread_corners (MODULATED : Bool) (data_col data_offset data_mask : Buf)
    (p : Footprint) (grad_im : Buf) (idx : ℤ) : Buf :=
  let w_out : ℤ := idx.tmod p.width_col
  let h_out : ℤ := (idx.tdiv p.width_col).tmod p.height_col
  let w_in : ℤ := w_out * p.stride_w
  let h_in : ℤ := h_out * p.stride_h
  let j : ℤ := ((idx.tdiv p.width_col).tdiv p.height_col).tmod p.kernel_w
  let i : ℤ := (((idx.tdiv p.width_col).tdiv p.height_col).tdiv p.kernel_w).tmod p.kernel_h
  let c : ℤ := (((idx.tdiv p.width_col).tdiv p.height_col).tdiv p.kernel_w).tdiv p.kernel_h
  let deformable_group_index : ℤ := c.tdiv p.channel_per_deformable_group
  let data_offset_ptr : Buf :=
    ptrAdd data_offset (deformable_group_index * 2 * p.kernel_h * p.kernel_w * p.height * p.width)
  let data_offset_h_ptr : ℤ := ((2 * (i * p.kernel_w + j)) * p.height + h_in) * p.width + w_in
  let data_offset_w_ptr : ℤ :=
    ((2 * (i * p.kernel_w + j) + 1) * p.height + h_in) * p.width + w_in
  let offset_h : ℚ := data_offset_ptr data_offset_h_ptr
  let offset_w : ℚ := data_offset_ptr data_offset_w_ptr
  let cur_inv_h_data : ℚ := h_in + i * p.dilation_h + offset_h - p.pad_h
  let cur_inv_w_data : ℚ := w_in + j * p.dilation_w + offset_w - p.pad_w
  let cur_top_grad : ℚ :=
    if MODULATED then
      let data_mask_ptr : Buf :=
        ptrAdd data_mask (deformable_group_index * p.kernel_h * p.kernel_w * p.height * p.width)
      let data_mask_hw_ptr : ℤ := ((i * p.kernel_w + j) * p.height + h_in) * p.width + w_in
      let mask : ℚ := data_mask_ptr data_mask_hw_ptr
      data_col idx * mask
    else data_col idx
  let h_low : ℤ := ⌊cur_inv_h_data⌋
  let w_low : ℤ := ⌊cur_inv_w_data⌋
  cornerRange.foldl
    (fun g dy => cornerRange.foldl
      (fun g dx =>
        col2im_neighbor p c cur_inv_h_data cur_inv_w_data h_low w_low cur_top_grad dy dx g) g)
    grad_im

/-- The image-gradient launch with the scan of every flat index restricted to the 2 x 2
corner set. -/
def modulated_deformable_col2im_gpu_kernel_corners (MODULATED : Bool) (n : ℤ)
    (data_col data_offset data_mask : Buf) (p : Footprint) (grad_im : Buf) : Buf :=
  kernelLoop n (col2im_thread_corners MODULATED data_col data_offset data_mask p) grad_im

/-! ## Concrete inputs used to instantiate the theorems -/

/-- A footprint: two channels of a 4 x 4 image, 3 x 3 kernel, padding 1, stride 1,
dilation 1, one deformable group, hence a 4 x 4 output. -/
def exampleFootprint : Footprint :=
  { height := 4, width := 4, kernel_h := 3, kernel_w := 3, pad_h := 1, pad_w := 1,
    stride_h := 1, stride_w := 1, dilation_h := 1, dilation_w := 1,
    channel_per_deformable_group := 2, channels := 2, deformable_group := 1,
    height_col := 4, width_col := 4 }

/-- A buffer with entry `k + 1` at position `k`. -/
def rampBuf : Buf := fun k => (k : ℚ) + 1

/-- A buffer with entry `1 / 4` everywhere. -/
def quarterBuf : Buf := fun _ => 1 / 4

/-- The all-zero buffer. -/
def zeroBuf : Buf := fun _ => 0

/-- An image of two 2 x 2 channels, `[[1, 2], [3, 4]]` and `[[5, 6], [7, 8]]`, stored
contiguously. -/
def twoChannelImage : Buf := fun k => if 0 ≤ k ∧ k < 8 then (k : ℚ) + 1 else 0

theorem mem_loopRange (n x : ℤ) : x ∈ loopRange n ↔ 0 ≤ x ∧ x < n := by
  unfold loopRange
  simp only [List.mem_map, List.mem_range]
  constructor
  · rintro ⟨k, hk, rfl⟩
    omega
  · rintro ⟨h0, h1⟩
    exact ⟨x.toNat, by omega, by omega⟩

theorem loopRange_natCast_succ (m : ℕ) :
    loopRange ((m : ℤ) + 1) = loopRange (m : ℤ) ++ [(m : ℤ)] := by
  unfold loopRange
  have h1 : ((m : ℤ) + 1).toNat = m + 1 := by omega
  have h2 : ((m : ℤ)).toNat = m := by omega
  rw [h1, h2, List.range_succ, List.map_append]
  rfl

theorem loopRange_nodup (n : ℤ) : (loopRange n).Nodup := by
  unfold loopRange
  exact (List.nodup_range _).map (fun a b h => by exact_mod_cast h)

theorem foldl_unchanged {α : Type} (step : Buf → α → Buf) (q : ℤ) :
    ∀ (xs : List α) (b : Buf), (∀ x ∈ xs, ∀ b, step b x q = b q) → xs.foldl step b q = b q := by
  intro xs
  induction xs with
  | nil => intro b _; rfl
  | cons x xs ih =>
    intro b h
    rw [List.foldl_cons, ih _ (fun y hy => h y (List.mem_cons_of_mem _ hy))]
    exact h x (List.mem_cons_self _ _) b

theorem foldl_last_write {α : Type} (step : Buf → α → Buf) (q : ℤ) (v : ℚ) (x0 : α)
    (hw : ∀ b, step b x0 q = v) :
    ∀ (xs : List α) (b : Buf), x0 ∈ xs → (∀ x ∈ xs, x ≠ x0 → ∀ b, step b x q = b q) →
      xs.foldl step b q = v := by
  intro xs
  induction xs with
  | nil => intro b h; simp at h
  | cons x xs ih =>
    intro b hx hu
    rw [List.foldl_cons]
    by_cases hmem : x0 ∈ xs
    · exact ih _ hmem (fun y hy => hu y (List.mem_cons_of_mem _ hy))
    · have hx' : x = x0 := by
        rcases List.mem_cons.1 hx with h | h
        · exact h.symm
        · exact absurd h hmem
      subst hx'
      rw [foldl_unchanged step q xs _ ?_]
      · exact hw b
      · intro y hy b'
        exact hu y (List.mem_cons_of_mem _ hy) (fun h => hmem (h ▸ hy)) b'

theorem loopRange_toNat (n : ℤ) : loopRange n = loopRange ((n.toNat : ℕ) : ℤ) := by
  unfold loopRange
  have h : ((n.toNat : ℕ) : ℤ).toNat = n.toNat := by omega
  rw [h]

/-- A loop that stores `out k` through a pointer advanced by `S` after every store. -/
theorem write_loop (out : ℤ → ℚ) (S : ℤ) (col : Buf) (ptr : ℤ) (m : ℕ) :
    ((loopRange m).foldl
        (fun (st : Buf × ℤ) k => (Function.update st.1 st.2 (out k), st.2 + S)) (col, ptr)).2
      = ptr + m * S ∧
    (∀ q, (∀ k : ℤ, 0 ≤ k → k < m → q ≠ ptr + k * S) →
      ((loopRange m).foldl
        (fun (st : Buf × ℤ) k => (Function.update st.1 st.2 (out k), st.2 + S)) (col, ptr)).1 q
        = col q) ∧
    (S ≠ 0 → ∀ k : ℤ, 0 ≤ k → k < m →
      ((loopRange m).foldl
        (fun (st : Buf × ℤ) k => (Function.update st.1 st.2 (out k), st.2 + S)) (col, ptr)).1
        (ptr + k * S) = out k) := by
  induction m with
  | zero =>
    refine ⟨by simp [loopRange], fun q _ => by simp [loopRange], fun _ k h0 h1 => ?_⟩
    simp at h1; omega
  | succ m ih =>
    obtain ⟨ih1, ih2, ih3⟩ := ih
    have hc : ((m + 1 : ℕ) : ℤ) = (m : ℤ) + 1 := by push_cast; rfl
    rw [hc, loopRange_natCast_succ, List.foldl_append]
    simp only [List.foldl_cons, List.foldl_nil]
    refine ⟨by rw [ih1]; ring, fun q hq => ?_, fun hS k h0 h1 => ?_⟩
    · rw [ih1, Function.update_noteq (hq m (by omega) (by omega))]
      exact ih2 q (fun k h0 h1 => hq k h0 (by omega))
    · rw [ih1]
      by_cases hk : k = m
      · subst hk; simp
      · have hne : ptr + k * S ≠ ptr + m * S := by
          intro h
          have : k * S = m * S := by linarith
          exact hk (mul_right_cancel₀ hS this)
        rw [Function.update_noteq hne]
        exact ih3 hS k h0 (by omega)

theorem write_loop2 (out : ℤ → ℤ → ℚ) (S : ℤ) (kw : ℕ) (col : Buf) (ptr : ℤ) (m : ℕ) :
    ((loopRange m).foldl (fun (st : Buf × ℤ) i => (loopRange kw).foldl
        (fun (st : Buf × ℤ) j => (Function.update st.1 st.2 (out i j), st.2 + S)) st)
        (col, ptr)).2 = ptr + m * kw * S ∧
    (∀ q, (∀ i j : ℤ, 0 ≤ i → i < m → 0 ≤ j → j < kw → q ≠ ptr + (i * kw + j) * S) →
      ((loopRange m).foldl (fun (st : Buf × ℤ) i => (loopRange kw).foldl
        (fun (st : Buf × ℤ) j => (Function.update st.1 st.2 (out i j), st.2 + S)) st)
        (col, ptr)).1 q = col q) ∧
    (S ≠ 0 → ∀ i j : ℤ, 0 ≤ i → i < m → 0 ≤ j → j < kw →
      ((loopRange m).foldl (fun (st : Buf × ℤ) i => (loopRange kw).foldl
        (fun (st : Buf × ℤ) j => (Function.update st.1 st.2 (out i j), st.2 + S)) st)
        (col, ptr)).1 (ptr + (i * kw + j) * S) = out i j) := by
  induction m with
  | zero =>
    refine ⟨by simp [loopRange], fun q _ => by simp [loopRange], fun _ i j h0 h1 => ?_⟩
    simp at h1; omega
  | succ m ih =>
    obtain ⟨ih1, ih2, ih3⟩ := ih
    have hc : ((m + 1 : ℕ) : ℤ) = (m : ℤ) + 1 := by push_cast; rfl
    rw [hc, loopRange_natCast_succ, List.foldl_append]
    simp only [List.foldl_cons, List.foldl_nil]
    generalize hst : (loopRange m).foldl (fun (st : Buf × ℤ) i => (loopRange kw).foldl
        (fun (st : Buf × ℤ) j => (Function.update st.1 st.2 (out i j), st.2 + S)) st)
        (col, ptr) = st at ih1 ih2 ih3
    obtain ⟨colm, ptrm⟩ := st
    simp only at ih1 ih2 ih3
    subst ih1
    obtain ⟨w1, w2, w3⟩ := write_loop (out m) S colm (ptr + m * kw * S) kw
    refine ⟨by rw [w1]; ring, fun q hq => ?_, fun hS i j hi0 hi1 hj0 hj1 => ?_⟩
    · rw [w2 q (fun k h0 h1 => by
        have := hq m k (by omega) (by omega) h0 h1
        intro h; apply this; rw [h]; ring)]
      exact ih2 q (fun i j hi0 hi1 hj0 hj1 => hq i j hi0 (by omega) hj0 hj1)
    · by_cases hi : i = m
      · subst hi
        have e : ptr + ((m : ℤ) * kw + j) * S = ptr + m * kw * S + j * S := by ring
        rw [e]
        exact w3 hS j hj0 hj1
      · have hlt : i < m := by omega
        rw [w2 _ (fun k h0 h1 => ?_)]
        · exact ih3 hS i j hi0 hlt hj0 hj1
        · intro h
          have h2 : (i * kw + j) * S = (m * kw + k) * S := by linarith
          have h3 := mul_right_cancel₀ hS h2
          have h4 : (i + 1) * (kw : ℤ) ≤ m * kw :=
            mul_le_mul_of_nonneg_right (by omega) (by omega)
          nlinarith

/-! ## Forward resampler: what one index and the whole launch store -/

/-- The value the forward kernel stores for a tap is the value of the specification. -/
theorem im2col_tap_value_eq (MODULATED : Bool) (data_im data_offset data_mask : Buf)
    (p : Footprint) (c i j h_col w_col : ℤ) :
    im2col_tap_value MODULATED (ptrAdd data_im ((c * p.height) * p.width))
      (ptrAdd data_offset (c.tdiv p.channel_per_deformable_group * 2 * p.kernel_h * p.kernel_w
        * p.height * p.width))
      (if MODULATED then
        ptrAdd data_mask (c.tdiv p.channel_per_deformable_group * p.kernel_h * p.kernel_w
          * p.height * p.width)
       else data_mask) p (h_col * p.stride_h) (w_col * p.stride_w) i j
    = forwardValue MODULATED p data_im data_offset data_mask c i j h_col w_col := by
  have e1 : ptrAdd data_im ((c * p.height) * p.width) = imChannel p data_im c := rfl
  have eh : (↑(h_col * p.stride_h) : ℚ) + ↑i * ↑p.dilation_h
        + data_offset (c.tdiv p.channel_per_deformable_group * 2 * p.kernel_h * p.kernel_w
            * p.height * p.width
          + (((2 * (i * p.kernel_w + j)) * p.height + h_col * p.stride_h) * p.width
            + w_col * p.stride_w)) - ↑p.pad_h
      = sampleH p data_offset c i j h_col w_col := by
    unfold sampleH offsetIndex groupOf
    push_cast
    have : c.tdiv p.channel_per_deformable_group * 2 * p.kernel_h * p.kernel_w
            * p.height * p.width
          + (((2 * (i * p.kernel_w + j)) * p.height + h_col * p.stride_h) * p.width
            + w_col * p.stride_w)
        = ((c.tdiv p.channel_per_deformable_group * (2 * p.kernel_h * p.kernel_w)
            + 2 * (i * p.kernel_w + j)) * p.height + h_col * p.stride_h) * p.width
            + w_col * p.stride_w := by ring
    rw [this]; ring
  have ew : (↑(w_col * p.stride_w) : ℚ) + ↑j * ↑p.dilation_w
        + data_offset (c.tdiv p.channel_per_deformable_group * 2 * p.kernel_h * p.kernel_w
            * p.height * p.width
          + (((2 * (i * p.kernel_w + j) + 1) * p.height + h_col * p.stride_h) * p.width
            + w_col * p.stride_w)) - ↑p.pad_w
      = sampleW p data_offset c i j h_col w_col := by
    unfold sampleW offsetIndex groupOf
    push_cast
    have : c.tdiv p.channel_per_deformable_group * 2 * p.kernel_h * p.kernel_w
            * p.height * p.width
          + (((2 * (i * p.kernel_w + j) + 1) * p.height + h_col * p.stride_h) * p.width
            + w_col * p.stride_w)
        = ((c.tdiv p.channel_per_deformable_group * (2 * p.kernel_h * p.kernel_w)
            + (2 * (i * p.kernel_w + j) + 1)) * p.height + h_col * p.stride_h) * p.width
            + w_col * p.stride_w := by ring
    rw [this]; ring
  have em : data_mask (c.tdiv p.channel_per_deformable_group * p.kernel_h * p.kernel_w
            * p.height * p.width
          + (((i * p.kernel_w + j) * p.height + h_col * p.stride_h) * p.width
            + w_col * p.stride_w)) = maskAt p data_mask c i j h_col w_col := by
    unfold maskAt maskIndex groupOf
    congr 1; ring
  have hr : ∀ a b : ℚ, (a > -1 ∧ b > -1 ∧ a < p.height ∧ b < p.width) ↔ inRange p a b := by
    intro a b; unfold inRange; constructor
    · rintro ⟨h1, h2, h3, h4⟩; exact ⟨h1, h3, h2, h4⟩
    · rintro ⟨h1, h2, h3, h4⟩; exact ⟨h1, h3, h2, h4⟩
  unfold im2col_tap_value forwardValue sampleValue
  rw [e1]
  cases MODULATED
  · simp only [ptrAdd, Bool.false_eq_true, if_false, eh, ew, hr]
  · simp only [ptrAdd, if_true, eh, ew, em, hr]


/-- Uniqueness of a two-digit mixed-radix representation. -/
theorem radix_unique (m a b a' b' : ℤ) (hb : 0 ≤ b) (hb' : b < m) (hc : 0 ≤ b') (hc' : b' < m)
    (h : a * m + b = a' * m + b') : a = a' ∧ b = b' := by
  have ha : a = a' := by
    rcases lt_trichotomy a a' with hlt | heq | hgt
    · exfalso
      have : (a + 1) * m ≤ a' * m := mul_le_mul_of_nonneg_right (by omega) (by omega)
      nlinarith
    · exact heq
    · exfalso
      have : (a' + 1) * m ≤ a * m := mul_le_mul_of_nonneg_right (by omega) (by omega)
      nlinarith
  subst ha
  exact ⟨rfl, by linarith⟩

/-- C division and remainder of `a * m + b` by `m` for a digit `0 ≤ b < m` and `0 ≤ a`. -/
theorem tdiv_tmod_digit (m a b : ℤ) (ha : 0 ≤ a) (hb : 0 ≤ b) (hb' : b < m) :
    (a * m + b).tdiv m = a ∧ (a * m + b).tmod m = b := by
  have hm : 0 < m := by omega
  have h0 : 0 ≤ a * m + b := by positivity
  rw [Int.tdiv_eq_ediv h0 hm.le, Int.tmod_eq_emod h0 hm.le]
  constructor
  · rw [add_comm, Int.add_mul_ediv_right _ _ hm.ne', Int.ediv_eq_zero_of_lt hb hb']; simp
  · rw [add_comm, Int.add_mul_emod_self, Int.emod_eq_of_lt hb hb']

/-- Every non-negative `x` is `a * m + b` with the digit given by C division and remainder. -/
theorem tdiv_tmod_split (m x : ℤ) (hx : 0 ≤ x) (hm : 0 < m) :
    x = x.tdiv m * m + x.tmod m ∧ 0 ≤ x.tmod m ∧ x.tmod m < m ∧ 0 ≤ x.tdiv m := by
  rw [Int.tdiv_eq_ediv hx hm.le, Int.tmod_eq_emod hx hm.le]
  refine ⟨?_, Int.emod_nonneg _ hm.ne', Int.emod_lt_of_pos _ hm, Int.ediv_nonneg hx hm.le⟩
  have := Int.ediv_add_emod x m
  linarith [mul_comm m (x / m)]

/-- A tap index `i * kw + j` is a digit below `kh * kw`. -/
theorem tap_lt (kh kw i j : ℤ) (hi : 0 ≤ i) (hi' : i < kh) (hj : 0 ≤ j) (hj' : j < kw) :
    0 ≤ i * kw + j ∧ i * kw + j < kh * kw := by
  have h1 : (i + 1) * kw ≤ kh * kw := mul_le_mul_of_nonneg_right (by omega) (by omega)
  have h2 : 0 ≤ i * kw := mul_nonneg hi (by omega)
  constructor
  · omega
  · nlinarith

/-- Column positions of distinct (channel, tap, location) tuples are distinct. -/
theorem colIndex_inj (p : Footprint) (c i j h w c' i' j' h' w' : ℤ)
    (hi : 0 ≤ i) (hi2 : i < p.kernel_h) (hj : 0 ≤ j) (hj2 : j < p.kernel_w)
    (hh : 0 ≤ h) (hh2 : h < p.height_col) (hw : 0 ≤ w) (hw2 : w < p.width_col)
    (hi' : 0 ≤ i') (hi2' : i' < p.kernel_h) (hj' : 0 ≤ j') (hj2' : j' < p.kernel_w)
    (hh' : 0 ≤ h') (hh2' : h' < p.height_col) (hw' : 0 ≤ w') (hw2' : w' < p.width_col)
    (e : colIndex p c i j h w = colIndex p c' i' j' h' w') :
    c = c' ∧ i = i' ∧ j = j' ∧ h = h' ∧ w = w' := by
  unfold colIndex at e
  obtain ⟨e1, ew⟩ := radix_unique _ _ _ _ _ hw hw2 hw' hw2' e
  obtain ⟨e2, eh⟩ := radix_unique _ _ _ _ _ hh hh2 hh' hh2' e1
  obtain ⟨t0, t1⟩ := tap_lt p.kernel_h p.kernel_w i j hi hi2 hj hj2
  obtain ⟨t0', t1'⟩ := tap_lt p.kernel_h p.kernel_w i' j' hi' hi2' hj' hj2'
  have e3 : c * (p.kernel_h * p.kernel_w) + (i * p.kernel_w + j)
      = c' * (p.kernel_h * p.kernel_w) + (i' * p.kernel_w + j') := by linarith
  obtain ⟨ec, et⟩ := radix_unique _ _ _ _ _ t0 t1 t0' t1' e3
  obtain ⟨ei, ej⟩ := radix_unique _ _ _ _ _ hj hj2 hj' hj2' et
  exact ⟨ec, ei, ej, eh, ew⟩

/-- What the forward kernel body stores for the flat index of (channel `c`,
output location `(h_col, w_col)`): the `kernel_h * kernel_w` cells of that
channel and location receive the specified values, every other cell is kept. -/
theorem im2col_thread_spec (MODULATED : Bool) (data_im data_offset data_mask : Buf)
    (p : Footprint) (col : Buf) (c h_col w_col : ℤ) (hkh : 0 ≤ p.kernel_h)
    (hkw : 0 ≤ p.kernel_w) (hc : 0 ≤ c)
    (hh : 0 ≤ h_col) (hh2 : h_col < p.height_col) (hw : 0 ≤ w_col) (hw2 : w_col < p.width_col) :
    (∀ i j : ℤ, 0 ≤ i → i < p.kernel_h → 0 ≤ j → j < p.kernel_w →
      im2col_thread MODULATED data_im data_offset data_mask p col
          ((c * p.height_col + h_col) * p.width_col + w_col) (colIndex p c i j h_col w_col)
        = forwardValue MODULATED p data_im data_offset data_mask c i j h_col w_col) ∧
    (∀ q : ℤ, (∀ i j : ℤ, 0 ≤ i → i < p.kernel_h → 0 ≤ j → j < p.kernel_w →
        q ≠ colIndex p c i j h_col w_col) →
      im2col_thread MODULATED data_im data_offset data_mask p col
          ((c * p.height_col + h_col) * p.width_col + w_col) q = col q) := by
  have hch : 0 ≤ c * p.height_col + h_col := by
    have := mul_nonneg hc (show (0 : ℤ) ≤ p.height_col by omega); omega
  obtain ⟨d1, d2⟩ := tdiv_tmod_digit p.width_col (c * p.height_col + h_col) w_col hch hw hw2
  obtain ⟨d3, d4⟩ := tdiv_tmod_digit p.height_col c h_col hc hh hh2
  have hS : p.height_col * p.width_col ≠ 0 := by
    have : 0 < p.height_col * p.width_col := mul_pos (by omega) (by omega)
    omega
  obtain ⟨-, w2, w3⟩ := write_loop2
    (fun i j => forwardValue MODULATED p data_im data_offset data_mask c i j h_col w_col)
    (p.height_col * p.width_col) p.kernel_w.toNat col
    ((c * p.kernel_h * p.kernel_w * p.height_col + h_col) * p.width_col + w_col)
    p.kernel_h.toNat
  rw [← loopRange_toNat, ← loopRange_toNat, Int.toNat_of_nonneg hkh,
    Int.toNat_of_nonneg hkw] at w2 w3
  have hpos : ∀ i j : ℤ, colIndex p c i j h_col w_col
      = (c * p.kernel_h * p.kernel_w * p.height_col + h_col) * p.width_col + w_col
        + (i * p.kernel_w + j) * (p.height_col * p.width_col) := by
    intro i j; unfold colIndex; ring
  have hthread : im2col_thread MODULATED data_im data_offset data_mask p col
      ((c * p.height_col + h_col) * p.width_col + w_col)
      = ((loopRange p.kernel_h).foldl (fun (st : Buf × ℤ) i => (loopRange p.kernel_w).foldl
        (fun (st : Buf × ℤ) j => (Function.update st.1 st.2
          (forwardValue MODULATED p data_im data_offset data_mask c i j h_col w_col),
          st.2 + p.height_col * p.width_col)) st)
        (col, (c * p.kernel_h * p.kernel_w * p.height_col + h_col) * p.width_col + w_col)).1 := by
    unfold im2col_thread
    simp only [d1, d2, d3, d4, im2col_tap, im2col_tap_value_eq]
  rw [hthread]
  refine ⟨fun i j hi hi2 hj hj2 => ?_, fun q hq => ?_⟩
  · rw [hpos]; exact w3 hS i j hi hi2 hj hj2
  · exact w2 q (fun i j hi hi2 hj hj2 => by rw [← hpos]; exact hq i j hi hi2 hj hj2)


/-- The flat index of (channel, output location) lies in the forward launch. -/
theorem flat3_mem (C hc wc c h w : ℤ) (h0 : 0 ≤ c) (h1 : c < C) (h2 : 0 ≤ h) (h3 : h < hc)
    (h4 : 0 ≤ w) (h5 : w < wc) :
    (c * hc + h) * wc + w ∈ loopRange (C * hc * wc) := by
  rw [mem_loopRange]
  have a1 : 0 ≤ c * hc := mul_nonneg h0 (by omega)
  have a2 : 0 ≤ (c * hc + h) * wc := mul_nonneg (by omega) (by omega)
  have a3 : (c + 1) * hc ≤ C * hc := mul_le_mul_of_nonneg_right (by omega) (by omega)
  have a4 : (c * hc + h + 1) * wc ≤ (C * hc) * wc :=
    mul_le_mul_of_nonneg_right (by nlinarith) (by omega)
  constructor
  · omega
  · nlinarith

/-- The forward launch stores the specified value in every column cell. -/
theorem im2col_kernel_cell (MODULATED : Bool) (data_im data_offset data_mask : Buf)
    (p : Footprint) (data_col : Buf) (c i j h_col w_col : ℤ)
    (hc : 0 ≤ c) (hc2 : c < p.channels) (hi : 0 ≤ i) (hi2 : i < p.kernel_h)
    (hj : 0 ≤ j) (hj2 : j < p.kernel_w) (hh : 0 ≤ h_col) (hh2 : h_col < p.height_col)
    (hw : 0 ≤ w_col) (hw2 : w_col < p.width_col) :
    modulated_deformable_im2col_gpu_kernel MODULATED (p.channels * p.height_col * p.width_col)
        data_im data_offset data_mask p data_col (colIndex p c i j h_col w_col)
      = forwardValue MODULATED p data_im data_offset data_mask c i j h_col w_col := by
  unfold modulated_deformable_im2col_gpu_kernel kernelLoop
  have hkh : 0 ≤ p.kernel_h := by omega
  have hkw : 0 ≤ p.kernel_w := by omega
  have hhc : 0 < p.height_col := by omega
  have hwc : 0 < p.width_col := by omega
  refine foldl_last_write _ _ _ ((c * p.height_col + h_col) * p.width_col + w_col)
    (fun b => ?_) _ _ (flat3_mem _ _ _ _ _ _ hc hc2 hh hh2 hw hw2) (fun idx hidx hne b => ?_)
  · exact (im2col_thread_spec MODULATED data_im data_offset data_mask p b c h_col w_col
      hkh hkw hc hh hh2 hw hw2).1 i j hi hi2 hj hj2
  · rw [mem_loopRange] at hidx
    obtain ⟨s1, s2, s3, s4⟩ := tdiv_tmod_split p.width_col idx hidx.1 hwc
    obtain ⟨r1, r2, r3, r4⟩ := tdiv_tmod_split p.height_col (idx.tdiv p.width_col) s4 hhc
    have hidx' : idx = ((idx.tdiv p.width_col).tdiv p.height_col * p.height_col
        + (idx.tdiv p.width_col).tmod p.height_col) * p.width_col + idx.tmod p.width_col := by
      rw [← r1]; exact s1
    rw [hidx']
    refine (im2col_thread_spec MODULATED data_im data_offset data_mask p b _ _ _
      hkh hkw r4 r2 r3 s2 s3).2 _ (fun i' j' hi' hi2' hj' hj2' e => ?_)
    obtain ⟨e1, -, -, e4, e5⟩ := colIndex_inj p _ _ _ _ _ _ _ _ _ _ hi hi2 hj hj2 hh hh2 hw hw2
      hi' hi2' hj' hj2' r2 r3 s2 s3 e
    apply hne
    rw [hidx', ← e1, ← e4, ← e5]

/-! ## The sampling primitive -/

theorem floor_bounds (x : ℚ) (n : ℤ) (h1 : -1 < x) (h2 : x < n) : -1 ≤ ⌊x⌋ ∧ ⌊x⌋ < n := by
  constructor
  · rw [Int.le_floor]; push_cast; linarith
  · rw [Int.floor_lt]; exact h2

/-- Inside the open valid range the primitive computes the bilinear formula of the
specification. -/
theorem im2col_bilinear_cuda_eq_spec (field : Buf) (height width : ℤ) (h w : ℚ)
    (hh1 : -1 < h) (hh2 : h < height) (hw1 : -1 < w) (hw2 : w < width) :
    im2col_bilinear_cuda field width height width h w = bilinearSpec field height width h w := by
  obtain ⟨a1, a2⟩ := floor_bounds h height hh1 hh2
  obtain ⟨b1, b2⟩ := floor_bounds w width hw1 hw2
  simp only [im2col_bilinear_cuda, bilinearSpec, fieldValue]
  split_ifs <;> first | rfl | (exfalso; omega)

/-- At a lattice point with non-negative coordinates the weights collapse. -/
theorem im2col_bilinear_cuda_lattice (field : Buf) (data_width height width y x : ℤ)
    (hy : 0 ≤ y) (hx : 0 ≤ x) :
    im2col_bilinear_cuda field data_width height width (y : ℚ) (x : ℚ)
      = field (y * data_width + x) := by
  simp only [im2col_bilinear_cuda, Int.floor_intCast, sub_self, sub_zero, mul_one, one_mul,
    zero_mul, mul_zero, add_zero]
  rw [if_pos ⟨hy, hx⟩]

/-- A lattice row within one unit of the coordinate is within two of its truncation. -/
theorem castInt_near (a : ℚ) (y : ℤ) (h : |a - (y : ℚ)| < 1) :
    -2 ≤ y - castInt a ∧ y - castInt a ≤ 2 := by
  rw [abs_lt] at h
  obtain ⟨h1, h2⟩ := h
  unfold castInt
  split_ifs with h0
  · have f1 : (⌊a⌋ : ℚ) ≤ a := Int.floor_le a
    have f2 : a < ⌊a⌋ + 1 := Int.lt_floor_add_one a
    have g1 : (y : ℚ) < ⌊a⌋ + 1 + 1 := by linarith
    have g2 : (⌊a⌋ : ℚ) < y + 1 := by linarith
    have g1' : y < ⌊a⌋ + 1 + 1 := by exact_mod_cast g1
    have g2' : ⌊a⌋ < y + 1 := by exact_mod_cast g2
    omega
  · have f1 : a ≤ (⌈a⌉ : ℚ) := Int.le_ceil a
    have f2 : (⌈a⌉ : ℚ) < a + 1 := Int.ceil_lt_add_one a
    have g1 : (y : ℚ) < ⌈a⌉ + 1 := by linarith
    have g2 : (⌈a⌉ : ℚ) < y + 1 + 1 := by linarith
    have g1' : y < ⌈a⌉ + 1 := by exact_mod_cast g1
    have g2' : ⌈a⌉ < y + 1 + 1 := by exact_mod_cast g2
    omega

/-- The value-w.r.t.-pixel weight is the product of the two axis weights. -/
theorem get_gradient_weight_cuda_eq (a_h a_w : ℚ) (y x height width : ℤ) :
    get_gradient_weight_cuda a_h a_w y x height width
      = if a_h ≤ -1 ∨ a_h ≥ height ∨ a_w ≤ -1 ∨ a_w ≥ width then 0
        else axisWeight a_h y * axisWeight a_w x := by
  unfold get_gradient_weight_cuda axisWeight
  by_cases g0 : a_h ≤ -1 ∨ a_h ≥ height ∨ a_w ≤ -1 ∨ a_w ≥ width
  · rw [if_pos g0, if_pos g0]
  · rw [if_neg g0, if_neg g0]
    have hy : y = ⌊a_h⌋ ∨ y = ⌊a_h⌋ + 1 ∨ (y ≠ ⌊a_h⌋ ∧ y ≠ ⌊a_h⌋ + 1) := by omega
    have hx : x = ⌊a_w⌋ ∨ x = ⌊a_w⌋ + 1 ∨ (x ≠ ⌊a_w⌋ ∧ x ≠ ⌊a_w⌋ + 1) := by omega
    have n1 : ∀ z : ℤ, ¬ z = z + 1 := fun z => by omega
    have n2 : ∀ z : ℤ, ¬ z + 1 = z := fun z => by omega
    rcases hy with hy | hy | ⟨hy1, hy2⟩ <;> rcases hx with hx | hx | ⟨hx1, hx2⟩
    · subst hy hx
      simp only [n1, n2, and_self, and_true, true_and, and_false, false_and, if_true, if_false]
      ring
    · subst hy hx
      simp only [n1, n2, and_self, and_true, true_and, and_false, false_and, if_true, if_false]
      push_cast; ring
    · subst hy
      simp only [n1, n2, hx1, hx2, and_self, and_true, true_and, and_false, false_and, if_true,
        if_false, mul_zero]
    · subst hy hx
      simp only [n1, n2, and_self, and_true, true_and, and_false, false_and, if_true, if_false]
      push_cast; ring
    · subst hy hx
      simp only [n1, n2, and_self, and_true, true_and, and_false, false_and, if_true, if_false]
      push_cast; ring
    · subst hy
      simp only [n1, n2, hx1, hx2, and_self, and_true, true_and, and_false, false_and, if_true,
        if_false, mul_zero]
    · subst hx
      simp only [n1, n2, hy1, hy2, and_self, and_true, true_and, and_false, false_and, if_true,
        if_false, zero_mul]
    · subst hx
      simp only [n1, n2, hy1, hy2, and_self, and_true, true_and, and_false, false_and, if_true,
        if_false, zero_mul]
    · simp only [hx1, hx2, hy1, hy2, and_self, and_true, true_and, and_false, false_and,
        if_true, if_false, zero_mul]

/-- A lattice index that is not within one unit of the coordinate has axis weight zero. -/
theorem axisWeight_far (a : ℚ) (z : ℤ) (hz : ¬ |a - (z : ℚ)| < 1) : axisWeight a z = 0 := by
  have f1 : (⌊a⌋ : ℚ) ≤ a := Int.floor_le a
  have f2 : a < ⌊a⌋ + 1 := Int.lt_floor_add_one a
  unfold axisWeight
  split_ifs with e1 e2
  · exfalso; apply hz; rw [abs_lt, e1]; constructor <;> linarith
  · have : ¬ (⌊a⌋ : ℚ) < a := fun hlt => hz (by
      rw [abs_lt, e2]; push_cast; constructor <;> linarith)
    linarith [not_lt.1 this]
  · rfl

/-- A lattice point that is not within one unit of the coordinate in both axes
carries no gradient weight. -/
theorem get_gradient_weight_cuda_far (a_h a_w : ℚ) (y x height width : ℤ)
    (h : ¬ (|a_h - (y : ℚ)| < 1 ∧ |a_w - (x : ℚ)| < 1)) :
    get_gradient_weight_cuda a_h a_w y x height width = 0 := by
  rw [get_gradient_weight_cuda_eq]
  split_ifs
  · rfl
  · rcases not_and_or.1 h with h' | h'
    · rw [axisWeight_far a_h y h', zero_mul]
    · rw [axisWeight_far a_w x h', mul_zero]

/-! ## Image-gradient backward: what one index and the whole launch add -/

/-- A fold whose step adds a state-independent contribution to every cell. -/
theorem foldl_additive {α : Type} (step : Buf → α → Buf) (contrib : α → ℤ → ℚ)
    (h : ∀ b x q, step b x q = b q + contrib x q) :
    ∀ (xs : List α) (b : Buf) (q : ℤ),
      xs.foldl step b q = b q + (xs.map (fun x => contrib x q)).sum := by
  intro xs
  induction xs with
  | nil => intro b q; simp
  | cons x xs ih =>
    intro b q
    rw [List.foldl_cons, ih, h, List.map_cons, List.sum_cons]
    ring

/-- Summing over the scan window a term that is non-zero at one offset only. -/
theorem sum_scanRange_single (a : ℤ) (f : ℤ → ℚ) :
    (scanRange.map (fun d => if d = a then f d else 0)).sum
      = if -2 ≤ a ∧ a ≤ 2 then f a else 0 := by
  have ha : a = -2 ∨ a = -1 ∨ a = 0 ∨ a = 1 ∨ a = 2 ∨ (a < -2 ∨ 2 < a) := by omega
  rcases ha with h | h | h | h | h | h
  · subst h; simp [scanRange]
  · subst h; simp [scanRange]
  · subst h; simp [scanRange]
  · subst h; simp [scanRange]
  · subst h; simp [scanRange]
  · have h1 : ¬ (-2 ≤ a ∧ a ≤ 2) := by omega
    have e : ∀ d ∈ scanRange, (if d = a then f d else 0) = 0 := by
      intro d hd
      have : d ≠ a := by
        simp [scanRange] at hd; omega
      rw [if_neg this]
    rw [if_neg h1, List.map_congr_left e]
    simp [scanRange]

/-- One neighbour of the scan adds its weighted gradient to one cell. -/
theorem col2im_neighbor_apply (p : Footprint) (c : ℤ) (a_h a_w : ℚ) (cur_h cur_w : ℤ)
    (grad : ℚ) (dy dx : ℤ) (g : Buf) (q : ℤ) :
    col2im_neighbor p c a_h a_w cur_h cur_w grad dy dx g q
      = g q + (if (cur_h + dy ≥ 0 ∧ cur_h + dy < p.height ∧ cur_w + dx ≥ 0 ∧
            cur_w + dx < p.width ∧ |a_h - ((cur_h + dy : ℤ) : ℚ)| < 1 ∧
            |a_w - ((cur_w + dx : ℤ) : ℚ)| < 1) ∧
            (c * p.height + cur_h + dy) * p.width + cur_w + dx = q then
          get_gradient_weight_cuda a_h a_w (cur_h + dy) (cur_w + dx) p.height p.width * grad
        else 0) := by
  unfold col2im_neighbor atomic_add
  by_cases hit : cur_h + dy ≥ 0 ∧ cur_h + dy < p.height ∧ cur_w + dx ≥ 0 ∧
            cur_w + dx < p.width ∧ |a_h - ((cur_h + dy : ℤ) : ℚ)| < 1 ∧
            |a_w - ((cur_w + dx : ℤ) : ℚ)| < 1
  · rw [if_pos hit]
    by_cases hq : (c * p.height + cur_h + dy) * p.width + cur_w + dx = q
    · rw [if_pos ⟨hit, hq⟩, ← hq, Function.update_same]
    · rw [if_neg (fun h => hq h.2), Function.update_noteq (Ne.symm hq), add_zero]
  · rw [if_neg hit, if_neg (fun h => hit h.1), add_zero]

/-- The hit test of the scan at an in-bounds pixel of channel `c'`. -/
theorem col2im_hit_iff (p : Footprint) (c c' y x cur_h cur_w dy dx : ℤ) (a_h a_w : ℚ)
    (hy : 0 ≤ y) (hy2 : y < p.height) (hx : 0 ≤ x) (hx2 : x < p.width) :
    ((cur_h + dy ≥ 0 ∧ cur_h + dy < p.height ∧ cur_w + dx ≥ 0 ∧
        cur_w + dx < p.width ∧ |a_h - ((cur_h + dy : ℤ) : ℚ)| < 1 ∧
        |a_w - ((cur_w + dx : ℤ) : ℚ)| < 1) ∧
        (c * p.height + cur_h + dy) * p.width + cur_w + dx = imIndex p c' y x)
      ↔ (dy = y - cur_h ∧ dx = x - cur_w ∧ c = c' ∧ |a_h - (y : ℚ)| < 1 ∧
          |a_w - (x : ℚ)| < 1) := by
  constructor
  · rintro ⟨⟨h1, h2, h3, h4, h5, h6⟩, e⟩
    unfold imIndex at e
    have e' : (c * p.height + (cur_h + dy)) * p.width + (cur_w + dx)
        = (c' * p.height + y) * p.width + x := by rw [← e]; ring
    obtain ⟨e1, e2⟩ := radix_unique _ _ _ _ _ h3 h4 hx hx2 e'
    obtain ⟨e3, e4⟩ := radix_unique _ _ _ _ _ h1 h2 hy hy2 e1
    refine ⟨by omega, by omega, e3, ?_, ?_⟩
    · rw [← e4]; exact h5
    · rw [← e2]; exact h6
  · rintro ⟨rfl, rfl, rfl, h5, h6⟩
    have ey : cur_h + (y - cur_h) = y := by ring
    have ex : cur_w + (x - cur_w) = x := by ring
    refine ⟨⟨by omega, by omega, by omega, by omega, ?_, ?_⟩, ?_⟩
    · rw [ey]; exact h5
    · rw [ex]; exact h6
    · unfold imIndex; ring


/-- The 5 x 5 scan adds, at an in-bounds pixel of channel `c'`, the gradient weight of
that pixel times the upstream gradient when `c' = c`, and nothing otherwise. -/
theorem col2im_scan_apply (p : Footprint) (c c' y x : ℤ) (a_h a_w grad : ℚ) (g : Buf)
    (hy : 0 ≤ y) (hy2 : y < p.height) (hx : 0 ≤ x) (hx2 : x < p.width) :
    scanRange.foldl
        (fun g dy => scanRange.foldl
          (fun g dx =>
            col2im_neighbor p c a_h a_w (castInt a_h) (castInt a_w) grad dy dx g) g)
        g (imIndex p c' y x)
      = g (imIndex p c' y x)
        + (if c = c' then get_gradient_weight_cuda a_h a_w y x p.height p.width * grad
            else 0) := by
  have inner : ∀ (dy : ℤ) (b : Buf) (q : ℤ),
      scanRange.foldl
          (fun g dx =>
            col2im_neighbor p c a_h a_w (castInt a_h) (castInt a_w) grad dy dx g) b q
        = b q + (scanRange.map (fun dx =>
            if (castInt a_h + dy ≥ 0 ∧ castInt a_h + dy < p.height ∧ castInt a_w + dx ≥ 0 ∧
              castInt a_w + dx < p.width ∧ |a_h - ((castInt a_h + dy : ℤ) : ℚ)| < 1 ∧
              |a_w - ((castInt a_w + dx : ℤ) : ℚ)| < 1) ∧
              (c * p.height + castInt a_h + dy) * p.width + castInt a_w + dx = q then
            get_gradient_weight_cuda a_h a_w (castInt a_h + dy) (castInt a_w + dx)
              p.height p.width * grad
            else 0)).sum := by
    intro dy b q
    exact foldl_additive _ _ (fun b dx q => col2im_neighbor_apply p c a_h a_w _ _ grad dy dx b q)
      scanRange b q
  rw [foldl_additive _ _ (fun b dy q => inner dy b q) scanRange g (imIndex p c' y x)]
  congr 1
  have term : ∀ dy dx : ℤ,
      (if (castInt a_h + dy ≥ 0 ∧ castInt a_h + dy < p.height ∧ castInt a_w + dx ≥ 0 ∧
              castInt a_w + dx < p.width ∧ |a_h - ((castInt a_h + dy : ℤ) : ℚ)| < 1 ∧
              |a_w - ((castInt a_w + dx : ℤ) : ℚ)| < 1) ∧
              (c * p.height + castInt a_h + dy) * p.width + castInt a_w + dx
                = imIndex p c' y x then
            get_gradient_weight_cuda a_h a_w (castInt a_h + dy) (castInt a_w + dx)
              p.height p.width * grad
            else 0)
        = if dy = y - castInt a_h then
            (if dx = x - castInt a_w then
              (if c = c' ∧ |a_h - (y : ℚ)| < 1 ∧ |a_w - (x : ℚ)| < 1 then
                get_gradient_weight_cuda a_h a_w y x p.height p.width * grad else 0)
              else 0)
            else 0 := by
    intro dy dx
    simp only [col2im_hit_iff p c c' y x _ _ dy dx a_h a_w hy hy2 hx hx2]
    by_cases h1 : dy = y - castInt a_h
    · by_cases h2 : dx = x - castInt a_w
      · subst h1 h2
        have ey : castInt a_h + (y - castInt a_h) = y := by ring
        have ex : castInt a_w + (x - castInt a_w) = x := by ring
        simp only [true_and, if_true, ey, ex]
      · rw [if_neg (fun h => h2 h.2.1), if_pos h1, if_neg h2]
    · rw [if_neg (fun h => h1 h.1), if_neg h1]
  simp only [term]
  have inner_sum : ∀ dy : ℤ,
      (scanRange.map (fun dx => if dy = y - castInt a_h then
          (if dx = x - castInt a_w then
            (if c = c' ∧ |a_h - (y : ℚ)| < 1 ∧ |a_w - (x : ℚ)| < 1 then
              get_gradient_weight_cuda a_h a_w y x p.height p.width * grad else 0)
            else 0)
          else 0)).sum
        = if dy = y - castInt a_h then
            (if -2 ≤ x - castInt a_w ∧ x - castInt a_w ≤ 2 then
              (if c = c' ∧ |a_h - (y : ℚ)| < 1 ∧ |a_w - (x : ℚ)| < 1 then
                get_gradient_weight_cuda a_h a_w y x p.height p.width * grad else 0)
              else 0)
          else 0 := by
    intro dy
    by_cases h : dy = y - castInt a_h
    · simp only [h, if_true]
      exact sum_scanRange_single (x - castInt a_w) (fun _ =>
        if c = c' ∧ |a_h - (y : ℚ)| < 1 ∧ |a_w - (x : ℚ)| < 1 then
          get_gradient_weight_cuda a_h a_w y x p.height p.width * grad else 0)
    · simp only [h, if_false]
      simp
  simp only [inner_sum]
  rw [sum_scanRange_single (y - castInt a_h)
    (fun _ => if -2 ≤ x - castInt a_w ∧ x - castInt a_w ≤ 2 then
        (if c = c' ∧ |a_h - (y : ℚ)| < 1 ∧ |a_w - (x : ℚ)| < 1 then
          get_gradient_weight_cuda a_h a_w y x p.height p.width * grad else 0)
        else 0)]
  by_cases hc : c = c'
  · by_cases hn : |a_h - (y : ℚ)| < 1 ∧ |a_w - (x : ℚ)| < 1
    · rw [if_pos (castInt_near a_h y hn.1), if_pos (castInt_near a_w x hn.2),
        if_pos ⟨hc, hn⟩, if_pos hc]
    · rw [if_pos hc, get_gradient_weight_cuda_far a_h a_w y x _ _ hn]
      simp
  · simp [hc]


/-- A fold whose every step adds a state-independent amount to cell `q`. -/
theorem foldl_additive_at {α : Type} (step : Buf → α → Buf) (q : ℤ) (contrib : α → ℚ) :
    ∀ (xs : List α), (∀ x ∈ xs, ∀ b, step b x q = b q + contrib x) →
      ∀ b : Buf, xs.foldl step b q = b q + (xs.map contrib).sum := by
  intro xs
  induction xs with
  | nil => intro _ b; simp
  | cons x xs ih =>
    intro h b
    rw [List.foldl_cons, ih (fun y hy => h y (List.mem_cons_of_mem _ hy)),
      h x (List.mem_cons_self _ _), List.map_cons, List.sum_cons]
    ring

/-- A sum over the loop values is a sum over the integer interval `[0, n)`. -/
theorem sum_loopRange (n : ℤ) (f : ℤ → ℚ) :
    ((loopRange n).map f).sum = ∑ x ∈ Finset.Ico 0 n, f x := by
  rw [← List.sum_toFinset f (loopRange_nodup n)]
  congr 1
  ext x
  simp [mem_loopRange]

/-- Splitting a flat index below `a * m` into a leading part and a digit below `m`. -/
theorem sum_Ico_mul (a m : ℤ) (ha : 0 ≤ a) (f : ℤ → ℚ) :
    ∑ x ∈ Finset.Ico 0 (a * m), f x
      = ∑ u ∈ Finset.Ico 0 a, ∑ v ∈ Finset.Ico 0 m, f (u * m + v) := by
  rw [← Finset.sum_product']
  symm
  refine Finset.sum_nbij' (fun x : ℤ × ℤ => x.1 * m + x.2) (fun x : ℤ => (x / m, x % m))
    ?_ ?_ ?_ ?_ ?_
  · rintro ⟨u, v⟩ hx
    simp only [Finset.mem_product, Finset.mem_Ico] at hx
    obtain ⟨⟨u0, u1⟩, v0, v1⟩ := hx
    simp only [Finset.mem_Ico]
    have a1 : 0 ≤ u * m := mul_nonneg u0 (by omega)
    have a2 : (u + 1) * m ≤ a * m := mul_le_mul_of_nonneg_right (by omega) (by omega)
    constructor
    · omega
    · nlinarith
  · intro x hx
    simp only [Finset.mem_Ico] at hx
    obtain ⟨x0, x1⟩ := hx
    have hm : 0 < m := by
      by_contra hm
      have : a * m ≤ 0 := mul_nonpos_of_nonneg_of_nonpos ha (by omega)
      omega
    simp only [Finset.mem_product, Finset.mem_Ico]
    refine ⟨⟨Int.ediv_nonneg x0 hm.le, ?_⟩, Int.emod_nonneg _ hm.ne', Int.emod_lt_of_pos _ hm⟩
    exact Int.ediv_lt_of_lt_mul hm x1
  · rintro ⟨u, v⟩ hx
    simp only [Finset.mem_product, Finset.mem_Ico] at hx
    obtain ⟨⟨u0, u1⟩, v0, v1⟩ := hx
    have hm : 0 < m := by omega
    simp only [Prod.mk.injEq]
    constructor
    · rw [add_comm, Int.add_mul_ediv_right _ _ hm.ne', Int.ediv_eq_zero_of_lt v0 v1]; simp
    · rw [add_comm, Int.add_mul_emod_self, Int.emod_eq_of_lt v0 v1]
  · intro x _
    simp only
    have := Int.ediv_add_emod x m
    linarith [mul_comm m (x / m)]
  · rintro ⟨u, v⟩ _
    rfl

/-- The flat index space of the image-gradient launch, tuple by tuple. -/
theorem sum_col_cells (p : Footprint) (hC : 0 ≤ p.channels) (hkh : 0 ≤ p.kernel_h)
    (hkw : 0 ≤ p.kernel_w) (hhc : 0 ≤ p.height_col) (f : ℤ → ℚ) :
    ∑ x ∈ Finset.Ico 0 (p.channels * p.kernel_h * p.kernel_w * p.height_col * p.width_col), f x
      = ∑ c ∈ Finset.Ico 0 p.channels, ∑ i ∈ Finset.Ico 0 p.kernel_h,
          ∑ j ∈ Finset.Ico 0 p.kernel_w, ∑ h ∈ Finset.Ico 0 p.height_col,
            ∑ w ∈ Finset.Ico 0 p.width_col, f (colIndex p c i j h w) := by
  have h1 : 0 ≤ p.channels * p.kernel_h := mul_nonneg hC hkh
  have h2 : 0 ≤ p.channels * p.kernel_h * p.kernel_w := mul_nonneg h1 hkw
  have h3 : 0 ≤ p.channels * p.kernel_h * p.kernel_w * p.height_col := mul_nonneg h2 hhc
  rw [sum_Ico_mul _ _ h3, sum_Ico_mul _ _ h2, sum_Ico_mul _ _ h1, sum_Ico_mul _ _ hC]
  refine Finset.sum_congr rfl (fun c _ => Finset.sum_congr rfl (fun i _ =>
    Finset.sum_congr rfl (fun j _ => Finset.sum_congr rfl (fun h _ =>
      Finset.sum_congr rfl (fun w _ => ?_)))))
  congr 1
  unfold colIndex
  ring

/-- The image-gradient and offset-gradient kernels decode the flat position of a column
cell into its channel, tap and output location. -/
theorem colIndex_decode (p : Footprint) (c i j h w : ℤ) (hc : 0 ≤ c)
    (hi : 0 ≤ i) (hi2 : i < p.kernel_h) (hj : 0 ≤ j) (hj2 : j < p.kernel_w)
    (hh : 0 ≤ h) (hh2 : h < p.height_col) (hw : 0 ≤ w) (hw2 : w < p.width_col) :
    (colIndex p c i j h w).tmod p.width_col = w ∧
    ((colIndex p c i j h w).tdiv p.width_col).tmod p.height_col = h ∧
    (((colIndex p c i j h w).tdiv p.width_col).tdiv p.height_col).tmod p.kernel_w = j ∧
    ((((colIndex p c i j h w).tdiv p.width_col).tdiv p.height_col).tdiv p.kernel_w).tmod
      p.kernel_h = i ∧
    ((((colIndex p c i j h w).tdiv p.width_col).tdiv p.height_col).tdiv p.kernel_w).tdiv
      p.kernel_h = c := by
  have e0 : colIndex p c i j h w
      = ((((c * p.kernel_h + i) * p.kernel_w + j) * p.height_col + h) * p.width_col + w) := by
    unfold colIndex; ring
  have n1 : 0 ≤ c * p.kernel_h + i := by
    have := mul_nonneg hc (show (0 : ℤ) ≤ p.kernel_h by omega); omega
  have n2 : 0 ≤ (c * p.kernel_h + i) * p.kernel_w + j := by
    have := mul_nonneg n1 (show (0 : ℤ) ≤ p.kernel_w by omega); omega
  have n3 : 0 ≤ ((c * p.kernel_h + i) * p.kernel_w + j) * p.height_col + h := by
    have := mul_nonneg n2 (show (0 : ℤ) ≤ p.height_col by omega); omega
  obtain ⟨d1, m1⟩ := tdiv_tmod_digit p.width_col _ w n3 hw hw2
  obtain ⟨d2, m2⟩ := tdiv_tmod_digit p.height_col _ h n2 hh hh2
  obtain ⟨d3, m3⟩ := tdiv_tmod_digit p.kernel_w _ j n1 hj hj2
  obtain ⟨d4, m4⟩ := tdiv_tmod_digit p.kernel_h c i hc hi hi2
  rw [e0, d1, d2, d3, d4]
  exact ⟨m1, m2, m3, m4, rfl⟩


/-- The vertical coordinate as the kernels compute it. -/
theorem sampleH_code (p : Footprint) (data_offset : Buf) (c i j h_col w_col : ℤ) :
    (↑(h_col * p.stride_h) : ℚ) + ↑i * ↑p.dilation_h
        + ptrAdd data_offset (c.tdiv p.channel_per_deformable_group * 2 * p.kernel_h
            * p.kernel_w * p.height * p.width)
          (((2 * (i * p.kernel_w + j)) * p.height + h_col * p.stride_h) * p.width
            + w_col * p.stride_w) - ↑p.pad_h
      = sampleH p data_offset c i j h_col w_col := by
  unfold sampleH offsetIndex groupOf ptrAdd
  push_cast
  have : c.tdiv p.channel_per_deformable_group * 2 * p.kernel_h * p.kernel_w
          * p.height * p.width
        + (((2 * (i * p.kernel_w + j)) * p.height + h_col * p.stride_h) * p.width
          + w_col * p.stride_w)
      = ((c.tdiv p.channel_per_deformable_group * (2 * p.kernel_h * p.kernel_w)
          + 2 * (i * p.kernel_w + j)) * p.height + h_col * p.stride_h) * p.width
          + w_col * p.stride_w := by ring
  rw [this]; ring

/-- The horizontal coordinate as the kernels compute it. -/
theorem sampleW_code (p : Footprint) (data_offset : Buf) (c i j h_col w_col : ℤ) :
    (↑(w_col * p.stride_w) : ℚ) + ↑j * ↑p.dilation_w
        + ptrAdd data_offset (c.tdiv p.channel_per_deformable_group * 2 * p.kernel_h
            * p.kernel_w * p.height * p.width)
          (((2 * (i * p.kernel_w + j) + 1) * p.height + h_col * p.stride_h) * p.width
            + w_col * p.stride_w) - ↑p.pad_w
      = sampleW p data_offset c i j h_col w_col := by
  unfold sampleW offsetIndex groupOf ptrAdd
  push_cast
  have : c.tdiv p.channel_per_deformable_group * 2 * p.kernel_h * p.kernel_w
          * p.height * p.width
        + (((2 * (i * p.kernel_w + j) + 1) * p.height + h_col * p.stride_h) * p.width
          + w_col * p.stride_w)
      = ((c.tdiv p.channel_per_deformable_group * (2 * p.kernel_h * p.kernel_w)
          + (2 * (i * p.kernel_w + j) + 1)) * p.height + h_col * p.stride_h) * p.width
          + w_col * p.stride_w := by ring
  rw [this]; ring

/-- The mask value as the kernels read it. -/
theorem maskAt_code (p : Footprint) (data_mask : Buf) (c i j h_col w_col : ℤ) :
    ptrAdd data_mask (c.tdiv p.channel_per_deformable_group * p.kernel_h * p.kernel_w
          * p.height * p.width)
        (((i * p.kernel_w + j) * p.height + h_col * p.stride_h) * p.width
          + w_col * p.stride_w) = maskAt p data_mask c i j h_col w_col := by
  unfold maskAt maskIndex groupOf ptrAdd
  congr 1; ring

/-- What the image-gradient kernel body adds, for the flat index of a column cell, to an
in-bounds pixel. -/
theorem col2im_thread_apply (MODULATED : Bool) (data_col data_offset data_mask : Buf)
    (p : Footprint) (g : Buf) (c i j h w c' y x : ℤ) (hc : 0 ≤ c)
    (hi : 0 ≤ i) (hi2 : i < p.kernel_h) (hj : 0 ≤ j) (hj2 : j < p.kernel_w)
    (hh : 0 ≤ h) (hh2 : h < p.height_col) (hw : 0 ≤ w) (hw2 : w < p.width_col)
    (hy : 0 ≤ y) (hy2 : y < p.height) (hx : 0 ≤ x) (hx2 : x < p.width) :
    col2im_thread MODULATED data_col data_offset data_mask p g (colIndex p c i j h w)
        (imIndex p c' y x)
      = g (imIndex p c' y x)
        + (if c = c' then
            get_gradient_weight_cuda (sampleH p data_offset c i j h w)
              (sampleW p data_offset c i j h w) y x p.height p.width
              * upstreamGrad MODULATED p data_col data_mask c i j h w
          else 0) := by
  obtain ⟨d1, d2, d3, d4, d5⟩ := colIndex_decode p c i j h w hc hi hi2 hj hj2 hh hh2 hw hw2
  unfold col2im_thread
  simp only [d1, d2, d3, d4, d5, sampleH_code, sampleW_code]
  rw [col2im_scan_apply p c c' y x _ _ _ g hy hy2 hx hx2]
  congr 2
  cases MODULATED
  · simp [upstreamGrad]
  · simp only [if_true, maskAt_code, upstreamGrad]


/-- Every flat index of the image-gradient launch is the position of a column cell. -/
theorem colIndex_surj (p : Footprint) (idx : ℤ) (h0 : 0 ≤ idx)
    (hkh : 0 < p.kernel_h) (hkw : 0 < p.kernel_w) (hhc : 0 < p.height_col)
    (hwc : 0 < p.width_col) :
    ∃ c i j h w : ℤ, 0 ≤ c ∧ 0 ≤ i ∧ i < p.kernel_h ∧ 0 ≤ j ∧ j < p.kernel_w ∧
      0 ≤ h ∧ h < p.height_col ∧ 0 ≤ w ∧ w < p.width_col ∧ idx = colIndex p c i j h w := by
  obtain ⟨s1, s2, s3, s4⟩ := tdiv_tmod_split p.width_col idx h0 hwc
  obtain ⟨r1, r2, r3, r4⟩ := tdiv_tmod_split p.height_col _ s4 hhc
  obtain ⟨q1, q2, q3, q4⟩ := tdiv_tmod_split p.kernel_w _ r4 hkw
  obtain ⟨t1, t2, t3, t4⟩ := tdiv_tmod_split p.kernel_h _ q4 hkh
  refine ⟨_, _, _, _, _, t4, t2, t3, q2, q3, r2, r3, s2, s3, ?_⟩
  unfold colIndex
  have e : ∀ a b c : ℤ, a * p.kernel_h * p.kernel_w + b * p.kernel_w + c
      = (a * p.kernel_h + b) * p.kernel_w + c := by intros; ring
  rw [e, ← t1, ← q1, ← r1]
  exact s1

/-- The image-gradient launch adds, to every in-bounds pixel of channel `c`, the sum over
taps and output locations of gradient weight times upstream gradient. -/
theorem col2im_kernel_pixel (MODULATED : Bool) (data_col data_offset data_mask : Buf)
    (p : Footprint) (g : Buf) (c y x : ℤ)
    (hkh : 0 < p.kernel_h) (hkw : 0 < p.kernel_w) (hhc : 0 < p.height_col)
    (hwc : 0 < p.width_col)
    (hc : 0 ≤ c) (hc2 : c < p.channels)
    (hy : 0 ≤ y) (hy2 : y < p.height) (hx : 0 ≤ x) (hx2 : x < p.width) :
    modulated_deformable_col2im_gpu_kernel MODULATED
        (p.channels * p.kernel_h * p.kernel_w * p.height_col * p.width_col)
        data_col data_offset data_mask p g (imIndex p c y x)
      = g (imIndex p c y x)
        + ∑ i ∈ Finset.Ico 0 p.kernel_h, ∑ j ∈ Finset.Ico 0 p.kernel_w,
            ∑ h ∈ Finset.Ico 0 p.height_col, ∑ w ∈ Finset.Ico 0 p.width_col,
              get_gradient_weight_cuda (sampleH p data_offset c i j h w)
                (sampleW p data_offset c i j h w) y x p.height p.width
                * upstreamGrad MODULATED p data_col data_mask c i j h w := by
  unfold modulated_deformable_col2im_gpu_kernel kernelLoop
  rw [foldl_additive_at (col2im_thread MODULATED data_col data_offset data_mask p)
    (imIndex p c y x)
    (fun idx => col2im_thread MODULATED data_col data_offset data_mask p (fun _ => 0) idx
      (imIndex p c y x))]
  · congr 1
    rw [sum_loopRange, sum_col_cells p (by omega) hkh.le hkw.le hhc.le]
    rw [Finset.sum_eq_single c]
    · refine Finset.sum_congr rfl (fun i hi => Finset.sum_congr rfl (fun j hj =>
        Finset.sum_congr rfl (fun h hh => Finset.sum_congr rfl (fun w hw => ?_))))
      rw [Finset.mem_Ico] at hi hj hh hw
      rw [col2im_thread_apply MODULATED data_col data_offset data_mask p _ c i j h w c y x hc
        hi.1 hi.2 hj.1 hj.2 hh.1 hh.2 hw.1 hw.2 hy hy2 hx hx2, if_pos rfl, zero_add]
    · intro c' hc' hne
      refine Finset.sum_eq_zero (fun i hi => Finset.sum_eq_zero (fun j hj =>
        Finset.sum_eq_zero (fun h hh => Finset.sum_eq_zero (fun w hw => ?_))))
      rw [Finset.mem_Ico] at hc' hi hj hh hw
      rw [col2im_thread_apply MODULATED data_col data_offset data_mask p _ c' i j h w c y x
        hc'.1 hi.1 hi.2 hj.1 hj.2 hh.1 hh.2 hw.1 hw.2 hy hy2 hx hx2, if_neg hne, zero_add]
    · intro hn
      exact absurd (Finset.mem_Ico.2 ⟨hc, hc2⟩) hn
  · intro idx hidx b
    rw [mem_loopRange] at hidx
    obtain ⟨c', i, j, h, w, k0, k1, k2, k3, k4, k5, k6, k7, k8, rfl⟩ :=
      colIndex_surj p idx hidx.1 hkh hkw hhc hwc
    rw [col2im_thread_apply MODULATED data_col data_offset data_mask p b c' i j h w c y x
        k0 k1 k2 k3 k4 k5 k6 k7 k8 hy hy2 hx hx2,
      col2im_thread_apply MODULATED data_col data_offset data_mask p _ c' i j h w c y x
        k0 k1 k2 k3 k4 k5 k6 k7 k8 hy hy2 hx hx2, zero_add]

/-! ## Boundary zeroing -/

/-- A fold whose every step adds a state-independent amount to an observed quantity. -/
theorem foldl_additive_proj {σ α : Type} (step : σ → α → σ) (π : σ → ℚ) (contrib : α → ℚ) :
    ∀ (xs : List α), (∀ x ∈ xs, ∀ s, π (step s x) = π s + contrib x) →
      ∀ s : σ, π (xs.foldl step s) = π s + (xs.map contrib).sum := by
  intro xs
  induction xs with
  | nil => intro _ s; simp
  | cons x xs ih =>
    intro h s
    rw [List.foldl_cons, ih (fun y hy => h y (List.mem_cons_of_mem _ hy)),
      h x (List.mem_cons_self _ _), List.map_cons, List.sum_cons]
    ring

/-- A value that fits in a 32-bit `int` is held unchanged. -/
theorem int32_eq (x : ℤ) (h0 : -2147483648 ≤ x) (h1 : x < 2147483648) : int32 x = x := by
  unfold int32
  rw [Int.emod_eq_of_lt (by omega) (by omega)]
  ring

/-- Perturbing one in-bounds pixel changes the field value of that pixel only. -/
theorem fieldValue_update (p : Footprint) (X : Buf) (c y x c' yy xx : ℤ) (v : ℚ)
    (hy : 0 ≤ y) (hy2 : y < p.height) (hx : 0 ≤ x) (hx2 : x < p.width) :
    fieldValue (imChannel p (Function.update X (imIndex p c y x) v) c') p.height p.width yy xx
      = if c' = c ∧ yy = y ∧ xx = x then v
        else fieldValue (imChannel p X c') p.height p.width yy xx := by
  unfold fieldValue imChannel
  by_cases hin : 0 ≤ yy ∧ yy < p.height ∧ 0 ≤ xx ∧ xx < p.width
  · rw [if_pos hin, if_pos hin, Function.update_apply]
    by_cases hq : c' = c ∧ yy = y ∧ xx = x
    · obtain ⟨rfl, rfl, rfl⟩ := hq
      rw [if_pos (by unfold imIndex; ring), if_pos ⟨rfl, rfl, rfl⟩]
    · rw [if_neg hq, if_neg]
      intro e
      apply hq
      unfold imIndex at e
      have e' : (c' * p.height + yy) * p.width + xx = (c * p.height + y) * p.width + x := by
        rw [← e]; ring
      obtain ⟨e1, e2⟩ := radix_unique _ _ _ _ _ hin.2.2.1 hin.2.2.2 hx hx2 e'
      obtain ⟨e3, e4⟩ := radix_unique _ _ _ _ _ hin.1 hin.2.1 hy hy2 e1
      exact ⟨e3, e4, e2⟩
  · rw [if_neg hin, if_neg hin, if_neg]
    rintro ⟨-, rfl, rfl⟩
    exact hin ⟨hy, hy2, hx, hx2⟩

/-- The bilinear formula of the specification, with the axis weights. -/
theorem bilinearSpec_axisWeight (F : Buf) (height width : ℤ) (h w : ℚ) :
    bilinearSpec F height width h w
      = axisWeight h ⌊h⌋ * axisWeight w ⌊w⌋ * fieldValue F height width ⌊h⌋ ⌊w⌋
        + axisWeight h ⌊h⌋ * axisWeight w (⌊w⌋ + 1) * fieldValue F height width ⌊h⌋ (⌊w⌋ + 1)
        + axisWeight h (⌊h⌋ + 1) * axisWeight w ⌊w⌋ * fieldValue F height width (⌊h⌋ + 1) ⌊w⌋
        + axisWeight h (⌊h⌋ + 1) * axisWeight w (⌊w⌋ + 1)
            * fieldValue F height width (⌊h⌋ + 1) (⌊w⌋ + 1) := by
  have n2 : ∀ z : ℤ, ¬ z + 1 = z := fun z => by omega
  unfold bilinearSpec axisWeight
  simp only [if_true, n2, if_false]

/-- A weighted sum over the two lattice indices around `a` that picks the index `y`. -/
theorem axisWeight_pick (a : ℚ) (y : ℤ) (f : ℤ → ℚ) (g : ℤ → ℚ)
    (hf : ∀ z, f z = if z = y then g z else 0) :
    axisWeight a ⌊a⌋ * f ⌊a⌋ + axisWeight a (⌊a⌋ + 1) * f (⌊a⌋ + 1) = axisWeight a y * g y := by
  rw [hf, hf]
  have hy : y = ⌊a⌋ ∨ y = ⌊a⌋ + 1 ∨ (y ≠ ⌊a⌋ ∧ y ≠ ⌊a⌋ + 1) := by omega
  rcases hy with rfl | rfl | ⟨h1, h2⟩
  · rw [if_pos rfl, if_neg (by omega)]; ring
  · rw [if_neg (by omega), if_pos rfl]; ring
  · rw [if_neg (fun h => h1 h.symm), if_neg (fun h => h2 h.symm)]
    unfold axisWeight
    rw [if_neg h1, if_neg h2]; ring

/-- Inside the open valid range, adding `e` to one in-bounds pixel of channel `c` changes
the bilinear sample of channel `c'` by `e` times the gradient weight of that pixel when
`c' = c`, and not at all otherwise. -/
theorem im2col_bilinear_cuda_update (p : Footprint) (X : Buf) (c y x c' : ℤ) (e h w : ℚ)
    (hy : 0 ≤ y) (hy2 : y < p.height) (hx : 0 ≤ x) (hx2 : x < p.width)
    (hr : inRange p h w) :
    im2col_bilinear_cuda
        (imChannel p (Function.update X (imIndex p c y x) (X (imIndex p c y x) + e)) c')
        p.width p.height p.width h w
      - im2col_bilinear_cuda (imChannel p X c') p.width p.height p.width h w
      = if c' = c then e * get_gradient_weight_cuda h w y x p.height p.width else 0 := by
  obtain ⟨h1, h2, h3, h4⟩ := hr
  rw [im2col_bilinear_cuda_eq_spec _ _ _ _ _ h1 h2 h3 h4,
    im2col_bilinear_cuda_eq_spec _ _ _ _ _ h1 h2 h3 h4,
    bilinearSpec_axisWeight, bilinearSpec_axisWeight, get_gradient_weight_cuda_eq,
    if_neg (show ¬ (h ≤ -1 ∨ h ≥ ↑p.height ∨ w ≤ -1 ∨ w ≥ ↑p.width) by
      push_neg; exact ⟨h1, h2, h3, h4⟩)]
  simp only [fieldValue_update p X c y x c' _ _ _ hy hy2 hx hx2]
  by_cases hc : c' = c
  · subst hc
    simp only [true_and, if_true]
    have key : ∀ yy xx : ℤ,
        (if yy = y ∧ xx = x then X (imIndex p c' y x) + e
          else fieldValue (imChannel p X c') p.height p.width yy xx)
        = fieldValue (imChannel p X c') p.height p.width yy xx
          + (if yy = y then (if xx = x then e else 0) else 0) := by
      intro yy xx
      by_cases hyy : yy = y
      · by_cases hxx : xx = x
        · subst hyy hxx
          simp only [and_self, if_true]
          unfold fieldValue imChannel imIndex
          rw [if_pos ⟨hy, hy2, hx, hx2⟩]
          congr 2; ring
        · simp [hyy, hxx]
      · simp [hyy]
    simp only [key]
    have inner : ∀ yy : ℤ,
        axisWeight w ⌊w⌋ * (if yy = y then (if ⌊w⌋ = x then e else 0) else 0)
          + axisWeight w (⌊w⌋ + 1) * (if yy = y then (if ⌊w⌋ + 1 = x then e else 0) else 0)
        = if yy = y then axisWeight w x * e else 0 := by
      intro yy
      by_cases hyy : yy = y
      · simp only [hyy, if_true]
        exact axisWeight_pick w x (fun z => if z = x then e else 0) (fun _ => e) (fun _ => rfl)
      · simp [hyy]
    have outer := axisWeight_pick h y (fun z => if z = y then axisWeight w x * e else 0)
      (fun _ => axisWeight w x * e) (fun _ => rfl)
    simp only [← inner] at outer
    linear_combination outer
  · simp only [hc, false_and, if_false]
    ring


/-- Adding `e` to one in-bounds pixel of channel `c` changes the guarded sample of a
column cell of channel `c'` by `e` times the gradient weight of the pixel when `c' = c`,
and not at all otherwise. -/
theorem sampleValue_update (p : Footprint) (X data_offset : Buf) (c y x c' i j h w : ℤ)
    (e : ℚ) (hy : 0 ≤ y) (hy2 : y < p.height) (hx : 0 ≤ x) (hx2 : x < p.width) :
    sampleValue p (Function.update X (imIndex p c y x) (X (imIndex p c y x) + e)) data_offset
        c' i j h w
      - sampleValue p X data_offset c' i j h w
      = if c' = c then
          e * get_gradient_weight_cuda (sampleH p data_offset c' i j h w)
            (sampleW p data_offset c' i j h w) y x p.height p.width
        else 0 := by
  unfold sampleValue
  by_cases hr : inRange p (sampleH p data_offset c' i j h w) (sampleW p data_offset c' i j h w)
  · rw [if_pos hr, if_pos hr]
    exact im2col_bilinear_cuda_update p X c y x c' e _ _ hy hy2 hx hx2 hr
  · rw [if_neg hr, if_neg hr]
    have : get_gradient_weight_cuda (sampleH p data_offset c' i j h w)
        (sampleW p data_offset c' i j h w) y x p.height p.width = 0 := by
      unfold get_gradient_weight_cuda
      rw [if_pos]
      unfold inRange at hr
      by_contra hcon
      push_neg at hcon
      exact hr ⟨hcon.1, hcon.2.1, hcon.2.2.1, hcon.2.2.2⟩
    rw [this]
    simp

/-- The change of a forward column cell, weighted by its upstream gradient. -/
theorem forwardValue_update (MODULATED : Bool) (p : Footprint)
    (X data_offset data_mask G : Buf) (c y x c' i j h w : ℤ) (e : ℚ)
    (hy : 0 ≤ y) (hy2 : y < p.height) (hx : 0 ≤ x) (hx2 : x < p.width) :
    G (colIndex p c' i j h w)
      * (forwardValue MODULATED p
            (Function.update X (imIndex p c y x) (X (imIndex p c y x) + e)) data_offset
            data_mask c' i j h w
          - forwardValue MODULATED p X data_offset data_mask c' i j h w)
      = if c' = c then
          e * (get_gradient_weight_cuda (sampleH p data_offset c' i j h w)
            (sampleW p data_offset c' i j h w) y x p.height p.width
            * upstreamGrad MODULATED p G data_mask c' i j h w)
        else 0 := by
  have hs := sampleValue_update p X data_offset c y x c' i j h w e hy hy2 hx hx2
  unfold forwardValue upstreamGrad
  cases MODULATED
  · simp only [Bool.false_eq_true, if_false]
    rw [hs]
    split_ifs <;> ring
  · simp only [if_true]
    rw [← sub_mul, hs]
    split_ifs <;> ring

/-- The image-gradient backward is the adjoint of the forward resampler. -/
theorem image_gradient_adjoint (MODULATED : Bool) (data_im data_offset data_mask G : Buf)
    (p : Footprint) (col0 col1 : Buf) (c y x : ℤ) (e : ℚ)
    (hkh : 0 < p.kernel_h) (hkw : 0 < p.kernel_w) (hhc : 0 < p.height_col)
    (hwc : 0 < p.width_col) (hc : 0 ≤ c) (hc2 : c < p.channels)
    (hy : 0 ≤ y) (hy2 : y < p.height) (hx : 0 ≤ x) (hx2 : x < p.width) :
    ∑ cell ∈ Finset.Ico 0
        (p.channels * p.kernel_h * p.kernel_w * p.height_col * p.width_col),
        G cell *
          (modulated_deformable_im2col_gpu_kernel MODULATED
              (p.channels * p.height_col * p.width_col)
              (Function.update data_im (imIndex p c y x) (data_im (imIndex p c y x) + e))
              data_offset data_mask p col1 cell
            - modulated_deformable_im2col_gpu_kernel MODULATED
                (p.channels * p.height_col * p.width_col) data_im data_offset data_mask p col0
                cell)
      = e * modulated_deformable_col2im_gpu_kernel MODULATED
          (p.channels * p.kernel_h * p.kernel_w * p.height_col * p.width_col)
          G data_offset data_mask p (fun _ => 0) (imIndex p c y x) := by
  rw [col2im_kernel_pixel MODULATED G data_offset data_mask p (fun _ => 0) c y x
    hkh hkw hhc hwc hc hc2 hy hy2 hx hx2, zero_add,
    sum_col_cells p (by omega) hkh.le hkw.le hhc.le, Finset.sum_eq_single c]
  · simp only [Finset.mul_sum]
    refine Finset.sum_congr rfl (fun i hi => Finset.sum_congr rfl (fun j hj =>
      Finset.sum_congr rfl (fun h hh => Finset.sum_congr rfl (fun w hw => ?_))))
    rw [Finset.mem_Ico] at hi hj hh hw
    rw [im2col_kernel_cell MODULATED _ data_offset data_mask p col1 c i j h w hc hc2
      hi.1 hi.2 hj.1 hj.2 hh.1 hh.2 hw.1 hw.2,
      im2col_kernel_cell MODULATED _ data_offset data_mask p col0 c i j h w hc hc2
      hi.1 hi.2 hj.1 hj.2 hh.1 hh.2 hw.1 hw.2,
      forwardValue_update MODULATED p data_im data_offset data_mask G c y x c i j h w e
        hy hy2 hx hx2, if_pos rfl]
  · intro c' hc' hne
    rw [Finset.mem_Ico] at hc'
    refine Finset.sum_eq_zero (fun i hi => Finset.sum_eq_zero (fun j hj =>
      Finset.sum_eq_zero (fun h hh => Finset.sum_eq_zero (fun w hw => ?_))))
    rw [Finset.mem_Ico] at hi hj hh hw
    rw [im2col_kernel_cell MODULATED _ data_offset data_mask p col1 c' i j h w hc'.1 hc'.2
      hi.1 hi.2 hj.1 hj.2 hh.1 hh.2 hw.1 hw.2,
      im2col_kernel_cell MODULATED _ data_offset data_mask p col0 c' i j h w hc'.1 hc'.2
      hi.1 hi.2 hj.1 hj.2 hh.1 hh.2 hw.1 hw.2,
      forwardValue_update MODULATED p data_im data_offset data_mask G c y x c' i j h w e
        hy hy2 hx hx2, if_neg hne]
  · intro hn
    exact absurd (Finset.mem_Ico.2 ⟨hc, hc2⟩) hn


/-- Along the height axis, within one lattice cell, the bilinear sample is affine with
slope `get_coordinate_weight_cuda` for `bp_dir = 0`. -/
theorem im2col_bilinear_cuda_shift_h (F : Buf) (data_width height width : ℤ) (h w d : ℚ)
    (hfl : ⌊h + d⌋ = ⌊h⌋)
    (hr : ¬ (h ≤ -1 ∨ h ≥ height ∨ w ≤ -1 ∨ w ≥ width)) :
    im2col_bilinear_cuda F data_width height width (h + d) w
      - im2col_bilinear_cuda F data_width height width h w
      = d * get_coordinate_weight_cuda h w height width F data_width 0 := by
  unfold im2col_bilinear_cuda get_coordinate_weight_cuda
  rw [if_neg hr]
  simp only [hfl, if_true]
  split_ifs <;> ring

/-- Along the width axis, within one lattice cell, the bilinear sample is affine with
slope `get_coordinate_weight_cuda` for `bp_dir = 1`. -/
theorem im2col_bilinear_cuda_shift_w (F : Buf) (data_width height width : ℤ) (h w d : ℚ)
    (hfl : ⌊w + d⌋ = ⌊w⌋)
    (hr : ¬ (h ≤ -1 ∨ h ≥ height ∨ w ≤ -1 ∨ w ≥ width)) :
    im2col_bilinear_cuda F data_width height width h (w + d)
      - im2col_bilinear_cuda F data_width height width h w
      = d * get_coordinate_weight_cuda h w height width F data_width 1 := by
  unfold im2col_bilinear_cuda get_coordinate_weight_cuda
  rw [if_neg hr]
  simp only [hfl, if_true, one_ne_zero, if_false]
  split_ifs <;> ring


/-- The floor of one half. -/
theorem floor_half : ⌊(2⁻¹ : ℚ)⌋ = 0 := by
  rw [Int.floor_eq_iff]; norm_num

/-- A coordinate with zero fractional part is its own floor. -/
theorem fract_zero_eq_floor (a : ℚ) (h : Int.fract a = 0) : a = (⌊a⌋ : ℚ) := by
  have := Int.floor_add_fract a
  rw [h, add_zero] at this
  exact this.symm

/-- At a coordinate with zero fractional part and non-negative components the primitive
returns the field value at that lattice point. -/
theorem im2col_bilinear_cuda_fract_zero (field : Buf) (data_width height width : ℤ) (h w : ℚ)
    (hfh : Int.fract h = 0) (hfw : Int.fract w = 0) (hh : 0 ≤ h) (hw : 0 ≤ w) :
    im2col_bilinear_cuda field data_width height width h w
      = field (⌊h⌋ * data_width + ⌊w⌋) := by
  have e1 := fract_zero_eq_floor h hfh
  have e2 := fract_zero_eq_floor w hfw
  have := im2col_bilinear_cuda_lattice field data_width height width ⌊h⌋ ⌊w⌋
    (Int.floor_nonneg.2 hh) (Int.floor_nonneg.2 hw)
  rw [← e1, ← e2] at this
  exact this

/-- The floor of `1 / 2`. -/
theorem floor_one_half : ⌊(1 / 2 : ℚ)⌋ = 0 :=
  Int.floor_eq_iff.2 ⟨by norm_num, by norm_num⟩

/-- The floor of `1 / 2 + 1 / 4`. -/
theorem floor_half_add_quarter : ⌊(1 / 2 : ℚ) + 1 / 4⌋ = 0 :=
  Int.floor_eq_iff.2 ⟨by norm_num, by norm_num⟩

/-- The four corner weights of the value-w.r.t.-pixel weight, and zero off the corners. -/
theorem get_gradient_weight_cuda_corners (a_h a_w : ℚ) (h w height width : ℤ)
    (hr : ¬ (a_h ≤ -1 ∨ a_h ≥ height ∨ a_w ≤ -1 ∨ a_w ≥ width)) :
    (h = ⌊a_h⌋ ∧ w = ⌊a_w⌋ →
      get_gradient_weight_cuda a_h a_w h w height width
        = (1 - (a_h - ⌊a_h⌋)) * (1 - (a_w - ⌊a_w⌋))) ∧
    (h = ⌊a_h⌋ ∧ w = ⌊a_w⌋ + 1 →
      get_gradient_weight_cuda a_h a_w h w height width
        = (1 - (a_h - ⌊a_h⌋)) * (a_w - ⌊a_w⌋)) ∧
    (h = ⌊a_h⌋ + 1 ∧ w = ⌊a_w⌋ →
      get_gradient_weight_cuda a_h a_w h w height width
        = (a_h - ⌊a_h⌋) * (1 - (a_w - ⌊a_w⌋))) ∧
    (h = ⌊a_h⌋ + 1 ∧ w = ⌊a_w⌋ + 1 →
      get_gradient_weight_cuda a_h a_w h w height width
        = (a_h - ⌊a_h⌋) * (a_w - ⌊a_w⌋)) ∧
    (¬ ((h = ⌊a_h⌋ ∨ h = ⌊a_h⌋ + 1) ∧ (w = ⌊a_w⌋ ∨ w = ⌊a_w⌋ + 1)) →
      get_gradient_weight_cuda a_h a_w h w height width = 0) := by
  have n1 : ∀ z : ℤ, ¬ z + 1 = z := fun z => by omega
  rw [get_gradient_weight_cuda_eq, if_neg hr]
  unfold axisWeight
  refine ⟨?_, ?_, ?_, ?_, ?_⟩
  · rintro ⟨rfl, rfl⟩
    simp only [if_true]
  · rintro ⟨rfl, rfl⟩
    simp only [if_true, n1, if_false]
  · rintro ⟨rfl, rfl⟩
    simp only [if_true, n1, if_false]
  · rintro ⟨rfl, rfl⟩
    simp only [if_true, n1, if_false]
  · intro hn
    by_cases h1 : h = ⌊a_h⌋ ∨ h = ⌊a_h⌋ + 1
    · have h2 : ¬ (w = ⌊a_w⌋ ∨ w = ⌊a_w⌋ + 1) := fun h2 => hn ⟨h1, h2⟩
      push_neg at h2
      rw [if_neg h2.1, if_neg h2.2, mul_zero]
    · push_neg at h1
      rw [if_neg h1.1, if_neg h1.2, zero_mul]

/-- The image-gradient kernel body adds to every cell an amount that does not depend on
the buffer: what it adds to the all-zero buffer. -/
theorem col2im_thread_additive (MODULATED : Bool) (data_col data_offset data_mask : Buf)
    (p : Footprint) (g : Buf) (idx q : ℤ) :
    col2im_thread MODULATED data_col data_offset data_mask p g idx q
      = g q + col2im_thread MODULATED data_col data_offset data_mask p (fun _ => 0) idx q := by
  have scan : ∀ (c : ℤ) (a_h a_w : ℚ) (cur_h cur_w : ℤ) (grad : ℚ) (b : Buf),
      scanRange.foldl
          (fun g dy => scanRange.foldl
            (fun g dx => col2im_neighbor p c a_h a_w cur_h cur_w grad dy dx g) g) b q
        = b q + (scanRange.map (fun dy => (scanRange.map (fun dx =>
            if (cur_h + dy ≥ 0 ∧ cur_h + dy < p.height ∧ cur_w + dx ≥ 0 ∧
              cur_w + dx < p.width ∧ |a_h - ((cur_h + dy : ℤ) : ℚ)| < 1 ∧
              |a_w - ((cur_w + dx : ℤ) : ℚ)| < 1) ∧
              (c * p.height + cur_h + dy) * p.width + cur_w + dx = q then
            get_gradient_weight_cuda a_h a_w (cur_h + dy) (cur_w + dx) p.height p.width * grad
            else 0)).sum)).sum := by
    intro c a_h a_w cur_h cur_w grad b
    exact foldl_additive _ _ (fun b dy q =>
      foldl_additive _ _ (fun b dx q =>
        col2im_neighbor_apply p c a_h a_w cur_h cur_w grad dy dx b q) scanRange b q)
      scanRange b q
  unfold col2im_thread
  simp only
  rw [scan, scan _ _ _ _ _ _ (fun _ => 0), zero_add]

/-- Folding the image-gradient kernel body over any list of flat indices adds, to every
cell, the sum of what each index adds to the all-zero buffer. -/
theorem col2im_fold_additive (MODULATED : Bool) (data_col data_offset data_mask : Buf)
    (p : Footprint) (xs : List ℤ) (g : Buf) (q : ℤ) :
    xs.foldl (col2im_thread MODULATED data_col data_offset data_mask p) g q
      = g q + (xs.map (fun idx =>
          col2im_thread MODULATED data_col data_offset data_mask p (fun _ => 0) idx q)).sum :=
  foldl_additive _ _
    (fun b idx q => col2im_thread_additive MODULATED data_col data_offset data_mask p b idx q)
    xs g q

/-- The image-gradient buffer does not depend on the order in which the flat indices are
processed. -/
theorem col2im_fold_perm (MODULATED : Bool) (data_col data_offset data_mask : Buf)
    (p : Footprint) (xs ys : List ℤ) (hperm : xs.Perm ys) (g : Buf) :
    xs.foldl (col2im_thread MODULATED data_col data_offset data_mask p) g
      = ys.foldl (col2im_thread MODULATED data_col data_offset data_mask p) g := by
  funext q
  rw [col2im_fold_additive, col2im_fold_additive]
  congr 1
  exact (hperm.map _).sum_eq

/-- An accumulate into one cell, seen from the all-zero buffer. -/
theorem update_add_eq (b : Buf) (pos : ℤ) (v : ℚ) (q : ℤ) :
    Function.update b pos (b pos + v) q
      = b q + Function.update (fun _ => (0 : ℚ)) pos ((0 : ℚ) + v) q := by
  by_cases h : q = pos
  · subst h; simp
  · simp [Function.update_noteq h]

/-- One iteration of the offset/mask-gradient loop adds, to every cell of both gradient
buffers, an amount that does not depend on the buffers. -/
theorem col2im_coord_body_additive (MODULATED : Bool)
    (data_col_ptr data_im_ptr data_offset_ptr data_mask_ptr : Buf) (p : Footprint)
    (grad_offset_ptr grad_mask_ptr h w offset_c col_c cnt : ℤ) (st : Buf × Buf) :
    col2im_coord_body MODULATED data_col_ptr data_im_ptr data_offset_ptr data_mask_ptr p
        grad_offset_ptr grad_mask_ptr h w offset_c col_c cnt st
      = (fun q => st.1 q
            + (col2im_coord_body MODULATED data_col_ptr data_im_ptr data_offset_ptr
                data_mask_ptr p grad_offset_ptr grad_mask_ptr h w offset_c col_c cnt
                (fun _ => 0, fun _ => 0)).1 q,
         fun q => st.2 q
            + (col2im_coord_body MODULATED data_col_ptr data_im_ptr data_offset_ptr
                data_mask_ptr p grad_offset_ptr grad_mask_ptr h w offset_c col_c cnt
                (fun _ => 0, fun _ => 0)).2 q) := by
  unfold col2im_coord_body
  simp only
  split_ifs <;>
    refine Prod.ext (funext fun q => ?_) (funext fun q => ?_) <;>
    first
      | exact update_add_eq _ _ _ q
      | simp

/-- The strided loop of an additive body is additive. -/
theorem col2im_coord_loop_additive (body : ℤ → ℤ → Buf × Buf → Buf × Buf)
    (hbody : ∀ col_c cnt st, body col_c cnt st
      = (fun q => st.1 q + (body col_c cnt (fun _ => 0, fun _ => 0)).1 q,
         fun q => st.2 q + (body col_c cnt (fun _ => 0, fun _ => 0)).2 q))
    (bound col_step : ℤ) :
    ∀ (fuel : ℕ) (col_c cnt : ℤ) (st : Buf × Buf),
      col2im_coord_loop body bound col_step fuel col_c cnt st
        = (fun q => st.1 q
              + (col2im_coord_loop body bound col_step fuel col_c cnt
                  (fun _ => 0, fun _ => 0)).1 q,
           fun q => st.2 q
              + (col2im_coord_loop body bound col_step fuel col_c cnt
                  (fun _ => 0, fun _ => 0)).2 q) := by
  intro fuel
  induction fuel with
  | zero =>
    intro col_c cnt st
    simp [col2im_coord_loop]
  | succ f ih =>
    intro col_c cnt st
    simp only [col2im_coord_loop]
    split_ifs with hlt
    · rw [ih (col_c + col_step) (cnt + 1) (body col_c cnt st),
        ih (col_c + col_step) (cnt + 1) (body col_c cnt (fun _ => 0, fun _ => 0)),
        hbody col_c cnt st]
      refine Prod.ext (funext fun q => ?_) (funext fun q => ?_)
      · simp only; ring
      · simp only; ring
    · simp

/-- The offset/mask-gradient kernel body adds, to every cell of both gradient buffers,
what it adds to all-zero buffers. -/
theorem col2im_coord_thread_additive (MODULATED : Bool)
    (data_col data_im data_offset data_mask : Buf) (p : Footprint) (st : Buf × Buf)
    (idx : ℤ) :
    col2im_coord_thread MODULATED data_col data_im data_offset data_mask p st idx
      = (fun q => st.1 q
            + (col2im_coord_thread MODULATED data_col data_im data_offset data_mask p
                (fun _ => 0, fun _ => 0) idx).1 q,
         fun q => st.2 q
            + (col2im_coord_thread MODULATED data_col data_im data_offset data_mask p
                (fun _ => 0, fun _ => 0) idx).2 q) := by
  unfold col2im_coord_thread
  exact col2im_coord_loop_additive _
    (fun col_c cnt st => col2im_coord_body_additive MODULATED _ _ _ _ p _ _ _ _ _ col_c cnt st)
    _ _ _ _ _ st

/-- The offset/mask-gradient launch adds, to every cell of both gradient buffers, what
it leaves there from all-zero buffers. -/
theorem coord_kernel_additive (MODULATED : Bool) (n : ℤ)
    (data_col data_im data_offset data_mask : Buf) (p : Footprint) (go gm : Buf) (q : ℤ) :
    (modulated_deformable_col2im_coord_gpu_kernel MODULATED n data_col data_im data_offset
        data_mask p go gm).1 q
      = go q + (modulated_deformable_col2im_coord_gpu_kernel MODULATED n data_col data_im
          data_offset data_mask p (fun _ => 0) (fun _ => 0)).1 q ∧
    (modulated_deformable_col2im_coord_gpu_kernel MODULATED n data_col data_im data_offset
        data_mask p go gm).2 q
      = gm q + (modulated_deformable_col2im_coord_gpu_kernel MODULATED n data_col data_im
          data_offset data_mask p (fun _ => 0) (fun _ => 0)).2 q := by
  unfold modulated_deformable_col2im_coord_gpu_kernel kernelLoop
  constructor
  · rw [foldl_additive_proj
        (col2im_coord_thread MODULATED data_col data_im data_offset data_mask p)
        (fun st => st.1 q)
        (fun idx => (col2im_coord_thread MODULATED data_col data_im data_offset data_mask p
          (fun _ => 0, fun _ => 0) idx).1 q) _
        (fun idx _ s => by
          rw [col2im_coord_thread_additive MODULATED data_col data_im data_offset data_mask p
            s idx]) (go, gm),
      foldl_additive_proj
        (col2im_coord_thread MODULATED data_col data_im data_offset data_mask p)
        (fun st => st.1 q)
        (fun idx => (col2im_coord_thread MODULATED data_col data_im data_offset data_mask p
          (fun _ => 0, fun _ => 0) idx).1 q) _
        (fun idx _ s => by
          rw [col2im_coord_thread_additive MODULATED data_col data_im data_offset data_mask p
            s idx]) (fun _ => 0, fun _ => 0)]
    simp
  · rw [foldl_additive_proj
        (col2im_coord_thread MODULATED data_col data_im data_offset data_mask p)
        (fun st => st.2 q)
        (fun idx => (col2im_coord_thread MODULATED data_col data_im data_offset data_mask p
          (fun _ => 0, fun _ => 0) idx).2 q) _
        (fun idx _ s => by
          rw [col2im_coord_thread_additive MODULATED data_col data_im data_offset data_mask p
            s idx]) (go, gm),
      foldl_additive_proj
        (col2im_coord_thread MODULATED data_col data_im data_offset data_mask p)
        (fun st => st.2 q)
        (fun idx => (col2im_coord_thread MODULATED data_col data_im data_offset data_mask p
          (fun _ => 0, fun _ => 0) idx).2 q) _
        (fun idx _ s => by
          rw [col2im_coord_thread_additive MODULATED data_col data_im data_offset data_mask p
            s idx]) (fun _ => 0, fun _ => 0)]
    simp

/-- Every position of the column buffer is the column position of an in-range (channel,
tap, location). -/
theorem colIndex_surj_lt (p : Footprint) (q : ℤ) (hkh : 0 < p.kernel_h)
    (hkw : 0 < p.kernel_w) (hhc : 0 < p.height_col) (hwc : 0 < p.width_col) (h0 : 0 ≤ q)
    (h1 : q < p.channels * p.kernel_h * p.kernel_w * p.height_col * p.width_col) :
    ∃ c i j h w : ℤ, 0 ≤ c ∧ c < p.channels ∧ 0 ≤ i ∧ i < p.kernel_h ∧ 0 ≤ j ∧
      j < p.kernel_w ∧ 0 ≤ h ∧ h < p.height_col ∧ 0 ≤ w ∧ w < p.width_col ∧
      q = colIndex p c i j h w := by
  obtain ⟨c, i, j, h, w, hc, hi, hi2, hj, hj2, hh, hh2, hw, hw2, e⟩ :=
    colIndex_surj p q h0 hkh hkw hhc hwc
  refine ⟨c, i, j, h, w, hc, ?_, hi, hi2, hj, hj2, hh, hh2, hw, hw2, e⟩
  by_contra hge
  push_neg at hge
  have e' : q = (((c * p.kernel_h + i) * p.kernel_w + j) * p.height_col + h) * p.width_col
      + w := by
    rw [e]; unfold colIndex; ring
  have a1 : p.channels * p.kernel_h ≤ c * p.kernel_h := mul_le_mul_of_nonneg_right hge hkh.le
  have a2 : p.channels * p.kernel_h * p.kernel_w ≤ (c * p.kernel_h + i) * p.kernel_w :=
    mul_le_mul_of_nonneg_right (by omega) hkw.le
  have a3 : p.channels * p.kernel_h * p.kernel_w * p.height_col
      ≤ ((c * p.kernel_h + i) * p.kernel_w + j) * p.height_col :=
    mul_le_mul_of_nonneg_right (by omega) hhc.le
  have a4 : p.channels * p.kernel_h * p.kernel_w * p.height_col * p.width_col
      ≤ (((c * p.kernel_h + i) * p.kernel_w + j) * p.height_col + h) * p.width_col :=
    mul_le_mul_of_nonneg_right (by omega) hwc.le
  omega

/-- For a non-negative numerator and a positive stride the output extent computed by the
launchers is the one of the specification, and it is at least 1. -/
theorem outSize_eq_spec (inp k pd s d : ℤ) (hs : 1 ≤ s)
    (hn : 0 ≤ inp + 2 * pd - d * (k - 1) - 1) :
    outSize inp k pd s d = outSizeSpec inp k pd s d ∧ 1 ≤ outSize inp k pd s d := by
  have e : inp + 2 * pd - (d * (k - 1) + 1) = inp + 2 * pd - d * (k - 1) - 1 := by ring
  unfold outSize outSizeSpec
  rw [e, Int.tdiv_eq_ediv hn (by omega)]
  refine ⟨rfl, ?_⟩
  have := Int.ediv_nonneg hn (show (0 : ℤ) ≤ s by omega)
  omega

/-- The truncation toward zero of a coordinate is its floor or its floor plus one. -/
theorem castInt_cases (a : ℚ) : castInt a = ⌊a⌋ ∨ castInt a = ⌊a⌋ + 1 := by
  unfold castInt
  split_ifs
  · exact Or.inl rfl
  · have h1 := Int.floor_le_ceil a
    have h2 := Int.ceil_le_floor_add_one a
    omega

/-- A lattice index within one unit of the coordinate is its floor or its floor plus
one. -/
theorem near_is_corner (a : ℚ) (y : ℤ) (h : |a - (y : ℚ)| < 1) : y = ⌊a⌋ ∨ y = ⌊a⌋ + 1 := by
  rw [abs_lt] at h
  obtain ⟨h1, h2⟩ := h
  have f1 : (⌊a⌋ : ℚ) ≤ a := Int.floor_le a
  have f2 : a < ⌊a⌋ + 1 := Int.lt_floor_add_one a
  have g1 : (y : ℚ) < ⌊a⌋ + 1 + 1 := by linarith
  have g2 : (⌊a⌋ : ℚ) < y + 1 := by linarith
  have g1' : y < ⌊a⌋ + 1 + 1 := by exact_mod_cast g1
  have g2' : ⌊a⌋ < y + 1 := by exact_mod_cast g2
  omega

/-- A sum over the 5-wide window around the truncated coordinate of a term that vanishes
off the lattice indices within one unit of the coordinate is the sum over the two
corners. -/
theorem scan_reduce (a : ℚ) (f : ℤ → ℚ) (hf : ∀ y : ℤ, ¬ |a - (y : ℚ)| < 1 → f y = 0) :
    (scanRange.map (fun d => f (castInt a + d))).sum
      = (cornerRange.map (fun d => f (⌊a⌋ + d))).sum := by
  have far : ∀ y : ℤ, y ≠ ⌊a⌋ → y ≠ ⌊a⌋ + 1 → f y = 0 := by
    intro y h1 h2
    apply hf
    intro hn
    rcases near_is_corner a y hn with h | h
    · exact h1 h
    · exact h2 h
  rcases castInt_cases a with h | h
  · rw [h]
    simp only [scanRange, cornerRange, List.map_cons, List.map_nil, List.sum_cons, List.sum_nil,
      add_zero]
    rw [far (⌊a⌋ + -2) (by omega) (by omega), far (⌊a⌋ + -1) (by omega) (by omega),
      far (⌊a⌋ + 2) (by omega) (by omega)]
    ring
  · rw [h]
    simp only [scanRange, cornerRange, List.map_cons, List.map_nil, List.sum_cons, List.sum_nil,
      add_zero]
    rw [far (⌊a⌋ + 1 + -2) (by omega) (by omega), far (⌊a⌋ + 1 + 1) (by omega) (by omega),
      far (⌊a⌋ + 1 + 2) (by omega) (by omega)]
    have e1 : ⌊a⌋ + 1 + -1 = ⌊a⌋ + 0 := by ring
    rw [e1]
    simp only [add_zero, zero_add]

/-- A double scan of neighbours over any two lists of offsets adds, to every cell, the
sum of the contributions of the neighbours that pass the hit test and address the
cell. -/
theorem col2im_scan_sum (p : Footprint) (c : ℤ) (a_h a_w : ℚ) (cur_h cur_w : ℤ) (grad : ℚ)
    (ys xs : List ℤ) (b : Buf) (q : ℤ) :
    ys.foldl
        (fun g dy => xs.foldl
          (fun g dx => col2im_neighbor p c a_h a_w cur_h cur_w grad dy dx g) g) b q
      = b q + (ys.map (fun dy => (xs.map (fun dx =>
          if (cur_h + dy ≥ 0 ∧ cur_h + dy < p.height ∧ cur_w + dx ≥ 0 ∧
            cur_w + dx < p.width ∧ |a_h - ((cur_h + dy : ℤ) : ℚ)| < 1 ∧
            |a_w - ((cur_w + dx : ℤ) : ℚ)| < 1) ∧
            (c * p.height + cur_h + dy) * p.width + cur_w + dx = q then
          get_gradient_weight_cuda a_h a_w (cur_h + dy) (cur_w + dx) p.height p.width * grad
          else 0)).sum)).sum :=
  foldl_additive _ _ (fun b dy q =>
    foldl_additive _ _ (fun b dx q =>
      col2im_neighbor_apply p c a_h a_w cur_h cur_w grad dy dx b q) xs b q)
    ys b q

/-- The 5 x 5 scan around the truncated coordinate and the scan of the 2 x 2 corner set
leave the same image-gradient buffer. -/
theorem col2im_scan_eq_corners (p : Footprint) (c : ℤ) (a_h a_w grad : ℚ) (b : Buf) (q : ℤ) :
    scanRange.foldl
        (fun g dy => scanRange.foldl
          (fun g dx =>
            col2im_neighbor p c a_h a_w (castInt a_h) (castInt a_w) grad dy dx g) g) b q
      = cornerRange.foldl
          (fun g dy => cornerRange.foldl
            (fun g dx => col2im_neighbor p c a_h a_w ⌊a_h⌋ ⌊a_w⌋ grad dy dx g) g) b q := by
  rw [col2im_scan_sum, col2im_scan_sum]
  congr 1
  have inner : ∀ y : ℤ,
      (scanRange.map (fun dx =>
          if (y ≥ 0 ∧ y < p.height ∧ castInt a_w + dx ≥ 0 ∧
            castInt a_w + dx < p.width ∧ |a_h - (y : ℚ)| < 1 ∧
            |a_w - ((castInt a_w + dx : ℤ) : ℚ)| < 1) ∧
            (c * p.height + y) * p.width + (castInt a_w + dx) = q then
          get_gradient_weight_cuda a_h a_w y (castInt a_w + dx) p.height p.width * grad
          else 0)).sum
        = (cornerRange.map (fun dx =>
          if (y ≥ 0 ∧ y < p.height ∧ ⌊a_w⌋ + dx ≥ 0 ∧
            ⌊a_w⌋ + dx < p.width ∧ |a_h - (y : ℚ)| < 1 ∧
            |a_w - ((⌊a_w⌋ + dx : ℤ) : ℚ)| < 1) ∧
            (c * p.height + y) * p.width + (⌊a_w⌋ + dx) = q then
          get_gradient_weight_cuda a_h a_w y (⌊a_w⌋ + dx) p.height p.width * grad
          else 0)).sum := by
    intro y
    exact scan_reduce a_w (fun x =>
      if (y ≥ 0 ∧ y < p.height ∧ x ≥ 0 ∧ x < p.width ∧ |a_h - (y : ℚ)| < 1 ∧
          |a_w - (x : ℚ)| < 1) ∧ (c * p.height + y) * p.width + x = q then
        get_gradient_weight_cuda a_h a_w y x p.height p.width * grad
      else 0) (fun x hx => if_neg (fun h => hx h.1.2.2.2.2.2))
  have outer := scan_reduce a_h (fun y =>
      (cornerRange.map (fun dx =>
          if (y ≥ 0 ∧ y < p.height ∧ ⌊a_w⌋ + dx ≥ 0 ∧
            ⌊a_w⌋ + dx < p.width ∧ |a_h - (y : ℚ)| < 1 ∧
            |a_w - ((⌊a_w⌋ + dx : ℤ) : ℚ)| < 1) ∧
            (c * p.height + y) * p.width + (⌊a_w⌋ + dx) = q then
          get_gradient_weight_cuda a_h a_w y (⌊a_w⌋ + dx) p.height p.width * grad
          else 0)).sum)
    (fun y hy => by
      have : ∀ dx : ℤ,
          (if (y ≥ 0 ∧ y < p.height ∧ ⌊a_w⌋ + dx ≥ 0 ∧
            ⌊a_w⌋ + dx < p.width ∧ |a_h - (y : ℚ)| < 1 ∧
            |a_w - ((⌊a_w⌋ + dx : ℤ) : ℚ)| < 1) ∧
            (c * p.height + y) * p.width + (⌊a_w⌋ + dx) = q then
          get_gradient_weight_cuda a_h a_w y (⌊a_w⌋ + dx) p.height p.width * grad
          else 0) = 0 := fun dx => if_neg (fun h => hy h.1.2.2.2.2.1)
      simp only [this]
      simp [cornerRange])
  simp only [add_assoc] at inner outer ⊢
  simp only [inner]
  exact outer

/-- The body of the image-gradient kernel and the body restricted to the 2 x 2 corner set
leave the same buffer. -/
theorem col2im_thread_eq_corners (MODULATED : Bool) (data_col data_offset data_mask : Buf)
    (p : Footprint) (g : Buf) (idx : ℤ) :
    col2im_thread MODULATED data_col data_offset data_mask p g idx
      = col2im_thread_corners MODULATED data_col data_offset data_mask p g idx := by
  funext q
  unfold col2im_thread col2im_thread_corners
  simp only
  exact col2im_scan_eq_corners p _ _ _ _ g q

/-- The image-gradient launch and the launch restricted to the 2 x 2 corner set leave the
same buffer. -/
theorem col2im_kernel_eq_corners (MODULATED : Bool) (n : ℤ)
    (data_col data_offset data_mask : Buf) (p : Footprint) (grad_im : Buf) :
    modulated_deformable_col2im_gpu_kernel MODULATED n data_col data_offset data_mask p grad_im
      = modulated_deformable_col2im_gpu_kernel_corners MODULATED n data_col data_offset
          data_mask p grad_im := by
  unfold modulated_deformable_col2im_gpu_kernel modulated_deformable_col2im_gpu_kernel_corners
    kernelLoop
  have e : col2im_thread MODULATED data_col data_offset data_mask p
      = col2im_thread_corners MODULATED data_col data_offset data_mask p := by
    funext g idx
    exact col2im_thread_eq_corners MODULATED data_col data_offset data_mask p g idx
  rw [e]

/-- An in-bounds lattice point with non-zero gradient weight is reached by the 5 x 5 scan
and passes its hit test. -/
theorem corner_is_hit (p : Footprint) (h w : ℚ) (y x : ℤ)
    (hy : 0 ≤ y) (hy2 : y < p.height) (hx : 0 ≤ x) (hx2 : x < p.width)
    (hne : get_gradient_weight_cuda h w y x p.height p.width ≠ 0) :
    ∃ dy ∈ scanRange, ∃ dx ∈ scanRange, castInt h + dy = y ∧ castInt w + dx = x ∧
      (castInt h + dy ≥ 0 ∧ castInt h + dy < p.height ∧ castInt w + dx ≥ 0 ∧
        castInt w + dx < p.width ∧ |h - ((castInt h + dy : ℤ) : ℚ)| < 1 ∧
        |w - ((castInt w + dx : ℤ) : ℚ)| < 1) := by
  have hn : |h - (y : ℚ)| < 1 ∧ |w - (x : ℚ)| < 1 := by
    by_contra hc
    exact hne (get_gradient_weight_cuda_far h w y x p.height p.width hc)
  obtain ⟨a1, a2⟩ := castInt_near h y hn.1
  obtain ⟨b1, b2⟩ := castInt_near w x hn.2
  have ey : castInt h + (y - castInt h) = y := by ring
  have ex : castInt w + (x - castInt w) = x := by ring
  have my : y - castInt h ∈ scanRange := by
    simp only [scanRange, List.mem_cons, List.mem_singleton, List.mem_nil_iff, or_false]
    omega
  have mx : x - castInt w ∈ scanRange := by
    simp only [scanRange, List.mem_cons, List.mem_singleton, List.mem_nil_iff, or_false]
    omega
  refine ⟨y - castInt h, my, x - castInt w, mx, ey, ex, ?_⟩
  rw [ey, ex]
  exact ⟨hy, hy2, hx, hx2, hn.1, hn.2⟩

/-- The image-gradient kernel body, written with its decomposition of the flat index and
the sampling coordinate it recomputes. -/
theorem col2im_thread_decoded (MODULATED : Bool) (data_col data_offset data_mask : Buf)
    (p : Footprint) (grad_im : Buf) (idx : ℤ) :
    ∃ cur_top_grad : ℚ,
      col2im_thread MODULATED data_col data_offset data_mask p grad_im idx
        = scanRange.foldl
            (fun g dy => scanRange.foldl
              (fun g dx =>
                col2im_neighbor p (col2im_decode p idx).1
                  (kernel_sampling_coord p
                    (ptrAdd data_offset ((col2im_decode p idx).1.tdiv
                      p.channel_per_deformable_group * 2 * p.kernel_h * p.kernel_w * p.height
                      * p.width))
                    ((col2im_decode p idx).2.2.2.1 * p.stride_h)
                    ((col2im_decode p idx).2.2.2.2 * p.stride_w)
                    (col2im_decode p idx).2.1 (col2im_decode p idx).2.2.1).1
                  (kernel_sampling_coord p
                    (ptrAdd data_offset ((col2im_decode p idx).1.tdiv
                      p.channel_per_deformable_group * 2 * p.kernel_h * p.kernel_w * p.height
                      * p.width))
                    ((col2im_decode p idx).2.2.2.1 * p.stride_h)
                    ((col2im_decode p idx).2.2.2.2 * p.stride_w)
                    (col2im_decode p idx).2.1 (col2im_decode p idx).2.2.1).2
                  (castInt (kernel_sampling_coord p
                    (ptrAdd data_offset ((col2im_decode p idx).1.tdiv
                      p.channel_per_deformable_group * 2 * p.kernel_h * p.kernel_w * p.height
                      * p.width))
                    ((col2im_decode p idx).2.2.2.1 * p.stride_h)
                    ((col2im_decode p idx).2.2.2.2 * p.stride_w)
                    (col2im_decode p idx).2.1 (col2im_decode p idx).2.2.1).1)
                  (castInt (kernel_sampling_coord p
                    (ptrAdd data_offset ((col2im_decode p idx).1.tdiv
                      p.channel_per_deformable_group * 2 * p.kernel_h * p.kernel_w * p.height
                      * p.width))
                    ((col2im_decode p idx).2.2.2.1 * p.stride_h)
                    ((col2im_decode p idx).2.2.2.2 * p.stride_w)
                    (col2im_decode p idx).2.1 (col2im_decode p idx).2.2.1).2)
                  cur_top_grad dy dx g) g)
            grad_im :=
  ⟨_, rfl⟩

/-- The value the forward kernel stores for a tap is the guarded bilinear sample at the
sampling coordinate, times the mask value when modulation is enabled. -/
theorem im2col_tap_value_coord (MODULATED : Bool)
    (data_im_ptr data_offset_ptr data_mask_ptr : Buf) (p : Footprint) (h_in w_in i j : ℤ) :
    ∃ mask : ℚ,
      im2col_tap_value MODULATED data_im_ptr data_offset_ptr data_mask_ptr p h_in w_in i j
        = (if (kernel_sampling_coord p data_offset_ptr h_in w_in i j).1 > -1 ∧
              (kernel_sampling_coord p data_offset_ptr h_in w_in i j).2 > -1 ∧
              (kernel_sampling_coord p data_offset_ptr h_in w_in i j).1 < p.height ∧
              (kernel_sampling_coord p data_offset_ptr h_in w_in i j).2 < p.width then
            im2col_bilinear_cuda data_im_ptr p.width p.height p.width
              (kernel_sampling_coord p data_offset_ptr h_in w_in i j).1
              (kernel_sampling_coord p data_offset_ptr h_in w_in i j).2
          else 0) * mask := by
  cases MODULATED
  · exact ⟨1, by simp [im2col_tap_value, kernel_sampling_coord]⟩
  · exact ⟨_, rfl⟩

/-- The column position of (c, i, j, h, w) is decomposed by the image-gradient kernel
into (c, i, j, h, w). -/
theorem col2im_decode_colIndex (p : Footprint) (c i j h w : ℤ) (hc : 0 ≤ c)
    (hi : 0 ≤ i) (hi2 : i < p.kernel_h) (hj : 0 ≤ j) (hj2 : j < p.kernel_w)
    (hh : 0 ≤ h) (hh2 : h < p.height_col) (hw : 0 ≤ w) (hw2 : w < p.width_col) :
    col2im_decode p (colIndex p c i j h w) = (c, i, j, h, w) := by
  obtain ⟨d1, d2, d3, d4, d5⟩ := colIndex_decode p c i j h w hc hi hi2 hj hj2 hh hh2 hw hw2
  unfold col2im_decode
  simp only [d1, d2, d3, d4, d5]

/-- One iteration of the offset/mask-gradient loop, written with its decomposition of
`col_pos` and the sampling coordinate it recomputes: the coordinate weight is taken at
that coordinate (or at the sentinel `(-2, -2)` when it is out of range) and added into
the offset-gradient cell of the decoded tap and location. -/
theorem col2im_coord_body_decoded (MODULATED : Bool)
    (data_col_ptr data_im_ptr data_offset_ptr data_mask_ptr : Buf) (p : Footprint)
    (grad_offset_ptr grad_mask_ptr h w offset_c col_c cnt : ℤ) (st : Buf × Buf)
    (i j h_out w_out : ℤ) (a_h a_w : ℚ)
    (hdec : col2im_coord_decode p (((col_c * p.height_col) + h) * p.width_col + w)
      = (i, j, h_out, w_out))
    (hco : kernel_sampling_coord p data_offset_ptr (h_out * p.stride_h) (w_out * p.stride_w)
      i j = (a_h, a_w)) :
    ∃ factor : ℚ,
      (col2im_coord_body MODULATED data_col_ptr data_im_ptr data_offset_ptr data_mask_ptr p
          grad_offset_ptr grad_mask_ptr h w offset_c col_c cnt st).1
        = Function.update st.1
            (grad_offset_ptr + (if offset_c.tmod 2 = 0 then
              ((2 * (i * p.kernel_w + j)) * p.height + h_out * p.stride_h) * p.width
                + w_out * p.stride_w
              else ((2 * (i * p.kernel_w + j) + 1) * p.height + h_out * p.stride_h) * p.width
                + w_out * p.stride_w))
            (st.1 (grad_offset_ptr + (if offset_c.tmod 2 = 0 then
              ((2 * (i * p.kernel_w + j)) * p.height + h_out * p.stride_h) * p.width
                + w_out * p.stride_w
              else ((2 * (i * p.kernel_w + j) + 1) * p.height + h_out * p.stride_h) * p.width
                + w_out * p.stride_w))
              + get_coordinate_weight_cuda
                  (if a_h ≤ -1 ∨ a_w ≤ -1 ∨ a_h ≥ p.height ∨ a_w ≥ p.width then -2 else a_h)
                  (if a_h ≤ -1 ∨ a_w ≤ -1 ∨ a_h ≥ p.height ∨ a_w ≥ p.width then -2 else a_w)
                  p.height p.width (ptrAdd data_im_ptr (cnt * p.height * p.width)) p.width
                  (offset_c.tmod 2) * factor) := by
  unfold col2im_coord_decode at hdec
  unfold kernel_sampling_coord at hco
  simp only [Prod.mk.injEq] at hdec hco
  obtain ⟨e1, e2, e3, e4⟩ := hdec
  obtain ⟨c1, c2⟩ := hco
  unfold col2im_coord_body
  simp only [e1, e2, e3, e4, c1, c2]
  cases MODULATED
  · exact ⟨_, rfl⟩
  · refine ⟨data_mask_ptr (((i * p.kernel_w + j) * p.height + h_out * p.stride_h) * p.width
      + w_out * p.stride_w) * data_col_ptr (((col_c * p.height_col) + h) * p.width_col + w), ?_⟩
    simp only [if_true, mul_assoc]

/-- Appending a digit `b < M` to a number `a < A` gives a number below `A * M`. -/
theorem digit_bound (M a b A : ℤ) (ha : 0 ≤ a) (ha2 : a + 1 ≤ A) (hb : 0 ≤ b) (hb2 : b < M) :
    0 ≤ a * M + b ∧ a * M + b + 1 ≤ A * M := by
  have h1 : 0 ≤ a * M := mul_nonneg ha (by omega)
  have h2 : (a + 1) * M ≤ A * M := mul_le_mul_of_nonneg_right ha2 (by omega)
  constructor
  · omega
  · nlinarith

/-- When twice the padding does not exceed the dilated kernel extent, every output
location is sampled at a row (column) of the field: `x * stride < in` for
`0 <= x < out`. -/
theorem strided_lt_of_pad (inp k pd s d x : ℤ) (hs : 1 ≤ s)
    (hn : 0 ≤ inp + 2 * pd - d * (k - 1) - 1) (hp : 2 * pd ≤ d * (k - 1))
    (hx : 0 ≤ x) (hx2 : x < outSize inp k pd s d) :
    0 ≤ x * s ∧ x * s < inp := by
  have e : inp + 2 * pd - (d * (k - 1) + 1) = inp + 2 * pd - d * (k - 1) - 1 := by ring
  unfold outSize at hx2
  rw [e, Int.tdiv_eq_ediv hn (by omega)] at hx2
  have h1 : (inp + 2 * pd - d * (k - 1) - 1) / s * s ≤ inp + 2 * pd - d * (k - 1) - 1 :=
    Int.ediv_mul_le _ (by omega)
  have h2 : x * s ≤ (inp + 2 * pd - d * (k - 1) - 1) / s * s :=
    mul_le_mul_of_nonneg_right (by omega) (by omega)
  exact ⟨mul_nonneg hx (by omega), by omega⟩

/-- The deformable group of a channel of the image is a group of the launch. -/
theorem groupOf_lt (c_i dg c : ℤ) (hdg : 0 < dg) (hdiv : c_i.tmod dg = 0) (hc : 0 ≤ c)
    (hc2 : c < c_i) : 0 ≤ c.tdiv (c_i.tdiv dg) ∧ c.tdiv (c_i.tdiv dg) < dg := by
  have hci : c_i = dg * c_i.tdiv dg := by
    have := Int.tdiv_add_tmod c_i dg
    rw [hdiv, add_zero] at this
    exact this.symm
  have hpos : 0 < c_i.tdiv dg := by
    by_contra hle
    push_neg at hle
    have : dg * c_i.tdiv dg ≤ 0 := mul_nonpos_of_nonneg_of_nonpos hdg.le hle
    omega
  rw [Int.tdiv_eq_ediv hc hpos.le]
  refine ⟨Int.ediv_nonneg hc hpos.le, Int.ediv_lt_of_lt_mul hpos ?_⟩
  rw [← hci]
  exact hc2

/-- An in-field entry of a group of the offset tensor lies in the tensor. -/
theorem offsetIndex_bound (p : Footprint) (g ch row col : ℤ) (hg : 0 ≤ g)
    (hg2 : g < p.deformable_group) (h1 : 0 ≤ ch) (h2 : ch < 2 * p.kernel_h * p.kernel_w)
    (h3 : 0 ≤ row) (h4 : row < p.height) (h5 : 0 ≤ col) (h6 : col < p.width) :
    0 ≤ offsetIndex p g ch row col ∧
      offsetIndex p g ch row col
        < 2 * p.kernel_h * p.kernel_w * p.deformable_group * p.height * p.width := by
  obtain ⟨a1, a2⟩ := digit_bound (2 * p.kernel_h * p.kernel_w) g ch p.deformable_group hg
    (by omega) h1 h2
  obtain ⟨b1, b2⟩ := digit_bound p.height _ row _ a1 a2 h3 h4
  obtain ⟨c1, c2⟩ := digit_bound p.width _ col _ b1 b2 h5 h6
  unfold offsetIndex
  have e : 2 * p.kernel_h * p.kernel_w * p.deformable_group * p.height * p.width
      = p.deformable_group * (2 * p.kernel_h * p.kernel_w) * p.height * p.width := by ring
  rw [e]
  exact ⟨c1, by omega⟩

/-- An in-field entry of a group of the mask tensor lies in the tensor. -/
theorem maskIndex_bound (p : Footprint) (g ch row col : ℤ) (hg : 0 ≤ g)
    (hg2 : g < p.deformable_group) (h1 : 0 ≤ ch) (h2 : ch < p.kernel_h * p.kernel_w)
    (h3 : 0 ≤ row) (h4 : row < p.height) (h5 : 0 ≤ col) (h6 : col < p.width) :
    0 ≤ maskIndex p g ch row col ∧
      maskIndex p g ch row col
        < p.kernel_h * p.kernel_w * p.deformable_group * p.height * p.width := by
  obtain ⟨a1, a2⟩ := digit_bound (p.kernel_h * p.kernel_w) g ch p.deformable_group hg
    (by omega) h1 h2
  obtain ⟨b1, b2⟩ := digit_bound p.height _ row _ a1 a2 h3 h4
  obtain ⟨c1, c2⟩ := digit_bound p.width _ col _ b1 b2 h5 h6
  unfold maskIndex
  have e : p.kernel_h * p.kernel_w * p.deformable_group * p.height * p.width
      = p.deformable_group * (p.kernel_h * p.kernel_w) * p.height * p.width := by ring
  rw [e]
  exact ⟨c1, by omega⟩

/-- The offset and mask entries the kernels read through the pointers of group `g` are
the entries `offsetIndex` and `maskIndex` of the tensors. -/
theorem offset_mask_reads (p : Footprint) (data_offset data_mask : Buf) (g i j h w : ℤ) :
    ptrAdd data_offset (g * 2 * p.kernel_h * p.kernel_w * p.height * p.width)
        (((2 * (i * p.kernel_w + j)) * p.height + h * p.stride_h) * p.width + w * p.stride_w)
      = data_offset (offsetIndex p g (2 * (i * p.kernel_w + j)) (h * p.stride_h)
          (w * p.stride_w)) ∧
    ptrAdd data_offset (g * 2 * p.kernel_h * p.kernel_w * p.height * p.width)
        (((2 * (i * p.kernel_w + j) + 1) * p.height + h * p.stride_h) * p.width
          + w * p.stride_w)
      = data_offset (offsetIndex p g (2 * (i * p.kernel_w + j) + 1) (h * p.stride_h)
          (w * p.stride_w)) ∧
    ptrAdd data_mask (g * p.kernel_h * p.kernel_w * p.height * p.width)
        (((i * p.kernel_w + j) * p.height + h * p.stride_h) * p.width + w * p.stride_w)
      = data_mask (maskIndex p g (i * p.kernel_w + j) (h * p.stride_h) (w * p.stride_w)) := by
  unfold ptrAdd offsetIndex maskIndex
  refine ⟨?_, ?_, ?_⟩ <;> congr 1 <;> ring

/-- The bilinear sample depends on the field only through the positions in
`im2col_bilinear_reads`. -/
theorem im2col_bilinear_cuda_reads_only (F F' : Buf) (data_width height width : ℤ) (h w : ℚ)
    (hF : ∀ k ∈ im2col_bilinear_reads data_width height width h w, F k = F' k) :
    im2col_bilinear_cuda F data_width height width h w
      = im2col_bilinear_cuda F' data_width height width h w := by
  unfold im2col_bilinear_reads at hF
  simp only [List.mem_append] at hF
  have e1 : (if ⌊h⌋ ≥ 0 ∧ ⌊w⌋ ≥ 0 then F (⌊h⌋ * data_width + ⌊w⌋) else 0)
      = (if ⌊h⌋ ≥ 0 ∧ ⌊w⌋ ≥ 0 then F' (⌊h⌋ * data_width + ⌊w⌋) else 0) := by
    split_ifs with hg
    · exact hF _ (Or.inl (Or.inl (Or.inl (by simp [hg]))))
    · rfl
  have e2 : (if ⌊h⌋ ≥ 0 ∧ ⌊w⌋ + 1 ≤ width - 1 then F (⌊h⌋ * data_width + (⌊w⌋ + 1)) else 0)
      = (if ⌊h⌋ ≥ 0 ∧ ⌊w⌋ + 1 ≤ width - 1 then F' (⌊h⌋ * data_width + (⌊w⌋ + 1))
          else 0) := by
    split_ifs with hg
    · exact hF _ (Or.inl (Or.inl (Or.inr (by simp [hg]))))
    · rfl
  have e3 : (if ⌊h⌋ + 1 ≤ height - 1 ∧ ⌊w⌋ ≥ 0 then F ((⌊h⌋ + 1) * data_width + ⌊w⌋) else 0)
      = (if ⌊h⌋ + 1 ≤ height - 1 ∧ ⌊w⌋ ≥ 0 then F' ((⌊h⌋ + 1) * data_width + ⌊w⌋)
          else 0) := by
    split_ifs with hg
    · exact hF _ (Or.inl (Or.inr (by simp [hg])))
    · rfl
  have e4 : (if ⌊h⌋ + 1 ≤ height - 1 ∧ ⌊w⌋ + 1 ≤ width - 1 then
        F ((⌊h⌋ + 1) * data_width + (⌊w⌋ + 1)) else 0)
      = (if ⌊h⌋ + 1 ≤ height - 1 ∧ ⌊w⌋ + 1 ≤ width - 1 then
        F' ((⌊h⌋ + 1) * data_width + (⌊w⌋ + 1)) else 0) := by
    split_ifs with hg
    · exact hF _ (Or.inr (by simp [hg]))
    · rfl
  unfold im2col_bilinear_cuda
  simp only [e1, e2, e3, e4]

/-- The coordinate weight depends on the field only through the positions in
`get_coordinate_weight_reads`. -/
theorem get_coordinate_weight_cuda_reads_only (F F' : Buf) (a_h a_w : ℚ)
    (height width data_width bp_dir : ℤ)
    (hF : ∀ k ∈ get_coordinate_weight_reads a_h a_w height width data_width bp_dir,
      F k = F' k) :
    get_coordinate_weight_cuda a_h a_w height width F data_width bp_dir
      = get_coordinate_weight_cuda a_h a_w height width F' data_width bp_dir := by
  unfold get_coordinate_weight_cuda
  unfold get_coordinate_weight_reads at hF
  by_cases hr : a_h ≤ -1 ∨ a_h ≥ height ∨ a_w ≤ -1 ∨ a_w ≥ width
  · rw [if_pos hr, if_pos hr]
  · rw [if_neg hr] at hF
    rw [if_neg hr, if_neg hr]
    have key : ∀ (g : Prop) [Decidable g] (coef : ℚ) (k : ℤ), (g → F k = F' k) →
        (if g then coef * F k else 0) = (if g then coef * F' k else 0) := by
      intro g _ coef k hk
      split_ifs with hg
      · rw [hk hg]
      · rfl
    by_cases h0 : bp_dir = 0
    · simp only [if_pos h0, List.mem_append] at hF
      simp only [if_pos h0]
      rw [key _ _ _ (fun hg => hF _ (Or.inl (Or.inl (Or.inl (by simp [hg]))))),
        key _ _ _ (fun hg => hF _ (Or.inl (Or.inl (Or.inr (by simp [hg]))))),
        key _ _ _ (fun hg => hF _ (Or.inl (Or.inr (by simp [hg])))),
        key _ _ _ (fun hg => hF _ (Or.inr (by simp [hg])))]
    · by_cases h1 : bp_dir = 1
      · simp only [if_neg h0, if_pos h1, List.mem_append] at hF
        simp only [if_neg h0, if_pos h1]
        rw [key _ _ _ (fun hg => hF _ (Or.inl (Or.inl (Or.inl (by simp [hg]))))),
          key _ _ _ (fun hg => hF _ (Or.inl (Or.inl (Or.inr (by simp [hg]))))),
          key _ _ _ (fun hg => hF _ (Or.inl (Or.inr (by simp [hg])))),
          key _ _ _ (fun hg => hF _ (Or.inr (by simp [hg])))]
      · simp only [if_neg h0, if_neg h1]

/-- The position of an in-bounds lattice point of a `height x width` field lies in the
field. -/
theorem field_pos_bound (height width y x : ℤ) (hy : 0 ≤ y) (hy2 : y < height) (hx : 0 ≤ x)
    (hx2 : x < width) : 0 ≤ y * width + x ∧ y * width + x < height * width := by
  have h1 : 0 ≤ y * width := mul_nonneg hy (by omega)
  have h2 : (y + 1) * width ≤ height * width := mul_le_mul_of_nonneg_right (by omega) (by omega)
  constructor
  · omega
  · nlinarith

/-- Membership in the list of guarded corner reads. -/
theorem mem_corner_reads (g1 g2 g3 g4 : Prop) [Decidable g1] [Decidable g2] [Decidable g3]
    [Decidable g4] (k k1 k2 k3 k4 : ℤ)
    (hk : k ∈ (if g1 then [k1] else []) ++ (if g2 then [k2] else [])
      ++ (if g3 then [k3] else []) ++ (if g4 then [k4] else [])) :
    (g1 ∧ k = k1) ∨ (g2 ∧ k = k2) ∨ (g3 ∧ k = k3) ∨ (g4 ∧ k = k4) := by
  simp only [List.mem_append] at hk
  rcases hk with ((hk | hk) | hk) | hk
  · by_cases h : g1
    · rw [if_pos h] at hk; exact Or.inl ⟨h, List.mem_singleton.1 hk⟩
    · rw [if_neg h] at hk; simp at hk
  · by_cases h : g2
    · rw [if_pos h] at hk; exact Or.inr (Or.inl ⟨h, List.mem_singleton.1 hk⟩)
    · rw [if_neg h] at hk; simp at hk
  · by_cases h : g3
    · rw [if_pos h] at hk; exact Or.inr (Or.inr (Or.inl ⟨h, List.mem_singleton.1 hk⟩))
    · rw [if_neg h] at hk; simp at hk
  · by_cases h : g4
    · rw [if_pos h] at hk; exact Or.inr (Or.inr (Or.inr ⟨h, List.mem_singleton.1 hk⟩))
    · rw [if_neg h] at hk; simp at hk

/-- A guarded corner of a coordinate in the open valid range is a lattice point of the
field. -/
theorem guarded_corner_in_field (height width : ℤ) (h w : ℚ) (k : ℤ)
    (hh1 : -1 < h) (hh2 : h < height) (hw1 : -1 < w) (hw2 : w < width)
    (hk : (⌊h⌋ ≥ 0 ∧ ⌊w⌋ ≥ 0 ∧ k = ⌊h⌋ * width + ⌊w⌋) ∨
      (⌊h⌋ ≥ 0 ∧ ⌊w⌋ + 1 ≤ width - 1 ∧ k = ⌊h⌋ * width + (⌊w⌋ + 1)) ∨
      (⌊h⌋ + 1 ≤ height - 1 ∧ ⌊w⌋ ≥ 0 ∧ k = (⌊h⌋ + 1) * width + ⌊w⌋) ∨
      (⌊h⌋ + 1 ≤ height - 1 ∧ ⌊w⌋ + 1 ≤ width - 1 ∧ k = (⌊h⌋ + 1) * width + (⌊w⌋ + 1))) :
    ∃ y x : ℤ, 0 ≤ y ∧ y < height ∧ 0 ≤ x ∧ x < width ∧ k = y * width + x ∧
      0 ≤ k ∧ k < height * width := by
  obtain ⟨a1, a2⟩ := floor_bounds h height hh1 hh2
  obtain ⟨b1, b2⟩ := floor_bounds w width hw1 hw2
  rcases hk with ⟨g1, g2, rfl⟩ | ⟨g1, g2, rfl⟩ | ⟨g1, g2, rfl⟩ | ⟨g1, g2, rfl⟩
  · exact ⟨⌊h⌋, ⌊w⌋, g1, a2, g2, b2, rfl, field_pos_bound _ _ _ _ g1 a2 g2 b2⟩
  · exact ⟨⌊h⌋, ⌊w⌋ + 1, g1, a2, by omega, by omega, rfl,
      field_pos_bound _ _ _ _ g1 a2 (by omega) (by omega)⟩
  · exact ⟨⌊h⌋ + 1, ⌊w⌋, by omega, by omega, g2, b2, rfl,
      field_pos_bound _ _ _ _ (by omega) (by omega) g2 b2⟩
  · exact ⟨⌊h⌋ + 1, ⌊w⌋ + 1, by omega, by omega, by omega, by omega, rfl,
      field_pos_bound _ _ _ _ (by omega) (by omega) (by omega) (by omega)⟩

/-- Under the range guard every position the bilinear primitive reads is a lattice point
of the field. -/
theorem im2col_bilinear_reads_in_field (height width : ℤ) (h w : ℚ)
    (hh1 : -1 < h) (hh2 : h < height) (hw1 : -1 < w) (hw2 : w < width) (k : ℤ)
    (hk : k ∈ im2col_bilinear_reads width height width h w) :
    ∃ y x : ℤ, 0 ≤ y ∧ y < height ∧ 0 ≤ x ∧ x < width ∧ k = y * width + x ∧
      0 ≤ k ∧ k < height * width := by
  unfold im2col_bilinear_reads at hk
  refine guarded_corner_in_field height width h w k hh1 hh2 hw1 hw2 ?_
  rcases mem_corner_reads _ _ _ _ k _ _ _ _ hk with ⟨g, e⟩ | ⟨g, e⟩ | ⟨g, e⟩ | ⟨g, e⟩
  · exact Or.inl ⟨g.1, g.2, e⟩
  · exact Or.inr (Or.inl ⟨g.1, g.2, e⟩)
  · exact Or.inr (Or.inr (Or.inl ⟨g.1, g.2, e⟩))
  · exact Or.inr (Or.inr (Or.inr ⟨g.1, g.2, e⟩))

/-- Every position the coordinate-weight primitive reads is a lattice point of the
field (outside the range guard it reads nothing). -/
theorem get_coordinate_weight_reads_in_field (height width bp_dir : ℤ) (h w : ℚ) (k : ℤ)
    (hk : k ∈ get_coordinate_weight_reads h w height width width bp_dir) :
    ∃ y x : ℤ, 0 ≤ y ∧ y < height ∧ 0 ≤ x ∧ x < width ∧ k = y * width + x ∧
      0 ≤ k ∧ k < height * width := by
  unfold get_coordinate_weight_reads at hk
  by_cases hr : h ≤ -1 ∨ h ≥ height ∨ w ≤ -1 ∨ w ≥ width
  · rw [if_pos hr] at hk; simp at hk
  · rw [if_neg hr] at hk
    push_neg at hr
    obtain ⟨hh1, hh2, hw1, hw2⟩ := hr
    refine guarded_corner_in_field height width h w k hh1 hh2 hw1 hw2 ?_
    by_cases h0 : bp_dir = 0
    · simp only [if_pos h0] at hk
      rcases mem_corner_reads _ _ _ _ k _ _ _ _ hk with ⟨g, e⟩ | ⟨g, e⟩ | ⟨g, e⟩ | ⟨g, e⟩
      · exact Or.inl ⟨g.1, g.2, e⟩
      · exact Or.inr (Or.inl ⟨g.1, g.2, e⟩)
      · exact Or.inr (Or.inr (Or.inl ⟨g.1, g.2, e⟩))
      · exact Or.inr (Or.inr (Or.inr ⟨g.1, g.2, e⟩))
    · by_cases h1 : bp_dir = 1
      · simp only [if_neg h0, if_pos h1] at hk
        rcases mem_corner_reads _ _ _ _ k _ _ _ _ hk with ⟨g, e⟩ | ⟨g, e⟩ | ⟨g, e⟩ | ⟨g, e⟩
        · exact Or.inl ⟨g.1, g.2, e⟩
        · exact Or.inr (Or.inl ⟨g.1, g.2, e⟩)
        · exact Or.inr (Or.inr (Or.inl ⟨g.1, g.2, e⟩))
        · exact Or.inr (Or.inr (Or.inr ⟨g.1, g.2, e⟩))
      · simp only [if_neg h0, if_neg h1] at hk
        simp at hk

/-- At `(1 / 2, 1 / 2)` in a 2 x 2 field the bilinear primitive reads the four cells. -/
theorem example_bilinear_reads : im2col_bilinear_reads 2 2 2 (1 / 2) (1 / 2) = [0, 1, 2, 3] := by
  simp [im2col_bilinear_reads, floor_half]

/-- An in-bounds pixel of channel `c` lies in the slice of that channel. -/
theorem channel_pos_bound (height width c y x : ℤ) (hy : 0 ≤ y) (hy2 : y < height)
    (hx : 0 ≤ x) (hx2 : x < width) :
    c * height * width ≤ (c * height + y) * width + x ∧
      (c * height + y) * width + x < (c + 1) * height * width := by
  obtain ⟨f1, f2⟩ := field_pos_bound height width y x hy hy2 hx hx2
  have e1 : (c * height + y) * width + x = c * height * width + (y * width + x) := by ring
  have e2 : (c + 1) * height * width = c * height * width + height * width := by ring
  rw [e1, e2]
  constructor <;> omega

/-- A scan of neighbours for channel `c` changes no cell outside the slice of `c`. -/
theorem col2im_scan_outside (p : Footprint) (c : ℤ) (a_h a_w : ℚ) (cur_h cur_w : ℤ) (grad : ℚ)
    (ys xs : List ℤ) (b : Buf) (q : ℤ)
    (hq : q < c * p.height * p.width ∨ (c + 1) * p.height * p.width ≤ q) :
    ys.foldl
        (fun g dy => xs.foldl
          (fun g dx => col2im_neighbor p c a_h a_w cur_h cur_w grad dy dx g) g) b q
      = b q := by
  rw [col2im_scan_sum]
  have term : ∀ dy dx : ℤ,
      (if (cur_h + dy ≥ 0 ∧ cur_h + dy < p.height ∧ cur_w + dx ≥ 0 ∧
            cur_w + dx < p.width ∧ |a_h - ((cur_h + dy : ℤ) : ℚ)| < 1 ∧
            |a_w - ((cur_w + dx : ℤ) : ℚ)| < 1) ∧
            (c * p.height + cur_h + dy) * p.width + cur_w + dx = q then
          get_gradient_weight_cuda a_h a_w (cur_h + dy) (cur_w + dx) p.height p.width * grad
          else 0) = 0 := by
    intro dy dx
    refine if_neg (fun hh => ?_)
    obtain ⟨⟨h1, h2, h3, h4, -, -⟩, e⟩ := hh
    obtain ⟨b1, b2⟩ := channel_pos_bound p.height p.width c (cur_h + dy) (cur_w + dx) h1 h2 h3 h4
    have e' : (c * p.height + (cur_h + dy)) * p.width + (cur_w + dx) = q := by
      rw [← e]; ring
    omega
  simp only [term, List.map_const', List.sum_replicate, smul_zero, add_zero]

/-- The body of a flat index of the image-gradient launch changes no cell outside the
slice of the channel it decodes. -/
theorem col2im_thread_outside (MODULATED : Bool) (data_col data_offset data_mask : Buf)
    (p : Footprint) (grad_im : Buf) (idx q : ℤ)
    (hq : q < (col2im_decode p idx).1 * p.height * p.width ∨
      ((col2im_decode p idx).1 + 1) * p.height * p.width ≤ q) :
    col2im_thread MODULATED data_col data_offset data_mask p grad_im idx q = grad_im q := by
  obtain ⟨grad, e⟩ := col2im_thread_decoded MODULATED data_col data_offset data_mask p grad_im idx
  rw [e]
  exact col2im_scan_outside p _ _ _ _ _ _ _ _ grad_im q hq

/-- The channel decoded from a flat index of the image-gradient launch is a channel of
the image. -/
theorem col2im_decode_channel (p : Footprint) (idx : ℤ)
    (hkh : 1 ≤ p.kernel_h) (hkw : 1 ≤ p.kernel_w) (hhc : 1 ≤ p.height_col)
    (hwc : 1 ≤ p.width_col) (h0 : 0 ≤ idx)
    (h1 : idx < p.channels * p.kernel_h * p.kernel_w * p.height_col * p.width_col) :
    0 ≤ (col2im_decode p idx).1 ∧ (col2im_decode p idx).1 < p.channels := by
  obtain ⟨c, i, j, h, w, hc, hc2, hi, hi2, hj, hj2, hh, hh2, hw, hw2, e⟩ :=
    colIndex_surj_lt p idx (by omega) (by omega) (by omega) (by omega) h0 h1
  rw [e, col2im_decode_colIndex p c i j h w hc hi hi2 hj hj2 hh hh2 hw hw2]
  exact ⟨hc, hc2⟩

/-- The four bilinear weights of a coordinate are in `[0, 1]` and sum to 1. -/
theorem bilinear_weights (h w : ℚ) :
    (0 ≤ (1 - (h - ⌊h⌋)) * (1 - (w - ⌊w⌋)) ∧ (1 - (h - ⌊h⌋)) * (1 - (w - ⌊w⌋)) ≤ 1) ∧
    (0 ≤ (1 - (h - ⌊h⌋)) * (w - ⌊w⌋) ∧ (1 - (h - ⌊h⌋)) * (w - ⌊w⌋) ≤ 1) ∧
    (0 ≤ (h - ⌊h⌋) * (1 - (w - ⌊w⌋)) ∧ (h - ⌊h⌋) * (1 - (w - ⌊w⌋)) ≤ 1) ∧
    (0 ≤ (h - ⌊h⌋) * (w - ⌊w⌋) ∧ (h - ⌊h⌋) * (w - ⌊w⌋) ≤ 1) ∧
    (1 - (h - ⌊h⌋)) * (1 - (w - ⌊w⌋)) + (1 - (h - ⌊h⌋)) * (w - ⌊w⌋)
      + (h - ⌊h⌋) * (1 - (w - ⌊w⌋)) + (h - ⌊h⌋) * (w - ⌊w⌋) = 1 := by
  have a1 : 0 ≤ h - ⌊h⌋ := by linarith [Int.floor_le h]
  have a2 : h - ⌊h⌋ ≤ 1 := by linarith [Int.lt_floor_add_one h]
  have b1 : 0 ≤ w - ⌊w⌋ := by linarith [Int.floor_le w]
  have b2 : w - ⌊w⌋ ≤ 1 := by linarith [Int.lt_floor_add_one w]
  have a3 : 0 ≤ 1 - (h - ⌊h⌋) := by linarith
  have a4 : 1 - (h - ⌊h⌋) ≤ 1 := by linarith
  have b3 : 0 ≤ 1 - (w - ⌊w⌋) := by linarith
  have b4 : 1 - (w - ⌊w⌋) ≤ 1 := by linarith
  refine ⟨⟨mul_nonneg a3 b3, mul_le_one₀ a4 b3 b4⟩, ⟨mul_nonneg a3 b1, mul_le_one₀ a4 b1 b2⟩,
    ⟨mul_nonneg a1 b3, mul_le_one₀ a2 b3 b4⟩, ⟨mul_nonneg a1 b1, mul_le_one₀ a2 b1 b2⟩, ?_⟩
  ring

/-- For a coordinate whose four corners are lattice points of the field, the bilinear
sample is the weighted sum of the four corner values. -/
theorem im2col_bilinear_cuda_interior (field : Buf) (data_width height width : ℤ) (h w : ℚ)
    (hh : 0 ≤ h) (hh2 : h < height - 1) (hw : 0 ≤ w) (hw2 : w < width - 1) :
    im2col_bilinear_cuda field data_width height width h w
      = (1 - (h - ⌊h⌋)) * (1 - (w - ⌊w⌋)) * field (⌊h⌋ * data_width + ⌊w⌋)
        + (1 - (h - ⌊h⌋)) * (w - ⌊w⌋) * field (⌊h⌋ * data_width + (⌊w⌋ + 1))
        + (h - ⌊h⌋) * (1 - (w - ⌊w⌋)) * field ((⌊h⌋ + 1) * data_width + ⌊w⌋)
        + (h - ⌊h⌋) * (w - ⌊w⌋) * field ((⌊h⌋ + 1) * data_width + (⌊w⌋ + 1)) := by
  have a1 : 0 ≤ ⌊h⌋ := Int.floor_nonneg.2 hh
  have a2 : ⌊h⌋ + 1 ≤ height - 1 := by
    have : ⌊h⌋ < height - 1 := by rw [Int.floor_lt]; push_cast; exact hh2
    omega
  have b1 : 0 ≤ ⌊w⌋ := Int.floor_nonneg.2 hw
  have b2 : ⌊w⌋ + 1 ≤ width - 1 := by
    have : ⌊w⌋ < width - 1 := by rw [Int.floor_lt]; push_cast; exact hw2
    omega
  unfold im2col_bilinear_cuda
  simp only
  rw [if_pos ⟨a1, b1⟩, if_pos ⟨a1, b2⟩, if_pos ⟨a2, b1⟩, if_pos ⟨a2, b2⟩]

/-- A weighted sum with non-negative weights summing to 1 lies between the minimum and
the maximum of the values. -/
theorem convex_bounds (w1 w2 w3 w4 v1 v2 v3 v4 : ℚ) (h1 : 0 ≤ w1) (h2 : 0 ≤ w2) (h3 : 0 ≤ w3)
    (h4 : 0 ≤ w4) (hs : w1 + w2 + w3 + w4 = 1) :
    min (min v1 v2) (min v3 v4) ≤ w1 * v1 + w2 * v2 + w3 * v3 + w4 * v4 ∧
      w1 * v1 + w2 * v2 + w3 * v3 + w4 * v4 ≤ max (max v1 v2) (max v3 v4) := by
  have m1 : min (min v1 v2) (min v3 v4) ≤ v1 := le_trans (min_le_left _ _) (min_le_left _ _)
  have m2 : min (min v1 v2) (min v3 v4) ≤ v2 := le_trans (min_le_left _ _) (min_le_right _ _)
  have m3 : min (min v1 v2) (min v3 v4) ≤ v3 := le_trans (min_le_right _ _) (min_le_left _ _)
  have m4 : min (min v1 v2) (min v3 v4) ≤ v4 := le_trans (min_le_right _ _) (min_le_right _ _)
  have n1 : v1 ≤ max (max v1 v2) (max v3 v4) := le_trans (le_max_left _ _) (le_max_left _ _)
  have n2 : v2 ≤ max (max v1 v2) (max v3 v4) := le_trans (le_max_right _ _) (le_max_left _ _)
  have n3 : v3 ≤ max (max v1 v2) (max v3 v4) := le_trans (le_max_left _ _) (le_max_right _ _)
  have n4 : v4 ≤ max (max v1 v2) (max v3 v4) := le_trans (le_max_right _ _) (le_max_right _ _)
  generalize min (min v1 v2) (min v3 v4) = m at m1 m2 m3 m4 ⊢
  generalize max (max v1 v2) (max v3 v4) = M at n1 n2 n3 n4 ⊢
  have p1 := mul_nonneg h1 (sub_nonneg.2 m1)
  have p2 := mul_nonneg h2 (sub_nonneg.2 m2)
  have p3 := mul_nonneg h3 (sub_nonneg.2 m3)
  have p4 := mul_nonneg h4 (sub_nonneg.2 m4)
  have q1 := mul_nonneg h1 (sub_nonneg.2 n1)
  have q2 := mul_nonneg h2 (sub_nonneg.2 n2)
  have q3 := mul_nonneg h3 (sub_nonneg.2 n3)
  have q4 := mul_nonneg h4 (sub_nonneg.2 n4)
  have em : m = (w1 + w2 + w3 + w4) * m := by rw [hs, one_mul]
  have eM : M = (w1 + w2 + w3 + w4) * M := by rw [hs, one_mul]
  constructor
  · rw [em]; nlinarith
  · rw [eM]; nlinarith

/-- Without modulation the forward kernel body does not depend on the mask. -/
theorem im2col_thread_mask_free (data_im data_offset mask1 mask2 : Buf) (p : Footprint) :
    im2col_thread false data_im data_offset mask1 p
      = im2col_thread false data_im data_offset mask2 p := by
  have e : ∀ (a b : Buf) (h_in w_in i j : ℤ) (st : Buf × ℤ),
      im2col_tap false a b mask1 p h_in w_in i j st
        = im2col_tap false a b mask2 p h_in w_in i j st := by
    intro a b h_in w_in i j st
    simp [im2col_tap, im2col_tap_value]
  funext col idx
  unfold im2col_thread
  simp only [Bool.false_eq_true, if_false, e]

/-- Without modulation the image-gradient kernel body does not depend on the mask. -/
theorem col2im_thread_mask_free (data_col data_offset mask1 mask2 : Buf) (p : Footprint) :
    col2im_thread false data_col data_offset mask1 p
      = col2im_thread false data_col data_offset mask2 p := by
  funext g idx
  unfold col2im_thread
  simp only [Bool.false_eq_true, if_false]

/-- Without modulation one iteration of the offset/mask-gradient loop does not depend on
the mask and keeps the mask-gradient buffer. -/
theorem col2im_coord_body_mask_free (data_col_ptr data_im_ptr data_offset_ptr mask1 mask2 : Buf)
    (p : Footprint) (grad_offset_ptr grad_mask_ptr h w offset_c col_c cnt : ℤ)
    (st : Buf × Buf) :
    col2im_coord_body false data_col_ptr data_im_ptr data_offset_ptr mask1 p grad_offset_ptr
        grad_mask_ptr h w offset_c col_c cnt st
      = col2im_coord_body false data_col_ptr data_im_ptr data_offset_ptr mask2 p
          grad_offset_ptr grad_mask_ptr h w offset_c col_c cnt st ∧
    (col2im_coord_body false data_col_ptr data_im_ptr data_offset_ptr mask1 p grad_offset_ptr
        grad_mask_ptr h w offset_c col_c cnt st).2 = st.2 := by
  unfold col2im_coord_body
  simp only [Bool.false_eq_true, if_false, and_self]

/-- A loop whose body keeps the mask-gradient buffer keeps it. -/
theorem col2im_coord_loop_keeps_mask (body : ℤ → ℤ → Buf × Buf → Buf × Buf)
    (hbody : ∀ col_c cnt st, (body col_c cnt st).2 = st.2) (bound col_step : ℤ) :
    ∀ (fuel : ℕ) (col_c cnt : ℤ) (st : Buf × Buf),
      (col2im_coord_loop body bound col_step fuel col_c cnt st).2 = st.2 := by
  intro fuel
  induction fuel with
  | zero => intro col_c cnt st; rfl
  | succ f ih =>
    intro col_c cnt st
    simp only [col2im_coord_loop]
    split_ifs
    · rw [ih, hbody]
    · rfl

/-- Without modulation the offset/mask-gradient kernel body does not depend on the mask
and keeps the mask-gradient buffer. -/
theorem col2im_coord_thread_mask_free (data_col data_im data_offset mask1 mask2 : Buf)
    (p : Footprint) (st : Buf × Buf) (idx : ℤ) :
    col2im_coord_thread false data_col data_im data_offset mask1 p st idx
      = col2im_coord_thread false data_col data_im data_offset mask2 p st idx ∧
    (col2im_coord_thread false data_col data_im data_offset mask1 p st idx).2 = st.2 := by
  unfold col2im_coord_thread
  simp only [Bool.false_eq_true, if_false]
  constructor
  · congr 1
  · exact col2im_coord_loop_keeps_mask _
      (fun col_c cnt st' =>
        (col2im_coord_body_mask_free _ _ _ mask1 mask1 p _ _ _ _ _ col_c cnt st').2) _ _ _ _ _ st

/-- Without modulation the offset/mask-gradient launch keeps the mask-gradient buffer. -/
theorem coord_kernel_keeps_mask (n : ℤ) (data_col data_im data_offset data_mask : Buf)
    (p : Footprint) (grad_offset grad_mask : Buf) :
    (modulated_deformable_col2im_coord_gpu_kernel false n data_col data_im data_offset
      data_mask p grad_offset grad_mask).2 = grad_mask := by
  unfold modulated_deformable_col2im_coord_gpu_kernel kernelLoop
  have key : ∀ (xs : List ℤ) (st : Buf × Buf),
      (xs.foldl (col2im_coord_thread false data_col data_im data_offset data_mask p) st).2
        = st.2 := by
    intro xs
    induction xs with
    | nil => intro st; rfl
    | cons x xs ih =>
      intro st
      rw [List.foldl_cons, ih]
      exact (col2im_coord_thread_mask_free data_col data_im data_offset data_mask data_mask p
        st x).2
  exact key _ _

/-! ## Values at an in-range cell of the example launch -/

/-- The floor of one quarter. -/
theorem floor_quarter : ⌊(1 / 4 : ℚ)⌋ = 0 :=
  Int.floor_eq_iff.2 ⟨by norm_num, by norm_num⟩

/-- The floor of five quarters. -/
theorem floor_five_quarters : ⌊(5 / 4 : ℚ)⌋ = 1 :=
  Int.floor_eq_iff.2 ⟨by norm_num, by norm_num⟩

/-- In the example footprint with offsets `1 / 4`, the vertical sampling coordinate of tap
(0, 0) at output location (1, 2) is `1 / 4`. -/
theorem example_sampleH_tap00 (c : ℤ) :
    sampleH exampleFootprint quarterBuf c 0 0 1 2 = 1 / 4 := by
  simp [sampleH, quarterBuf, exampleFootprint]

/-- In the example footprint with offsets `1 / 4`, the horizontal sampling coordinate of tap
(0, 0) at output location (1, 2) is `5 / 4`. -/
theorem example_sampleW_tap00 (c : ℤ) :
    sampleW exampleFootprint quarterBuf c 0 0 1 2 = 5 / 4 := by
  simp [sampleW, quarterBuf, exampleFootprint]
  norm_num

/-- In the example launch with offsets `1 / 4`, the body of the flat index of column cell
(channel 1, tap (0, 0), output location (1, 2)) adds the corner weight `9 / 16` times
the upstream gradient `151 * 7` to pixel (0, 1) of channel 1. -/
theorem example_scatter_value :
    col2im_thread true rampBuf quarterBuf rampBuf exampleFootprint zeroBuf
        (colIndex exampleFootprint 1 0 0 1 2) (imIndex exampleFootprint 1 0 1) = 9513 / 16 := by
  rw [col2im_thread_apply true rampBuf quarterBuf rampBuf exampleFootprint zeroBuf 1 0 0 1 2 1 0 1
    (by decide) (by decide) (by decide) (by decide) (by decide) (by decide) (by decide)
    (by decide) (by decide) (by decide) (by decide) (by decide) (by decide),
    if_pos rfl, example_sampleH_tap00, example_sampleW_tap00]
  have hu : upstreamGrad true exampleFootprint rampBuf rampBuf 1 0 0 1 2 = 1057 := by
    unfold upstreamGrad maskAt
    have h1 : colIndex exampleFootprint 1 0 0 1 2 = 150 := by decide
    have h2 : maskIndex exampleFootprint (groupOf exampleFootprint 1)
        (0 * exampleFootprint.kernel_w + 0) (1 * exampleFootprint.stride_h)
        (2 * exampleFootprint.stride_w) = 6 := by decide
    rw [if_pos rfl, h1, h2]
    norm_num [rampBuf]
  rw [hu]
  unfold get_gradient_weight_cuda
  rw [if_neg (by unfold exampleFootprint; norm_num)]
  simp only [floor_quarter, floor_five_quarters]
  norm_num [zeroBuf]

/-! ## Launch sizes beyond the 32-bit range -/

/-- Claim C2 fails as stated: sampling channel 0 of the two-channel 2 x 2 image at
`(h, w) = (2, 0)`, a coordinate on the lower border `h = height`, the primitive
returns 5, the pixel `(0, 0)` of channel 1, where the bilinear formula with
zero-valued outside corners gives 0: only `h_low >= 0` is tested for that corner,
not `h_low <= height - 1`. -/
theorem C2_bilinear_border_counterexample :
    im2col_bilinear_cuda twoChannelImage 2 2 2 2 0 = 5 ∧
    bilinearSpec twoChannelImage 2 2 2 0 = 0 ∧
    im2col_bilinear_cuda twoChannelImage 2 2 2 2 0 ≠ bilinearSpec twoChannelImage 2 2 2 0 := by
  have h1 : im2col_bilinear_cuda twoChannelImage 2 2 2 2 0 = 5 := by
    norm_num [im2col_bilinear_cuda, twoChannelImage]
  have h2 : bilinearSpec twoChannelImage 2 2 2 0 = 0 := by
    norm_num [bilinearSpec, fieldValue, twoChannelImage]
  refine ⟨h1, h2, ?_⟩
  rw [h1, h2]
  norm_num

/-- Claim C2, amended: for every field and every coordinate in the open valid range
`-1 < h < height`, `-1 < w < width` (the guard under which every kernel calls the
primitive), with `data_width = width`, the result is the bilinear formula
`hh*hw*V(h_low,w_low) + hh*lw*V(h_low,w_high) + lh*hw*V(h_high,w_low)
+ lh*lw*V(h_high,w_high)` with `V` zero outside `[0, height) x [0, width)`. -/
theorem C2_bilinear_in_range (field : Buf) (height width : ℤ) (h w : ℚ)
    (hh1 : -1 < h) (hh2 : h < height) (hw1 : -1 < w) (hw2 : w < width) :
    im2col_bilinear_cuda field width height width h w = bilinearSpec field height width h w :=
  im2col_bilinear_cuda_eq_spec field height width h w hh1 hh2 hw1 hw2

/-- Instance of the amended C2 at `(h, w) = (1/2, 3/2)` in a 2 x 2 field. -/
theorem C2_bilinear_in_range_witness :
    im2col_bilinear_cuda twoChannelImage 2 2 2 (1 / 2) (3 / 2)
      = bilinearSpec twoChannelImage 2 2 (1 / 2) (3 / 2) :=
  C2_bilinear_in_range twoChannelImage 2 2 (1 / 2) (3 / 2) (by norm_num) (by norm_num)
    (by norm_num) (by norm_num)

/-- Claim C4 (image-gradient backward): starting from a zero image-gradient buffer,
after the launch over `n = channels*kernel_h*kernel_w*height_col*width_col` flat
indices, the cell of every in-bounds pixel `(y, x)` of channel `c` holds the sum
over all taps `(i, j)` and output locations `(h_out, w_out)` of
`get_gradient_weight_cuda(h_im, w_im, y, x, height, width)` times the column
gradient of that cell (times its mask value when `MODULATED`), `(h_im, w_im)`
being the forward sampling coordinate of `(c, i, j, h_out, w_out)`. -/
theorem C4_image_gradient (MODULATED : Bool) (data_col data_offset data_mask : Buf)
    (p : Footprint) (c y x : ℤ)
    (hkh : 0 < p.kernel_h) (hkw : 0 < p.kernel_w) (hhc : 0 < p.height_col)
    (hwc : 0 < p.width_col) (hc : 0 ≤ c) (hc2 : c < p.channels)
    (hy : 0 ≤ y) (hy2 : y < p.height) (hx : 0 ≤ x) (hx2 : x < p.width) :
    modulated_deformable_col2im_gpu_kernel MODULATED
        (p.channels * p.kernel_h * p.kernel_w * p.height_col * p.width_col)
        data_col data_offset data_mask p (fun _ => 0) (imIndex p c y x)
      = ∑ i ∈ Finset.Ico 0 p.kernel_h, ∑ j ∈ Finset.Ico 0 p.kernel_w,
          ∑ h_out ∈ Finset.Ico 0 p.height_col, ∑ w_out ∈ Finset.Ico 0 p.width_col,
            get_gradient_weight_cuda (sampleH p data_offset c i j h_out w_out)
              (sampleW p data_offset c i j h_out w_out) y x p.height p.width
              * upstreamGrad MODULATED p data_col data_mask c i j h_out w_out := by
  rw [col2im_kernel_pixel MODULATED data_col data_offset data_mask p (fun _ => 0) c y x
    hkh hkw hhc hwc hc hc2 hy hy2 hx hx2, zero_add]

/-- Instance of C4: pixel (2, 3) of channel 1 of the example footprint, with
modulation. -/
theorem C4_image_gradient_witness :
    modulated_deformable_col2im_gpu_kernel true
        (exampleFootprint.channels * exampleFootprint.kernel_h * exampleFootprint.kernel_w
          * exampleFootprint.height_col * exampleFootprint.width_col)
        rampBuf quarterBuf rampBuf exampleFootprint (fun _ => 0) (imIndex exampleFootprint 1 2 3)
      = ∑ i ∈ Finset.Ico 0 exampleFootprint.kernel_h,
          ∑ j ∈ Finset.Ico 0 exampleFootprint.kernel_w,
          ∑ h_out ∈ Finset.Ico 0 exampleFootprint.height_col,
          ∑ w_out ∈ Finset.Ico 0 exampleFootprint.width_col,
            get_gradient_weight_cuda (sampleH exampleFootprint quarterBuf 1 i j h_out w_out)
              (sampleW exampleFootprint quarterBuf 1 i j h_out w_out) 2 3
              exampleFootprint.height exampleFootprint.width
              * upstreamGrad true exampleFootprint rampBuf rampBuf 1 i j h_out w_out :=
  C4_image_gradient true rampBuf quarterBuf rampBuf exampleFootprint 1 2 3
    (by decide) (by decide) (by decide) (by decide) (by decide) (by decide) (by decide)
    (by decide) (by decide) (by decide)

/-- Claim C7 (gradient consistency for the image): for every image, offset field,
mask, footprint and upstream gradient `G` on the column buffer, every in-bounds pixel
`(y, x)` of channel `c` and every scalar `e`, the sum over all column cells of
`G[cell] * (forward(X + e * unit_p)[cell] - forward(X)[cell])` equals `e` times the
cell of that pixel in the image gradient computed by the image-gradient backward
from a zero buffer: the backward is the adjoint of the forward resampler. -/
theorem C7_image_gradient_consistency (MODULATED : Bool)
    (data_im data_offset data_mask G : Buf) (p : Footprint) (col0 col1 : Buf) (c y x : ℤ)
    (e : ℚ) (hkh : 0 < p.kernel_h) (hkw : 0 < p.kernel_w) (hhc : 0 < p.height_col)
    (hwc : 0 < p.width_col) (hc : 0 ≤ c) (hc2 : c < p.channels)
    (hy : 0 ≤ y) (hy2 : y < p.height) (hx : 0 ≤ x) (hx2 : x < p.width) :
    ∑ cell ∈ Finset.Ico 0
        (p.channels * p.kernel_h * p.kernel_w * p.height_col * p.width_col),
        G cell *
          (modulated_deformable_im2col_gpu_kernel MODULATED
              (p.channels * p.height_col * p.width_col)
              (Function.update data_im (imIndex p c y x) (data_im (imIndex p c y x) + e))
              data_offset data_mask p col1 cell
            - modulated_deformable_im2col_gpu_kernel MODULATED
                (p.channels * p.height_col * p.width_col) data_im data_offset data_mask p col0
                cell)
      = e * modulated_deformable_col2im_gpu_kernel MODULATED
          (p.channels * p.kernel_h * p.kernel_w * p.height_col * p.width_col)
          G data_offset data_mask p (fun _ => 0) (imIndex p c y x) :=
  image_gradient_adjoint MODULATED data_im data_offset data_mask G p col0 col1 c y x e
    hkh hkw hhc hwc hc hc2 hy hy2 hx hx2

/-- Instance of C7: pixel (2, 3) of channel 1 of the example footprint, perturbation
`1 / 3`, with modulation and offsets `1 / 4`. -/
theorem C7_image_gradient_consistency_witness :
    ∑ cell ∈ Finset.Ico 0
        (exampleFootprint.channels * exampleFootprint.kernel_h * exampleFootprint.kernel_w
          * exampleFootprint.height_col * exampleFootprint.width_col),
        rampBuf cell *
          (modulated_deformable_im2col_gpu_kernel true
              (exampleFootprint.channels * exampleFootprint.height_col
                * exampleFootprint.width_col)
              (Function.update rampBuf (imIndex exampleFootprint 1 2 3)
                (rampBuf (imIndex exampleFootprint 1 2 3) + 1 / 3))
              quarterBuf rampBuf exampleFootprint zeroBuf cell
            - modulated_deformable_im2col_gpu_kernel true
                (exampleFootprint.channels * exampleFootprint.height_col
                  * exampleFootprint.width_col)
                rampBuf quarterBuf rampBuf exampleFootprint zeroBuf cell)
      = 1 / 3 * modulated_deformable_col2im_gpu_kernel true
          (exampleFootprint.channels * exampleFootprint.kernel_h * exampleFootprint.kernel_w
            * exampleFootprint.height_col * exampleFootprint.width_col)
          rampBuf quarterBuf rampBuf exampleFootprint (fun _ => 0)
          (imIndex exampleFootprint 1 2 3) :=
  C7_image_gradient_consistency true rampBuf quarterBuf rampBuf rampBuf exampleFootprint
    zeroBuf zeroBuf 1 2 3 (1 / 3) (by decide) (by decide) (by decide) (by decide) (by decide)
    (by decide) (by decide) (by decide) (by decide) (by decide)

/-- Claim C11 (bilinear exactness): for every field and every coordinate `(h, w)` with
zero fractional part and `0 <= h <= height - 1`, `0 <= w <= width - 1`, the primitive
returns exactly the field value at lattice point `(h, w)`, also on the last row and
column; with `data_width = width` this is the value `V(h, w)` of the field. -/
theorem C11_bilinear_exactness (field : Buf) (data_width height width : ℤ) (h w : ℚ)
    (hfh : Int.fract h = 0) (hfw : Int.fract w = 0)
    (hh : 0 ≤ h) (hh2 : h ≤ height - 1) (hw : 0 ≤ w) (hw2 : w ≤ width - 1) :
    im2col_bilinear_cuda field data_width height width h w
        = field (⌊h⌋ * data_width + ⌊w⌋) ∧
      im2col_bilinear_cuda field width height width h w
        = fieldValue field height width ⌊h⌋ ⌊w⌋ := by
  refine ⟨im2col_bilinear_cuda_fract_zero field data_width height width h w hfh hfw hh hw, ?_⟩
  rw [im2col_bilinear_cuda_fract_zero field width height width h w hfh hfw hh hw]
  have a1 : ⌊h⌋ < height := by
    rw [Int.floor_lt]; linarith
  have a2 : ⌊w⌋ < width := by
    rw [Int.floor_lt]; linarith
  unfold fieldValue
  rw [if_pos ⟨Int.floor_nonneg.2 hh, a1, Int.floor_nonneg.2 hw, a2⟩]

/-- Instance of C11 on the last row and column of the first channel of the two-channel
2 x 2 image: the sample at `(1, 1)` is the pixel value 4. -/
theorem C11_bilinear_exactness_witness :
    im2col_bilinear_cuda twoChannelImage 2 2 2 1 1
        = twoChannelImage (⌊(1 : ℚ)⌋ * 2 + ⌊(1 : ℚ)⌋) ∧
      im2col_bilinear_cuda twoChannelImage 2 2 2 1 1
        = fieldValue twoChannelImage 2 2 ⌊(1 : ℚ)⌋ ⌊(1 : ℚ)⌋ :=
  C11_bilinear_exactness twoChannelImage 2 2 2 1 1 (by simp) (by simp) (by norm_num)
    (by norm_num) (by norm_num) (by norm_num)

/-- Claim C13 (value-w.r.t.-pixel weight): for every real coordinate `(a_h, a_w)` and
integer lattice position `(h, w)`, `get_gradient_weight_cuda` returns 0 when
`a_h <= -1` or `a_h >= height` or `a_w <= -1` or `a_w >= width`; otherwise it returns
the bilinear corner weight of that corner, `hh*hw` for `(floor a_h, floor a_w)`,
`hh*lw` for `(floor a_h, floor a_w + 1)`, `lh*hw` for `(floor a_h + 1, floor a_w)`,
`lh*lw` for `(floor a_h + 1, floor a_w + 1)` with `lh = a_h - floor a_h`,
`lw = a_w - floor a_w`, `hh = 1 - lh`, `hw = 1 - lw`, and 0 when `(h, w)` is none of
the four corners. -/
theorem C13_gradient_weight (a_h a_w : ℚ) (h w height width : ℤ) :
    ((a_h ≤ -1 ∨ a_h ≥ height ∨ a_w ≤ -1 ∨ a_w ≥ width) →
      get_gradient_weight_cuda a_h a_w h w height width = 0) ∧
    (¬ (a_h ≤ -1 ∨ a_h ≥ height ∨ a_w ≤ -1 ∨ a_w ≥ width) →
      (h = ⌊a_h⌋ ∧ w = ⌊a_w⌋ →
        get_gradient_weight_cuda a_h a_w h w height width
          = (1 - (a_h - ⌊a_h⌋)) * (1 - (a_w - ⌊a_w⌋))) ∧
      (h = ⌊a_h⌋ ∧ w = ⌊a_w⌋ + 1 →
        get_gradient_weight_cuda a_h a_w h w height width
          = (1 - (a_h - ⌊a_h⌋)) * (a_w - ⌊a_w⌋)) ∧
      (h = ⌊a_h⌋ + 1 ∧ w = ⌊a_w⌋ →
        get_gradient_weight_cuda a_h a_w h w height width
          = (a_h - ⌊a_h⌋) * (1 - (a_w - ⌊a_w⌋))) ∧
      (h = ⌊a_h⌋ + 1 ∧ w = ⌊a_w⌋ + 1 →
        get_gradient_weight_cuda a_h a_w h w height width
          = (a_h - ⌊a_h⌋) * (a_w - ⌊a_w⌋)) ∧
      (¬ ((h = ⌊a_h⌋ ∨ h = ⌊a_h⌋ + 1) ∧ (w = ⌊a_w⌋ ∨ w = ⌊a_w⌋ + 1)) →
        get_gradient_weight_cuda a_h a_w h w height width = 0)) := by
  refine ⟨fun ho => ?_, get_gradient_weight_cuda_corners a_h a_w h w height width⟩
  unfold get_gradient_weight_cuda
  rw [if_pos ho]

/-- Instance of C13: for the coordinate `(1 / 2, 1 / 2)` in a 2 x 2 field, the corner
`(1, 0) = (floor a_h + 1, floor a_w)` has weight `lh * hw`. -/
theorem C13_gradient_weight_witness :
    get_gradient_weight_cuda (1 / 2) (1 / 2) 1 0 2 2
      = ((1 / 2 : ℚ) - ⌊(1 / 2 : ℚ)⌋) * (1 - ((1 / 2 : ℚ) - ⌊(1 / 2 : ℚ)⌋)) :=
  ((C13_gradient_weight (1 / 2) (1 / 2) 1 0 2 2).2 (by norm_num)).2.2.1
    ⟨by rw [floor_one_half]; rfl,
     by rw [floor_one_half]⟩

/-- Claim C14 (value-w.r.t.-coordinate weight): for every field and every coordinate
`(h, w)` with `-1 < h < height`, `-1 < w < width`, for every `d` with
`floor (h + d) = floor h` the bilinear sample satisfies
`sample(h + d, w) - sample(h, w) = d * get_coordinate_weight_cuda(h, w, bp_dir = 0)`,
and for every `d` with `floor (w + d) = floor w`
`sample(h, w + d) - sample(h, w) = d * get_coordinate_weight_cuda(h, w, bp_dir = 1)`:
the weight is the analytic derivative of the bilinear formula, both functions using
the same corner guards. -/
theorem C14_coordinate_weight_derivative (field : Buf) (data_width height width : ℤ)
    (h w : ℚ) (hh1 : -1 < h) (hh2 : h < height) (hw1 : -1 < w) (hw2 : w < width) :
    (∀ d : ℚ, ⌊h + d⌋ = ⌊h⌋ →
      im2col_bilinear_cuda field data_width height width (h + d) w
        - im2col_bilinear_cuda field data_width height width h w
        = d * get_coordinate_weight_cuda h w height width field data_width 0) ∧
    (∀ d : ℚ, ⌊w + d⌋ = ⌊w⌋ →
      im2col_bilinear_cuda field data_width height width h (w + d)
        - im2col_bilinear_cuda field data_width height width h w
        = d * get_coordinate_weight_cuda h w height width field data_width 1) := by
  have hr : ¬ (h ≤ -1 ∨ h ≥ height ∨ w ≤ -1 ∨ w ≥ width) := by
    push_neg
    exact ⟨hh1, hh2, hw1, hw2⟩
  exact ⟨fun d hd => im2col_bilinear_cuda_shift_h field data_width height width h w d hd hr,
    fun d hd => im2col_bilinear_cuda_shift_w field data_width height width h w d hd hr⟩

/-- Instance of C14 at `(h, w) = (1 / 2, 1 / 2)` in the first channel of the two-channel
2 x 2 image, with `d = 1 / 4` along either axis. -/
theorem C14_coordinate_weight_derivative_witness :
    im2col_bilinear_cuda twoChannelImage 2 2 2 (1 / 2 + 1 / 4) (1 / 2)
        - im2col_bilinear_cuda twoChannelImage 2 2 2 (1 / 2) (1 / 2)
        = 1 / 4 * get_coordinate_weight_cuda (1 / 2) (1 / 2) 2 2 twoChannelImage 2 0 ∧
      im2col_bilinear_cuda twoChannelImage 2 2 2 (1 / 2) (1 / 2 + 1 / 4)
        - im2col_bilinear_cuda twoChannelImage 2 2 2 (1 / 2) (1 / 2)
        = 1 / 4 * get_coordinate_weight_cuda (1 / 2) (1 / 2) 2 2 twoChannelImage 2 1 :=
  ⟨(C14_coordinate_weight_derivative twoChannelImage 2 2 2 (1 / 2) (1 / 2) (by norm_num)
      (by norm_num) (by norm_num) (by norm_num)).1 (1 / 4)
      (by rw [floor_half_add_quarter, floor_one_half]),
    (C14_coordinate_weight_derivative twoChannelImage 2 2 2 (1 / 2) (1 / 2) (by norm_num)
      (by norm_num) (by norm_num) (by norm_num)).2 (1 / 4)
      (by rw [floor_half_add_quarter, floor_one_half])⟩

/-- Claim C15 (accumulation under overlap): modelling the image-gradient backward as a
fold of the per-index scatter-add over the flat index space `[0, n)`, for every
processing order of the indices (every permutation of `0, ..., n - 1`) the final
image-gradient buffer is the one of the launch; every cell of it is its initial value
plus the sum of the individual contributions of all indices (what each index adds to a
zero buffer); and two indices processed one after the other leave in every cell the
sum of both individual contributions, in either order. -/
theorem C15_accumulation_order_independent (MODULATED : Bool)
    (data_col data_offset data_mask : Buf) (p : Footprint) (n : ℤ) (grad_im : Buf)
    (order : List ℤ) (hperm : order.Perm (loopRange n)) :
    order.foldl (col2im_thread MODULATED data_col data_offset data_mask p) grad_im
        = modulated_deformable_col2im_gpu_kernel MODULATED n data_col data_offset data_mask p
            grad_im ∧
      (∀ q : ℤ,
        modulated_deformable_col2im_gpu_kernel MODULATED n data_col data_offset data_mask p
            grad_im q
          = grad_im q + ((loopRange n).map (fun idx =>
              col2im_thread MODULATED data_col data_offset data_mask p (fun _ => 0) idx
                q)).sum) ∧
      (∀ idx1 idx2 q : ℤ,
        col2im_thread MODULATED data_col data_offset data_mask p
            (col2im_thread MODULATED data_col data_offset data_mask p grad_im idx1) idx2 q
          = grad_im q
            + col2im_thread MODULATED data_col data_offset data_mask p (fun _ => 0) idx1 q
            + col2im_thread MODULATED data_col data_offset data_mask p (fun _ => 0) idx2 q ∧
        col2im_thread MODULATED data_col data_offset data_mask p
            (col2im_thread MODULATED data_col data_offset data_mask p grad_im idx1) idx2 q
          = col2im_thread MODULATED data_col data_offset data_mask p
              (col2im_thread MODULATED data_col data_offset data_mask p grad_im idx2) idx1
              q) := by
  refine ⟨col2im_fold_perm MODULATED data_col data_offset data_mask p _ _ hperm grad_im,
    fun q => col2im_fold_additive MODULATED data_col data_offset data_mask p _ grad_im q,
    fun idx1 idx2 q => ?_⟩
  have two : ∀ a b : ℤ,
      col2im_thread MODULATED data_col data_offset data_mask p
          (col2im_thread MODULATED data_col data_offset data_mask p grad_im a) b q
        = grad_im q
          + col2im_thread MODULATED data_col data_offset data_mask p (fun _ => 0) a q
          + col2im_thread MODULATED data_col data_offset data_mask p (fun _ => 0) b q := by
    intro a b
    have e1 := col2im_thread_additive MODULATED data_col data_offset data_mask p
      (col2im_thread MODULATED data_col data_offset data_mask p grad_im a) b q
    have e2 := col2im_thread_additive MODULATED data_col data_offset data_mask p grad_im a q
    rw [e1, e2]
  refine ⟨two idx1 idx2, ?_⟩
  rw [two idx1 idx2, two idx2 idx1]
  ring

/-- Instance of C15: the launch over the example footprint processed in decreasing
order of the flat index gives the buffer of the launch. -/
theorem C15_accumulation_order_independent_witness :
    (loopRange 288).reverse.foldl
        (col2im_thread true rampBuf quarterBuf rampBuf exampleFootprint) zeroBuf
      = modulated_deformable_col2im_gpu_kernel true 288 rampBuf quarterBuf rampBuf
          exampleFootprint zeroBuf :=
  (C15_accumulation_order_independent true rampBuf quarterBuf rampBuf exampleFootprint 288
    zeroBuf (loopRange 288).reverse (List.reverse_perm _)).1

/-- Claim C16 (backward kernels only add): for every initial content of the
image-gradient, offset-gradient and mask-gradient buffers, every input, footprint and
launch size, each cell of the buffer after `modulated_deformable_col2im_gpu_kernel`
(resp. of the two buffers after `modulated_deformable_col2im_coord_gpu_kernel`) is its
initial value plus the value the same kernel leaves in that cell from an all-zero
buffer.  The image, offset, mask and column inputs are `const` pointers of the source
and arguments, not results, of the embedded kernels: no kernel returns a changed
input. -/
theorem C16_backward_kernels_accumulate (MODULATED : Bool) (n : ℤ)
    (data_col data_im data_offset data_mask : Buf) (p : Footprint)
    (grad_im grad_offset grad_mask : Buf) (q : ℤ) :
    modulated_deformable_col2im_gpu_kernel MODULATED n data_col data_offset data_mask p
        grad_im q
      = grad_im q + modulated_deformable_col2im_gpu_kernel MODULATED n data_col data_offset
          data_mask p (fun _ => 0) q ∧
    (modulated_deformable_col2im_coord_gpu_kernel MODULATED n data_col data_im data_offset
        data_mask p grad_offset grad_mask).1 q
      = grad_offset q + (modulated_deformable_col2im_coord_gpu_kernel MODULATED n data_col
          data_im data_offset data_mask p (fun _ => 0) (fun _ => 0)).1 q ∧
    (modulated_deformable_col2im_coord_gpu_kernel MODULATED n data_col data_im data_offset
        data_mask p grad_offset grad_mask).2 q
      = grad_mask q + (modulated_deformable_col2im_coord_gpu_kernel MODULATED n data_col
          data_im data_offset data_mask p (fun _ => 0) (fun _ => 0)).2 q := by
  refine ⟨?_, coord_kernel_additive MODULATED n data_col data_im data_offset data_mask p
    grad_offset grad_mask q⟩
  unfold modulated_deformable_col2im_gpu_kernel kernelLoop
  rw [col2im_fold_additive MODULATED data_col data_offset data_mask p _ grad_im q,
    col2im_fold_additive MODULATED data_col data_offset data_mask p _ (fun _ => 0) q,
    zero_add]

/-- Claim C19 fails as stated: for 8 channels of a 4096 x 4096 image, a 3 x 3 kernel,
padding 1, stride 1, dilation 1 and 8 deformable groups (stride at least 1 and
`in + 2 * pad - dilation * (kernel - 1) - 1 >= 0` on each axis, output 4096 x 4096),
the forward and image-gradient launch sizes are `c_i * h_o * w_o = 134217728` and
`c_i * k_h * k_w * h_o * w_o = 1207959552`, but the offset/mask-gradient launcher,
which holds its launch size in a 32-bit `int`, passes `-1879048192` to its kernel
where `h_o * w_o * 2 * k_h * k_w * deformable_group` is `2415919104`. -/
theorem C19_shape_law_counterexample :
    ((1 : ℤ) ≤ 1 ∧ (0 : ℤ) ≤ 4096 + 2 * 1 - 1 * (3 - 1) - 1) ∧
    outSizeSpec 4096 3 1 1 1 = 4096 ∧
    (im2col_launch_args 8 4096 4096 3 3 1 1 1 1 1 1 8).1 = 134217728 ∧
    (col2im_launch_args 8 4096 4096 3 3 1 1 1 1 1 1 8).1 = 1207959552 ∧
    (col2im_coord_launch_args 8 4096 4096 3 3 1 1 1 1 1 1 8).1 = -1879048192 ∧
    outSizeSpec 4096 3 1 1 1 * outSizeSpec 4096 3 1 1 1 * 2 * 3 * 3 * 8 = 2415919104 ∧
    ¬ ((col2im_coord_launch_args 8 4096 4096 3 3 1 1 1 1 1 1 8).1
        = outSizeSpec 4096 3 1 1 1 * outSizeSpec 4096 3 1 1 1 * 2 * 3 * 3 * 8) := by
  decide

/-- Claim C19, amended: for every footprint with stride at least 1 and
`in + 2 * pad - dilation * (kernel - 1) - 1 >= 0` on each axis, the three launchers
derive the same output extents `h_o`, `w_o`, equal to
`(in + 2 * pad - dilation * (kernel - 1) - 1) / stride + 1` and at least 1, with
`height_col = h_o`, `width_col = w_o`; and when each of the products
`c_i * h_o * w_o`, `c_i * k_h * k_w * h_o * w_o` and
`h_o * w_o * 2 * k_h * k_w * deformable_group` fits in a 32-bit `int` (lies in
`-2^31 .. 2^31 - 1`), the launchers run their kernels over exactly that many flat
indices (forward, image-gradient backward, offset/mask-gradient backward). -/
theorem C19_shape_law_in_int_range (c_i shape0 shape1 k0 k1 p0 p1 s0 s1 d0 d1 dg : ℤ)
    (hs0 : 1 ≤ s0) (hs1 : 1 ≤ s1)
    (hn0 : 0 ≤ shape0 + 2 * p0 - d0 * (k0 - 1) - 1)
    (hn1 : 0 ≤ shape1 + 2 * p1 - d1 * (k1 - 1) - 1)
    (hf0 : -2147483648 ≤ c_i * outSizeSpec shape0 k0 p0 s0 d0 * outSizeSpec shape1 k1 p1 s1 d1)
    (hf1 : c_i * outSizeSpec shape0 k0 p0 s0 d0 * outSizeSpec shape1 k1 p1 s1 d1 < 2147483648)
    (hb0 : -2147483648
      ≤ c_i * k0 * k1 * outSizeSpec shape0 k0 p0 s0 d0 * outSizeSpec shape1 k1 p1 s1 d1)
    (hb1 : c_i * k0 * k1 * outSizeSpec shape0 k0 p0 s0 d0 * outSizeSpec shape1 k1 p1 s1 d1
      < 2147483648)
    (hc0 : -2147483648
      ≤ outSizeSpec shape0 k0 p0 s0 d0 * outSizeSpec shape1 k1 p1 s1 d1 * 2 * k0 * k1 * dg)
    (hc1 : outSizeSpec shape0 k0 p0 s0 d0 * outSizeSpec shape1 k1 p1 s1 d1 * 2 * k0 * k1 * dg
      < 2147483648) :
    (1 ≤ outSizeSpec shape0 k0 p0 s0 d0 ∧ 1 ≤ outSizeSpec shape1 k1 p1 s1 d1) ∧
    ((im2col_launch_args c_i shape0 shape1 k0 k1 p0 p1 s0 s1 d0 d1 dg).1
        = c_i * outSizeSpec shape0 k0 p0 s0 d0 * outSizeSpec shape1 k1 p1 s1 d1 ∧
      (im2col_launch_args c_i shape0 shape1 k0 k1 p0 p1 s0 s1 d0 d1 dg).2.height_col
        = outSizeSpec shape0 k0 p0 s0 d0 ∧
      (im2col_launch_args c_i shape0 shape1 k0 k1 p0 p1 s0 s1 d0 d1 dg).2.width_col
        = outSizeSpec shape1 k1 p1 s1 d1) ∧
    ((col2im_launch_args c_i shape0 shape1 k0 k1 p0 p1 s0 s1 d0 d1 dg).1
        = c_i * k0 * k1 * outSizeSpec shape0 k0 p0 s0 d0 * outSizeSpec shape1 k1 p1 s1 d1 ∧
      (col2im_launch_args c_i shape0 shape1 k0 k1 p0 p1 s0 s1 d0 d1 dg).2.height_col
        = outSizeSpec shape0 k0 p0 s0 d0 ∧
      (col2im_launch_args c_i shape0 shape1 k0 k1 p0 p1 s0 s1 d0 d1 dg).2.width_col
        = outSizeSpec shape1 k1 p1 s1 d1) ∧
    ((col2im_coord_launch_args c_i shape0 shape1 k0 k1 p0 p1 s0 s1 d0 d1 dg).1
        = outSizeSpec shape0 k0 p0 s0 d0 * outSizeSpec shape1 k1 p1 s1 d1 * 2 * k0 * k1 * dg ∧
      (col2im_coord_launch_args c_i shape0 shape1 k0 k1 p0 p1 s0 s1 d0 d1 dg).2.height_col
        = outSizeSpec shape0 k0 p0 s0 d0 ∧
      (col2im_coord_launch_args c_i shape0 shape1 k0 k1 p0 p1 s0 s1 d0 d1 dg).2.width_col
        = outSizeSpec shape1 k1 p1 s1 d1) := by
  obtain ⟨e0, g0⟩ := outSize_eq_spec shape0 k0 p0 s0 d0 hs0 hn0
  obtain ⟨e1, g1⟩ := outSize_eq_spec shape1 k1 p1 s1 d1 hs1 hn1
  refine ⟨⟨e0 ▸ g0, e1 ▸ g1⟩, ⟨?_, e0, e1⟩, ⟨?_, e0, e1⟩, ⟨?_, e0, e1⟩⟩
  · rw [← e0, ← e1] at hf0 hf1 ⊢
    exact int32_eq _ hf0 hf1
  · rw [← e0, ← e1] at hb0 hb1 ⊢
    exact int32_eq _ hb0 hb1
  · rw [← e0, ← e1] at hc0 hc1 ⊢
    exact int32_eq _ hc0 hc1

/-- Instance of the amended C19: 2 channels of a 5 x 7 image, 3 x 3 kernel, padding 1,
stride 2, dilation 1, one group: the output is 3 x 4, and the launches run over 24,
216 and 216 flat indices. -/
theorem C19_shape_law_in_int_range_witness :
    outSizeSpec 5 3 1 2 1 = 3 ∧ outSizeSpec 7 3 1 2 1 = 4 ∧
    (im2col_launch_args 2 5 7 3 3 1 1 2 2 1 1 1).1 = 24 ∧
    (col2im_launch_args 2 5 7 3 3 1 1 2 2 1 1 1).1 = 216 ∧
    (col2im_coord_launch_args 2 5 7 3 3 1 1 2 2 1 1 1).1 = 216 ∧
    (im2col_launch_args 2 5 7 3 3 1 1 2 2 1 1 1).2.height_col = 3 ∧
    (col2im_launch_args 2 5 7 3 3 1 1 2 2 1 1 1).2.height_col = 3 ∧
    (col2im_coord_launch_args 2 5 7 3 3 1 1 2 2 1 1 1).2.width_col = 4 := by
  have h := C19_shape_law_in_int_range 2 5 7 3 3 1 1 2 2 1 1 1 (by decide) (by decide)
    (by decide) (by decide) (by decide) (by decide) (by decide) (by decide) (by decide)
    (by decide)
  have a0 : outSizeSpec 5 3 1 2 1 = 3 := by decide
  have a1 : outSizeSpec 7 3 1 2 1 = 4 := by decide
  rw [a0, a1] at h
  exact ⟨a0, a1, h.2.1.1, h.2.2.1.1, h.2.2.2.1, h.2.1.2.1, h.2.2.1.2.1, h.2.2.2.2.2⟩

/-- Claim C20 (the 5 x 5 scan is equivalent to the 2 x 2 bilinear footprint): for every
real sampling coordinate `(h, w)`, with `cur_h`, `cur_w` its truncation toward zero,
every `(dy, dx)`, in particular in `-2 .. 2`, that passes the hit test of the scan (in
image bounds,
`|h - (cur_h + dy)| < 1` and `|w - (cur_w + dx)| < 1`) is one of the four corners
(`floor h` or `floor h + 1`, `floor w` or `floor w + 1`); every in-bounds corner with
non-zero gradient weight is `(cur_h + dy, cur_w + dx)` for some `dy, dx` in `-2 .. 2`
and passes the hit test; and the launch whose scan is restricted to the 2 x 2 corner
set leaves the same image-gradient buffer as the kernel, for every input, footprint,
launch size and initial buffer. -/
theorem C20_scan_equals_corner_set (MODULATED : Bool) (n : ℤ)
    (data_col data_offset data_mask : Buf) (p : Footprint) (grad_im : Buf) (h w : ℚ) :
    (∀ dy dx : ℤ,
      (castInt h + dy ≥ 0 ∧ castInt h + dy < p.height ∧ castInt w + dx ≥ 0 ∧
        castInt w + dx < p.width ∧ |h - ((castInt h + dy : ℤ) : ℚ)| < 1 ∧
        |w - ((castInt w + dx : ℤ) : ℚ)| < 1) →
      (castInt h + dy = ⌊h⌋ ∨ castInt h + dy = ⌊h⌋ + 1) ∧
        (castInt w + dx = ⌊w⌋ ∨ castInt w + dx = ⌊w⌋ + 1)) ∧
    (∀ y x : ℤ, (y = ⌊h⌋ ∨ y = ⌊h⌋ + 1) → (x = ⌊w⌋ ∨ x = ⌊w⌋ + 1) →
      0 ≤ y → y < p.height → 0 ≤ x → x < p.width →
      get_gradient_weight_cuda h w y x p.height p.width ≠ 0 →
      ∃ dy ∈ scanRange, ∃ dx ∈ scanRange, castInt h + dy = y ∧ castInt w + dx = x ∧
        (castInt h + dy ≥ 0 ∧ castInt h + dy < p.height ∧ castInt w + dx ≥ 0 ∧
          castInt w + dx < p.width ∧ |h - ((castInt h + dy : ℤ) : ℚ)| < 1 ∧
          |w - ((castInt w + dx : ℤ) : ℚ)| < 1)) ∧
    modulated_deformable_col2im_gpu_kernel MODULATED n data_col data_offset data_mask p grad_im
      = modulated_deformable_col2im_gpu_kernel_corners MODULATED n data_col data_offset
          data_mask p grad_im :=
  ⟨fun _ _ hit => ⟨near_is_corner h _ hit.2.2.2.2.1, near_is_corner w _ hit.2.2.2.2.2⟩,
    fun y x _ _ hy hy2 hx hx2 hne => corner_is_hit p h w y x hy hy2 hx hx2 hne,
    col2im_kernel_eq_corners MODULATED n data_col data_offset data_mask p grad_im⟩

/-- Claim C22 (offset and mask reads stay inside their tensors): for every launch with
`deformable_group >= 1` dividing `c_i`, strides of at least 1,
`in + 2*pad - dilation*(kernel-1) - 1 >= 0` and `2*pad <= dilation*(kernel-1)` on each
axis, and for every channel `c`, group `g`, tap `(i, j)` and output location `(h, w)`
in range: the row `h * stride_h` is below `height` and the column `w * stride_w` below
`width`; the group `c / channel_per_deformable_group` of the channel is a group of the
launch; and the two offset entries and the mask entry the kernels read for
(g, i, j, h, w) through the group pointers lie in
`[0, 2*kernel_h*kernel_w*deformable_group*height*width)` and
`[0, kernel_h*kernel_w*deformable_group*height*width)`. -/
theorem C22_offset_mask_reads_in_bounds (data_offset data_mask : Buf)
    (c_i shape0 shape1 k0 k1 p0 p1 s0 s1 d0 d1 dg : ℤ) (c g i j h w : ℤ)
    (hdg : 0 < dg) (hdiv : c_i.tmod dg = 0) (hs0 : 1 ≤ s0) (hs1 : 1 ≤ s1)
    (hn0 : 0 ≤ shape0 + 2 * p0 - d0 * (k0 - 1) - 1)
    (hn1 : 0 ≤ shape1 + 2 * p1 - d1 * (k1 - 1) - 1)
    (hp0 : 2 * p0 ≤ d0 * (k0 - 1)) (hp1 : 2 * p1 ≤ d1 * (k1 - 1))
    (hc : 0 ≤ c) (hc2 : c < c_i) (hg : 0 ≤ g) (hg2 : g < dg)
    (hi : 0 ≤ i) (hi2 : i < k0) (hj : 0 ≤ j) (hj2 : j < k1)
    (hh : 0 ≤ h) (hh2 : h < outSize shape0 k0 p0 s0 d0)
    (hw : 0 ≤ w) (hw2 : w < outSize shape1 k1 p1 s1 d1) :
    (h * s0 < shape0 ∧ w * s1 < shape1) ∧
    (0 ≤ groupOf (im2col_launch_args c_i shape0 shape1 k0 k1 p0 p1 s0 s1 d0 d1 dg).2 c ∧
      groupOf (im2col_launch_args c_i shape0 shape1 k0 k1 p0 p1 s0 s1 d0 d1 dg).2 c < dg) ∧
    (ptrAdd data_offset (g * 2 * k0 * k1 * shape0 * shape1)
          (((2 * (i * k1 + j)) * shape0 + h * s0) * shape1 + w * s1)
        = data_offset (offsetIndex
            (im2col_launch_args c_i shape0 shape1 k0 k1 p0 p1 s0 s1 d0 d1 dg).2
            g (2 * (i * k1 + j)) (h * s0) (w * s1)) ∧
      0 ≤ offsetIndex (im2col_launch_args c_i shape0 shape1 k0 k1 p0 p1 s0 s1 d0 d1 dg).2
            g (2 * (i * k1 + j)) (h * s0) (w * s1) ∧
      offsetIndex (im2col_launch_args c_i shape0 shape1 k0 k1 p0 p1 s0 s1 d0 d1 dg).2
            g (2 * (i * k1 + j)) (h * s0) (w * s1)
        < 2 * k0 * k1 * dg * shape0 * shape1) ∧
    (ptrAdd data_offset (g * 2 * k0 * k1 * shape0 * shape1)
          (((2 * (i * k1 + j) + 1) * shape0 + h * s0) * shape1 + w * s1)
        = data_offset (offsetIndex
            (im2col_launch_args c_i shape0 shape1 k0 k1 p0 p1 s0 s1 d0 d1 dg).2
            g (2 * (i * k1 + j) + 1) (h * s0) (w * s1)) ∧
      0 ≤ offsetIndex (im2col_launch_args c_i shape0 shape1 k0 k1 p0 p1 s0 s1 d0 d1 dg).2
            g (2 * (i * k1 + j) + 1) (h * s0) (w * s1) ∧
      offsetIndex (im2col_launch_args c_i shape0 shape1 k0 k1 p0 p1 s0 s1 d0 d1 dg).2
            g (2 * (i * k1 + j) + 1) (h * s0) (w * s1)
        < 2 * k0 * k1 * dg * shape0 * shape1) ∧
    (ptrAdd data_mask (g * k0 * k1 * shape0 * shape1)
          (((i * k1 + j) * shape0 + h * s0) * shape1 + w * s1)
        = data_mask (maskIndex
            (im2col_launch_args c_i shape0 shape1 k0 k1 p0 p1 s0 s1 d0 d1 dg).2
            g (i * k1 + j) (h * s0) (w * s1)) ∧
      0 ≤ maskIndex (im2col_launch_args c_i shape0 shape1 k0 k1 p0 p1 s0 s1 d0 d1 dg).2
            g (i * k1 + j) (h * s0) (w * s1) ∧
      maskIndex (im2col_launch_args c_i shape0 shape1 k0 k1 p0 p1 s0 s1 d0 d1 dg).2
            g (i * k1 + j) (h * s0) (w * s1)
        < k0 * k1 * dg * shape0 * shape1) := by
  obtain ⟨r0, r1⟩ := strided_lt_of_pad shape0 k0 p0 s0 d0 h hs0 hn0 hp0 hh hh2
  obtain ⟨q0, q1⟩ := strided_lt_of_pad shape1 k1 p1 s1 d1 w hs1 hn1 hp1 hw hw2
  obtain ⟨t0, t1⟩ := tap_lt k0 k1 i j hi hi2 hj hj2
  obtain ⟨m1, m2, m3⟩ := offset_mask_reads
    (im2col_launch_args c_i shape0 shape1 k0 k1 p0 p1 s0 s1 d0 d1 dg).2 data_offset data_mask
    g i j h w
  have b0 := offsetIndex_bound (im2col_launch_args c_i shape0 shape1 k0 k1 p0 p1 s0 s1 d0 d1 dg).2
    g (2 * (i * k1 + j)) (h * s0) (w * s1) hg hg2 (by omega)
    (show 2 * (i * k1 + j) < 2 * k0 * k1 by nlinarith) r0 r1 q0 q1
  have b1 := offsetIndex_bound (im2col_launch_args c_i shape0 shape1 k0 k1 p0 p1 s0 s1 d0 d1 dg).2
    g (2 * (i * k1 + j) + 1) (h * s0) (w * s1) hg hg2 (by omega)
    (show 2 * (i * k1 + j) + 1 < 2 * k0 * k1 by nlinarith) r0 r1 q0 q1
  have b2 := maskIndex_bound (im2col_launch_args c_i shape0 shape1 k0 k1 p0 p1 s0 s1 d0 d1 dg).2
    g (i * k1 + j) (h * s0) (w * s1) hg hg2 t0 t1 r0 r1 q0 q1
  exact ⟨⟨r1, q1⟩, groupOf_lt c_i dg c hdg hdiv hc hc2, ⟨m1, b0.1, b0.2⟩, ⟨m2, b1.1, b1.2⟩,
    ⟨m3, b2.1, b2.2⟩⟩

/-- Instance of C22: 2 channels of a 5 x 7 image, 3 x 3 kernel, padding 1, stride 2,
dilation 1, one group (output 3 x 4); channel 1, tap (2, 0), the last output location
(2, 3), read at row 4 and column 6. -/
theorem C22_offset_mask_reads_in_bounds_witness :
    ((2 : ℤ) * 2 < 5 ∧ (3 : ℤ) * 2 < 7) ∧
    0 ≤ offsetIndex (im2col_launch_args 2 5 7 3 3 1 1 2 2 1 1 1).2 0 (2 * (2 * 3 + 0) + 1)
        (2 * 2) (3 * 2) ∧
    offsetIndex (im2col_launch_args 2 5 7 3 3 1 1 2 2 1 1 1).2 0 (2 * (2 * 3 + 0) + 1)
        (2 * 2) (3 * 2) < 2 * 3 * 3 * 1 * 5 * 7 := by
  have h := C22_offset_mask_reads_in_bounds rampBuf rampBuf 2 5 7 3 3 1 1 2 2 1 1 1 1 0 2 0 2 3
    (by decide) (by decide) (by decide) (by decide) (by decide) (by decide) (by decide)
    (by decide) (by decide) (by decide) (by decide) (by decide) (by decide) (by decide)
    (by decide) (by decide) (by decide) (by decide) (by decide) (by decide)
  exact ⟨h.1, h.2.2.2.1.2.1, h.2.2.2.1.2.2⟩

/-- Claim C23 (field reads of the sampling primitives are in bounds under the range
guard): for every coordinate with `-1 < h < height`, `-1 < w < width` and
`data_width = width`, every position at which `im2col_bilinear_cuda` and
`get_coordinate_weight_cuda` read the field is `y * width + x` for a corner `(y, x)`
with `0 <= y < height`, `0 <= x < width`, hence lies in `[0, height * width)`; the read
positions are those of the corners whose guard holds, and the results depend on the
field through these positions only. -/
theorem C23_field_reads_in_bounds (height width bp_dir : ℤ) (h w : ℚ)
    (hh1 : -1 < h) (hh2 : h < height) (hw1 : -1 < w) (hw2 : w < width) :
    (∀ k ∈ im2col_bilinear_reads width height width h w,
      ∃ y x : ℤ, 0 ≤ y ∧ y < height ∧ 0 ≤ x ∧ x < width ∧ k = y * width + x ∧
        0 ≤ k ∧ k < height * width) ∧
    (∀ k ∈ get_coordinate_weight_reads h w height width width bp_dir,
      ∃ y x : ℤ, 0 ≤ y ∧ y < height ∧ 0 ≤ x ∧ x < width ∧ k = y * width + x ∧
        0 ≤ k ∧ k < height * width) ∧
    (∀ F F' : Buf, (∀ k ∈ im2col_bilinear_reads width height width h w, F k = F' k) →
      im2col_bilinear_cuda F width height width h w
        = im2col_bilinear_cuda F' width height width h w) ∧
    (∀ F F' : Buf,
      (∀ k ∈ get_coordinate_weight_reads h w height width width bp_dir, F k = F' k) →
      get_coordinate_weight_cuda h w height width F width bp_dir
        = get_coordinate_weight_cuda h w height width F' width bp_dir) :=
  ⟨fun k hk => im2col_bilinear_reads_in_field height width h w hh1 hh2 hw1 hw2 k hk,
    fun k hk => get_coordinate_weight_reads_in_field height width bp_dir h w k hk,
    fun F F' hF => im2col_bilinear_cuda_reads_only F F' width height width h w hF,
    fun F F' hF => get_coordinate_weight_cuda_reads_only F F' h w height width width bp_dir hF⟩

/-- Instance of C23 at `(h, w) = (1 / 2, 1 / 2)` in a 2 x 2 field: the four positions
read are 0, 1, 2, 3, all below 4. -/
theorem C23_field_reads_in_bounds_witness :
    im2col_bilinear_reads 2 2 2 (1 / 2) (1 / 2) = [0, 1, 2, 3] ∧
    (∀ k ∈ im2col_bilinear_reads 2 2 2 (1 / 2) (1 / 2),
      ∃ y x : ℤ, 0 ≤ y ∧ y < 2 ∧ 0 ≤ x ∧ x < 2 ∧ k = y * 2 + x ∧ 0 ≤ k ∧ k < 2 * 2) :=
  ⟨example_bilinear_reads,
    (C23_field_reads_in_bounds 2 2 0 (1 / 2) (1 / 2) (by norm_num) (by norm_num) (by norm_num)
      (by norm_num)).1⟩

/-- Claim C24 (image-gradient scatter writes are in bounds): for every footprint with
kernel and output sizes of at least 1, every flat index
`0 <= idx < channels*kernel_h*kernel_w*height_col*width_col` and every sampling
coordinate, whatever the offsets are, the channel `c` decoded from `idx` is a channel
of the image, every position `cur_bottom_grad_pos` that passes the bounds test of the
scan lies in the slice `[c*height*width, (c+1)*height*width)` of that channel, hence in
`[0, channels*height*width)`, and the body of `idx` changes no cell outside that
slice. -/
theorem C24_scatter_writes_in_bounds (MODULATED : Bool)
    (data_col data_offset data_mask : Buf) (p : Footprint) (grad_im : Buf) (idx : ℤ)
    (hkh : 1 ≤ p.kernel_h) (hkw : 1 ≤ p.kernel_w) (hhc : 1 ≤ p.height_col)
    (hwc : 1 ≤ p.width_col) (h0 : 0 ≤ idx)
    (h1 : idx < p.channels * p.kernel_h * p.kernel_w * p.height_col * p.width_col) :
    (0 ≤ (col2im_decode p idx).1 ∧ (col2im_decode p idx).1 < p.channels) ∧
    (∀ cur_h cur_w dy dx : ℤ,
      cur_h + dy ≥ 0 ∧ cur_h + dy < p.height ∧ cur_w + dx ≥ 0 ∧ cur_w + dx < p.width →
      ((col2im_decode p idx).1 * p.height * p.width
          ≤ ((col2im_decode p idx).1 * p.height + cur_h + dy) * p.width + cur_w + dx ∧
        ((col2im_decode p idx).1 * p.height + cur_h + dy) * p.width + cur_w + dx
          < ((col2im_decode p idx).1 + 1) * p.height * p.width) ∧
      (0 ≤ ((col2im_decode p idx).1 * p.height + cur_h + dy) * p.width + cur_w + dx ∧
        ((col2im_decode p idx).1 * p.height + cur_h + dy) * p.width + cur_w + dx
          < p.channels * p.height * p.width)) ∧
    (∀ q : ℤ, (q < (col2im_decode p idx).1 * p.height * p.width ∨
        ((col2im_decode p idx).1 + 1) * p.height * p.width ≤ q) →
      col2im_thread MODULATED data_col data_offset data_mask p grad_im idx q = grad_im q) := by
  obtain ⟨c0, c1⟩ := col2im_decode_channel p idx hkh hkw hhc hwc h0 h1
  refine ⟨⟨c0, c1⟩, fun cur_h cur_w dy dx hb => ?_,
    fun q hq => col2im_thread_outside MODULATED data_col data_offset data_mask p grad_im idx q
      hq⟩
  obtain ⟨y0, y1, x0, x1⟩ := hb
  obtain ⟨b1, b2⟩ := channel_pos_bound p.height p.width (col2im_decode p idx).1 (cur_h + dy)
    (cur_w + dx) y0 y1 x0 x1
  have e : ((col2im_decode p idx).1 * p.height + cur_h + dy) * p.width + cur_w + dx
      = ((col2im_decode p idx).1 * p.height + (cur_h + dy)) * p.width + (cur_w + dx) := by ring
  rw [e]
  have hHW : 0 < p.height * p.width := mul_pos (by omega) (by omega)
  have k1 : 0 ≤ (col2im_decode p idx).1 * p.height * p.width := by
    rw [mul_assoc]; exact mul_nonneg c0 hHW.le
  have k2 : ((col2im_decode p idx).1 + 1) * p.height * p.width
      ≤ p.channels * p.height * p.width := by
    rw [mul_assoc, mul_assoc]
    exact mul_le_mul_of_nonneg_right (by omega) hHW.le
  exact ⟨⟨b1, b2⟩, by omega, by omega⟩

/-- Instance of C24: flat index 150 of the example launch is the column cell of channel
1, tap (0, 0), output location (1, 2), whose sampling coordinate `(1 / 4, 5 / 4)` is in
range: the decoded channel is 1, the scanned pixel (0, 1) is at position 17 of the
slice `[16, 32)` of channel 1, the body adds `9 / 16 * 1057 = 9513 / 16` there, and it
leaves cell 0, a pixel of channel 0, as it was. -/
theorem C24_scatter_writes_in_bounds_witness :
    colIndex exampleFootprint 1 0 0 1 2 = 150 ∧
    (0 ≤ (col2im_decode exampleFootprint 150).1 ∧
      (col2im_decode exampleFootprint 150).1 < exampleFootprint.channels) ∧
    (col2im_decode exampleFootprint 150).1 = 1 ∧
    (((col2im_decode exampleFootprint 150).1 * exampleFootprint.height
          * exampleFootprint.width
        ≤ ((col2im_decode exampleFootprint 150).1 * exampleFootprint.height + 0 + 0)
            * exampleFootprint.width + 1 + 0 ∧
      ((col2im_decode exampleFootprint 150).1 * exampleFootprint.height + 0 + 0)
            * exampleFootprint.width + 1 + 0
        < ((col2im_decode exampleFootprint 150).1 + 1) * exampleFootprint.height
            * exampleFootprint.width) ∧
      (0 ≤ ((col2im_decode exampleFootprint 150).1 * exampleFootprint.height + 0 + 0)
            * exampleFootprint.width + 1 + 0 ∧
        ((col2im_decode exampleFootprint 150).1 * exampleFootprint.height + 0 + 0)
            * exampleFootprint.width + 1 + 0
          < exampleFootprint.channels * exampleFootprint.height * exampleFootprint.width)) ∧
    imIndex exampleFootprint 1 0 1 = 17 ∧
    col2im_thread true rampBuf quarterBuf rampBuf exampleFootprint zeroBuf
        (colIndex exampleFootprint 1 0 0 1 2) (imIndex exampleFootprint 1 0 1) = 9513 / 16 ∧
    col2im_thread true rampBuf quarterBuf rampBuf exampleFootprint zeroBuf 150 0 = zeroBuf 0 :=
  ⟨by decide,
    (C24_scatter_writes_in_bounds true rampBuf quarterBuf rampBuf exampleFootprint zeroBuf 150
      (by decide) (by decide) (by decide) (by decide) (by decide) (by decide)).1,
    by decide,
    (C24_scatter_writes_in_bounds true rampBuf quarterBuf rampBuf exampleFootprint zeroBuf 150
      (by decide) (by decide) (by decide) (by decide) (by decide) (by decide)).2.1 0 1 0 0
      (by decide),
    by decide, example_scatter_value,
    (C24_scatter_writes_in_bounds true rampBuf quarterBuf rampBuf exampleFootprint zeroBuf 150
      (by decide) (by decide) (by decide) (by decide) (by decide) (by decide)).2.2 0
      (Or.inl (by decide))⟩

/-- Claim C25 (bilinear sampling is a convex combination): for every coordinate the
four weights `hh*hw`, `hh*lw`, `lh*hw`, `lh*lw` are each in `[0, 1]` and sum to 1; for
every field and every coordinate with `0 <= h < height - 1`, `0 <= w < width - 1` the
result of `im2col_bilinear_cuda` is the sum of the four corner values with these
weights, lies between the minimum and the maximum of the four corner values, and is
the constant for a constant field. -/
theorem C25_bilinear_convex_combination (field : Buf) (data_width height width : ℤ)
    (h w : ℚ) :
    ((0 ≤ (1 - (h - ⌊h⌋)) * (1 - (w - ⌊w⌋)) ∧ (1 - (h - ⌊h⌋)) * (1 - (w - ⌊w⌋)) ≤ 1) ∧
      (0 ≤ (1 - (h - ⌊h⌋)) * (w - ⌊w⌋) ∧ (1 - (h - ⌊h⌋)) * (w - ⌊w⌋) ≤ 1) ∧
      (0 ≤ (h - ⌊h⌋) * (1 - (w - ⌊w⌋)) ∧ (h - ⌊h⌋) * (1 - (w - ⌊w⌋)) ≤ 1) ∧
      (0 ≤ (h - ⌊h⌋) * (w - ⌊w⌋) ∧ (h - ⌊h⌋) * (w - ⌊w⌋) ≤ 1) ∧
      (1 - (h - ⌊h⌋)) * (1 - (w - ⌊w⌋)) + (1 - (h - ⌊h⌋)) * (w - ⌊w⌋)
        + (h - ⌊h⌋) * (1 - (w - ⌊w⌋)) + (h - ⌊h⌋) * (w - ⌊w⌋) = 1) ∧
    (0 ≤ h → h < height - 1 → 0 ≤ w → w < width - 1 →
    im2col_bilinear_cuda field data_width height width h w
      = (1 - (h - ⌊h⌋)) * (1 - (w - ⌊w⌋)) * field (⌊h⌋ * data_width + ⌊w⌋)
        + (1 - (h - ⌊h⌋)) * (w - ⌊w⌋) * field (⌊h⌋ * data_width + (⌊w⌋ + 1))
        + (h - ⌊h⌋) * (1 - (w - ⌊w⌋)) * field ((⌊h⌋ + 1) * data_width + ⌊w⌋)
        + (h - ⌊h⌋) * (w - ⌊w⌋) * field ((⌊h⌋ + 1) * data_width + (⌊w⌋ + 1)) ∧
    min (min (field (⌊h⌋ * data_width + ⌊w⌋)) (field (⌊h⌋ * data_width + (⌊w⌋ + 1))))
        (min (field ((⌊h⌋ + 1) * data_width + ⌊w⌋))
          (field ((⌊h⌋ + 1) * data_width + (⌊w⌋ + 1))))
      ≤ im2col_bilinear_cuda field data_width height width h w ∧
    im2col_bilinear_cuda field data_width height width h w
      ≤ max (max (field (⌊h⌋ * data_width + ⌊w⌋)) (field (⌊h⌋ * data_width + (⌊w⌋ + 1))))
        (max (field ((⌊h⌋ + 1) * data_width + ⌊w⌋))
          (field ((⌊h⌋ + 1) * data_width + (⌊w⌋ + 1)))) ∧
    (∀ v : ℚ, (∀ k, field k = v) →
      im2col_bilinear_cuda field data_width height width h w = v)) := by
  refine ⟨bilinear_weights h w, fun hh hh2 hw hw2 => ?_⟩
  have hwts := bilinear_weights h w
  have hint := im2col_bilinear_cuda_interior field data_width height width h w hh hh2 hw hw2
  obtain ⟨⟨w1, -⟩, ⟨w2, -⟩, ⟨w3, -⟩, ⟨w4, -⟩, hs⟩ := hwts
  have hcv := convex_bounds _ _ _ _ (field (⌊h⌋ * data_width + ⌊w⌋))
    (field (⌊h⌋ * data_width + (⌊w⌋ + 1))) (field ((⌊h⌋ + 1) * data_width + ⌊w⌋))
    (field ((⌊h⌋ + 1) * data_width + (⌊w⌋ + 1))) w1 w2 w3 w4 hs
  rw [← hint] at hcv
  refine ⟨hint, hcv.1, hcv.2, fun v hv => ?_⟩
  rw [hint, hv, hv, hv, hv]
  linear_combination v * hs

/-- Instance of C25 at `(h, w) = (1 / 2, 1 / 2)` in the first channel of the two-channel
2 x 2 image (corner values 1, 2, 3, 4). -/
theorem C25_bilinear_convex_combination_witness :
    min (min (twoChannelImage (⌊(1 / 2 : ℚ)⌋ * 2 + ⌊(1 / 2 : ℚ)⌋))
          (twoChannelImage (⌊(1 / 2 : ℚ)⌋ * 2 + (⌊(1 / 2 : ℚ)⌋ + 1))))
        (min (twoChannelImage ((⌊(1 / 2 : ℚ)⌋ + 1) * 2 + ⌊(1 / 2 : ℚ)⌋))
          (twoChannelImage ((⌊(1 / 2 : ℚ)⌋ + 1) * 2 + (⌊(1 / 2 : ℚ)⌋ + 1))))
      ≤ im2col_bilinear_cuda twoChannelImage 2 2 2 (1 / 2) (1 / 2) :=
  ((C25_bilinear_convex_combination twoChannelImage 2 2 2 (1 / 2) (1 / 2)).2 (by norm_num)
    (by norm_num) (by norm_num) (by norm_num)).2.1

/-- Claim C26 (without modulation the mask plays no role): with `MODULATED = false`, for
any two mask buffers, any two initial mask-gradient buffers, every input, footprint and
launch size, the forward column buffer, the image gradient and the offset gradient of
the two runs are identical, and the offset/mask-gradient kernel leaves the
mask-gradient buffer as it was. -/
theorem C26_mask_unused_without_modulation (n : ℤ)
    (data_im data_col data_offset mask1 mask2 : Buf) (p : Footprint)
    (col grad_im grad_offset grad_mask1 grad_mask2 : Buf) :
    modulated_deformable_im2col_gpu_kernel false n data_im data_offset mask1 p col
      = modulated_deformable_im2col_gpu_kernel false n data_im data_offset mask2 p col ∧
    modulated_deformable_col2im_gpu_kernel false n data_col data_offset mask1 p grad_im
      = modulated_deformable_col2im_gpu_kernel false n data_col data_offset mask2 p grad_im ∧
    (modulated_deformable_col2im_coord_gpu_kernel false n data_col data_im data_offset mask1 p
        grad_offset grad_mask1).1
      = (modulated_deformable_col2im_coord_gpu_kernel false n data_col data_im data_offset
          mask2 p grad_offset grad_mask2).1 ∧
    (modulated_deformable_col2im_coord_gpu_kernel false n data_col data_im data_offset mask1 p
        grad_offset grad_mask1).2 = grad_mask1 := by
  refine ⟨?_, ?_, ?_, coord_kernel_keeps_mask n data_col data_im data_offset mask1 p
    grad_offset grad_mask1⟩
  · unfold modulated_deformable_im2col_gpu_kernel
    rw [im2col_thread_mask_free data_im data_offset mask1 mask2 p]
  · unfold modulated_deformable_col2im_gpu_kernel
    rw [col2im_thread_mask_free data_col data_offset mask1 mask2 p]
  · have e : col2im_coord_thread false data_col data_im data_offset mask1 p
        = col2im_coord_thread false data_col data_im data_offset mask2 p := by
      funext st idx
      exact (col2im_coord_thread_mask_free data_col data_im data_offset mask1 mask2 p st idx).1
    funext q
    rw [(coord_kernel_additive false n data_col data_im data_offset mask1 p grad_offset
        grad_mask1 q).1,
      (coord_kernel_additive false n data_col data_im data_offset mask2 p grad_offset
        grad_mask2 q).1]
    unfold modulated_deformable_col2im_coord_gpu_kernel
    rw [e]

end DeformableIm2col
